import Mathlib

/-!
# otomatik: job manager, retry engine, challenge selection and solvers

A shallow embedding of `async.go`, `acmeclient.go`, `solvers.go` and
`httphandler.go`, followed by the properties proved about it.

Conventions of the embedding:

* a Go `error` value is `Option GoError`, `none` being `nil`;
* a goroutine-shared structure guarded by a mutex is a state value, and every
  critical section is one atomic transition on it;
* calls that leave the package (clock, timers, sockets, the random source,
  the standard library's URL and JSON codecs) are oracles passed as arguments.
-/

namespace Otomatik

/-! ## async.go: the job manager -/

/-- A queue entry `namedJob{name, job}`; the closure `job` is represented by an
identifier. -/
structure NamedJob where
  name : String
  job : Nat
deriving DecidableEq, Repr

/-- The struct `jobManager` without its mutex. The map `names` is its key set;
the `nil` map and the empty map behave alike for lookup and `delete`, and
`Submit` replaces a `nil` map by an empty one before anything else. -/
structure JobManager where
  maxConcurrentJobs : Int
  activeWorkers : Int
  queue : List NamedJob
  names : Finset String
deriving DecidableEq

/-- The method `jobManager.Submit`, one critical section. The Boolean tells
whether `go jobmanager.worker()` was executed. -/
def JobManager.Submit (jm : JobManager) (name : String) (job : Nat) : JobManager × Bool :=
  if name ≠ "" ∧ name ∈ jm.names then
    (jm, false)
  else
    let names := if name ≠ "" then insert name jm.names else jm.names
    let queue := jm.queue ++ [⟨name, job⟩]
    if jm.activeWorkers < jm.maxConcurrentJobs then
      ({ jm with names := names, queue := queue, activeWorkers := jm.activeWorkers + 1 }, true)
    else
      ({ jm with names := names, queue := queue }, false)

/-- The first critical section of the loop body of `jobManager.worker`: on an
empty queue the worker gives up its slot and returns (`none`), otherwise it
takes the head of the queue. -/
def JobManager.workerHead (jm : JobManager) : JobManager × Option NamedJob :=
  match jm.queue with
  | [] => ({ jm with activeWorkers := jm.activeWorkers - 1 }, none)
  | next :: rest => ({ jm with queue := rest }, some next)

/-- The second critical section of the loop body of `jobManager.worker`: after
`next.job()` has returned, a non-empty name is deleted from `names`. -/
def JobManager.workerRelease (jm : JobManager) (next : NamedJob) : JobManager :=
  if next.name ≠ "" then { jm with names := jm.names.erase next.name } else jm

/-- The job manager together with its worker goroutines. `idle` counts the
workers standing at the head of their loop, `running` holds the entries that
workers have dequeued and not yet released. `started` and `finished` are
history logs (ghost state). -/
structure Sys where
  jm : JobManager
  idle : Nat
  running : List NamedJob
  started : List NamedJob
  finished : List NamedJob
deriving DecidableEq

/-- The transitions of the job manager. -/
inductive Event where
  /-- Some goroutine calls `Submit name job`. -/
  | submit (name : String) (job : Nat)
  /-- An idle worker enters its loop body and executes the first critical section. -/
  | workerLoop
  /-- The worker holding `running[i]` sees its job return and releases the name. -/
  | finish (i : Nat)
deriving DecidableEq, Repr

/-- A manager on which nothing has happened yet, as `&jobManager{maxConcurrentJobs: m}`. -/
def Sys.init (m : Int) : Sys :=
  { jm := { maxConcurrentJobs := m, activeWorkers := 0, queue := [], names := ∅ }
    idle := 0, running := [], started := [], finished := [] }

/-- The package-level variable `jobmanager`. -/
def jobmanager : Sys := Sys.init 1000

/-- One transition; `none` when the event is not enabled in `s`. -/
def Sys.step (s : Sys) : Event → Option Sys
  | .submit name job =>
    let r := s.jm.Submit name job
    some { s with jm := r.1, idle := if r.2 then s.idle + 1 else s.idle }
  | .workerLoop =>
    if s.idle = 0 then none
    else
      match s.jm.workerHead with
      | (jm', none) => some { s with jm := jm', idle := s.idle - 1 }
      | (jm', some next) =>
        some { s with jm := jm', idle := s.idle - 1,
                      running := s.running ++ [next], started := s.started ++ [next] }
  | .finish i =>
    match s.running[i]? with
    | none => none
    | some next =>
      some { s with jm := s.jm.workerRelease next, idle := s.idle + 1,
                    running := s.running.eraseIdx i, finished := s.finished ++ [next] }

/-- Run a sequence of transitions. -/
def Sys.run (s : Sys) : List Event → Option Sys
  | [] => some s
  | e :: es => (s.step e).bind fun s' => s'.run es

/-- The entries that are queued or held by a worker. -/
def Sys.inFlight (s : Sys) : List NamedJob := s.jm.queue ++ s.running

/-- Number of entries of `l` named `n`. -/
def countName (n : String) (l : List NamedJob) : Nat := l.countP fun j => j.name = n

/-- Number of `Submit` calls for the name `n` in an event sequence. -/
def submitsOf (n : String) (es : List Event) : Nat :=
  es.countP fun e => match e with
    | .submit name _ => name = n
    | _ => false

/-- The job passed by the first `Submit` call for the name `n`. -/
def firstSubmit (n : String) : List Event → Option Nat
  | [] => none
  | .submit name job :: es => if name = n then some job else firstSubmit n es
  | _ :: es => firstSubmit n es

/-- The entries of `l` named `n`, in order. -/
def onlyName (n : String) (l : List NamedJob) : List NamedJob := l.filter fun j => j.name = n

/-- An event of a worker goroutine, as opposed to a `Submit` call. -/
def Event.isWorker : Event → Bool
  | .submit _ _ => false
  | _ => true

/-- The state of `jobmanager` after `Submit("obtain:example.com", job 7)`. -/
def afterOneSubmit : Sys :=
  { jm := { maxConcurrentJobs := 1000, activeWorkers := 1,
            queue := [⟨"obtain:example.com", 7⟩], names := {"obtain:example.com"} }
    idle := 1, running := [], started := [], finished := [] }

/-- A manager with the name `"renew:a.example"` in flight, used to evaluate `Submit`. -/
def busyManager : JobManager :=
  { maxConcurrentJobs := 1000, activeWorkers := 1,
    queue := [⟨"renew:a.example", 3⟩], names := {"renew:a.example"} }

/-- The invariant behind single flight: a non-empty name occurs at most once
among the queued and running entries, and `names` holds exactly the non-empty
names that occur there. -/
def SingleFlightInv (s : Sys) : Prop :=
  ∀ n : String, n ≠ "" →
    countName n s.inFlight ≤ 1 ∧ (n ∈ s.jm.names ↔ 0 < countName n s.inFlight)

/-- The bookkeeping of workers: `activeWorkers` counts the live worker goroutines,
and with a positive cap a non-empty queue always has a live worker. -/
def WorkersInv (s : Sys) : Prop :=
  s.jm.activeWorkers = s.idle + s.running.length ∧
    (1 ≤ s.jm.maxConcurrentJobs → s.jm.queue ≠ [] → 1 ≤ s.jm.activeWorkers)

/-! ## async.go: the retry engine -/

/-- Go error values, as far as `errors.Is`, `errors.As` and type assertions
can tell them apart: the sentinel `context.Canceled`, an error that wraps
nothing, the struct `ErrNoRetry` with a `nil` or a non-`nil` field `Err`, any
other error with an `Unwrap` method, and a value of the ACME library's struct
`acme.ProblemDetails` with its field `HTTPStatus` and its text. -/
inductive GoError where
  | canceled
  | plain (msg : String)
  | noRetryNil
  | noRetry (inner : GoError)
  | wrap (msg : String) (inner : GoError)
  | problem (httpStatus : Int) (msg : String)
deriving DecidableEq, Repr

/-- The test `errors.Is(err, context.Canceled)`: walk the `Unwrap` chain;
`ErrNoRetry.Unwrap` returns the field `Err`. -/
def GoError.isCanceled : GoError → Bool
  | .canceled => true
  | .plain _ => false
  | .noRetryNil => false
  | .noRetry inner => inner.isCanceled
  | .wrap _ inner => inner.isCanceled
  | .problem _ _ => false

/-- The test `errors.As(err, &errNoRetry)` with `errNoRetry` of type `ErrNoRetry`. -/
def GoError.asNoRetry : GoError → Bool
  | .canceled => false
  | .plain _ => false
  | .noRetryNil => true
  | .noRetry _ => true
  | .wrap _ inner => inner.asNoRetry
  | .problem _ _ => false

/-- The constant `time.Minute`; a `time.Duration` counts nanoseconds. -/
def minute : Int := 60 * 1000000000

/-- The constant `time.Hour`. -/
def hour : Int := 60 * minute

/-- The package variable `retryIntervals`. -/
def retryIntervals : List Int :=
  [1 * minute, 2 * minute, 2 * minute, 5 * minute, 10 * minute, 20 * minute, 20 * minute,
   30 * minute, 30 * minute, 1 * hour, 3 * hour, 6 * hour]

/-- The constant `maxRetryDuration`. -/
def maxRetryDuration : Int := 24 * hour * 30

/-- The index expression `retryIntervals[i]` for an `int` index; `none` is the
run-time panic on an index out of range. -/
def retryIntervalAt (i : Int) : Option Int :=
  if 0 ≤ i then retryIntervals[i.toNat]? else none

/-- What `doWithRetry` cannot decide itself. Every field is indexed by the value
of `attempts` at the time of the observation, which is also the number of the
loop iteration, counted from 0. -/
structure RetryEnv where
  /-- The result of the call `f(ctx)` made when `attempts` is `k`. -/
  f : Nat → Option GoError
  /-- The reading `time.Since(start)` in the loop condition. -/
  sinceHead : Nat → Int
  /-- The reading `time.Since(start)` in the `if` after a failed call. -/
  sinceTail : Nat → Int
  /-- Whether the `select` receives from `ctx.Done()` rather than from `timer.C`. -/
  ctxDone : Nat → Bool

/-- How a run of `doWithRetry` ends. -/
inductive RetryOutcome where
  /-- The function returned this `error`. -/
  | returned (err : Option GoError)
  /-- An index expression panicked. -/
  | indexPanic
  /-- The loop is still running after the given number of iterations. -/
  | pending
deriving DecidableEq, Repr

/-- A run of `doWithRetry`: how it ended, the final value of `attempts` (the
number of calls of `f`), and the durations of the timers it created, in order. -/
structure RetryRun where
  outcome : RetryOutcome
  attempts : Nat
  waits : List Int
deriving DecidableEq, Repr

/-- The `for` loop of `doWithRetry`, at most `fuel` iterations of it, started
with the given values of the local variables. -/
def retryLoop (env : RetryEnv) :
    Nat → Nat → Int → Option GoError → List Int → RetryRun
  | 0, attempts, _, _, waits => ⟨.pending, attempts, waits⟩
  | fuel + 1, attempts, intervalIndex, err, waits =>
    if env.sinceHead attempts < maxRetryDuration then
      match (if 0 ≤ intervalIndex then retryIntervalAt intervalIndex else some 0) with
      | none => ⟨.indexPanic, attempts, waits⟩
      | some wait =>
        if env.ctxDone attempts then
          ⟨.returned (some .canceled), attempts, waits ++ [wait]⟩
        else
          match env.f attempts with
          | none => ⟨.returned none, attempts + 1, waits ++ [wait]⟩
          | some e =>
            if e.isCanceled then ⟨.returned (some e), attempts + 1, waits ++ [wait]⟩
            else if e.asNoRetry then ⟨.returned (some e), attempts + 1, waits ++ [wait]⟩
            else
              let next : Int :=
                if intervalIndex < (retryIntervals.length : Int) - 1 then intervalIndex + 1
                else intervalIndex
              if env.sinceTail attempts < maxRetryDuration then
                match retryIntervalAt next with
                | none => ⟨.indexPanic, attempts + 1, waits ++ [wait]⟩
                | some _ => retryLoop env fuel (attempts + 1) next (some e) (waits ++ [wait])
              else
                ⟨.returned none, attempts + 1, waits ++ [wait]⟩
    else
      ⟨.returned err, attempts, waits⟩

/-- The function `doWithRetry`, observed for at most `fuel` iterations. -/
def doWithRetry (env : RetryEnv) (fuel : Nat) : RetryRun :=
  retryLoop env fuel 0 (-1) none []

/-- The wait before the call of `f` number `k` (counted from 0) according to
the backoff schedule: nothing before the first call, then the entries of
`retryIntervals` in order, the index clamped to 11. -/
def backoff (k : Nat) : Option Int :=
  if k = 0 then some 0 else retryIntervals[min (k - 1) 11]?

/-- The value of `intervalIndex` at the head of iteration `k`. -/
def idxAt (k : Nat) : Int :=
  if k = 0 then -1 else ((min (k - 1) 11 : Nat) : Int)

/-- Iteration `k` of the loop passes both clock checks, is not interrupted by
the context, and its call of `f` fails with an error that asks for a retry. -/
def Retried (env : RetryEnv) (k : Nat) : Prop :=
  env.sinceHead k < maxRetryDuration ∧ env.ctxDone k = false ∧
    (∃ e, env.f k = some e ∧ e.isCanceled = false ∧ e.asNoRetry = false) ∧
    env.sinceTail k < maxRetryDuration

/-- Time elapsed after the first `k` waits of the backoff schedule. -/
def elapsed : Nat → Int
  | 0 => 0
  | k + 1 => elapsed k + (backoff k).getD 0

/-- An operation that fails at once on every call with an ordinary error, under
a context that is never cancelled; the clock advances by the waits alone. -/
def steadyFailure : RetryEnv :=
  { f := fun _ => some (.plain "no route to host")
    sinceHead := fun k => elapsed k
    sinceTail := fun k => elapsed (k + 1)
    ctxDone := fun _ => false }

/-- An operation whose first call fails with an ordinary error after having
blocked for thirty days. -/
def slowFailure : RetryEnv :=
  { f := fun _ => some (.plain "timeout")
    sinceHead := fun _ => 0
    sinceTail := fun _ => maxRetryDuration
    ctxDone := fun _ => false }

/-- An operation that fails once with an ordinary error and then succeeds. -/
def failsOnce : RetryEnv :=
  { f := fun k => if k = 0 then some (.plain "connection reset") else none
    sinceHead := fun k => elapsed k
    sinceTail := fun k => elapsed (k + 1)
    ctxDone := fun _ => false }

/-! ## acmeclient.go: challenge selection -/

/-- The string type `challenge.Type` of the ACME library. -/
abbrev ChallengeType := String

/-- The library constant `challenge.HTTP01`. -/
def HTTP01 : ChallengeType := "http-01"

/-- The library constant `challenge.DNS01`. -/
def DNS01 : ChallengeType := "dns-01"

/-- The library constant `challenge.TLSALPN01`. -/
def TLSALPN01 : ChallengeType := "tls-alpn-01"

/-- The struct `ExternalAccountBinding` as `newACMEClient` reads it. -/
structure ExternalAccountBinding where
  KeyID : String
  HMAC : String
deriving DecidableEq, Repr

/-- Modelled from the spec: the declaration of the struct `ACMEManager` is not
among the embedded files; these are the fields they read and write, the
configuration options of an ACME manager. Interface and pointer fields
(`DNSProvider`, `DNSChallengeOption`, `TrustedRoots`, `config`) are `none` for
`nil` and otherwise hold an identifier of the object. -/
structure ACMEManager where
  CA : String
  TestCA : String
  Email : String
  Agreed : Bool
  ExternalAccount : Option ExternalAccountBinding
  DisableHTTPChallenge : Bool
  DisableTLSALPNChallenge : Bool
  ListenHost : String
  AltHTTPPort : Int
  AltTLSALPNPort : Int
  DNSProvider : Option Nat
  DNSChallengeOption : Option Nat
  CertObtainTimeout : Int
  TrustedRoots : Option Nat
  config : Nat
deriving DecidableEq, Repr

/-- Package-level constants and variables declared outside the embedded files. -/
structure Globals where
  HTTPPort : Int
  HTTPSPort : Int
  HTTPChallengePort : Int
  TLSALPNChallengePort : Int
  DefaultACME : ACMEManager
  UserAgent : String
  HTTPTimeout : Int
deriving DecidableEq, Repr

/-- The struct `httpSolver`. -/
structure HttpSolver where
  closed : Int
  acmeManager : ACMEManager
  address : String
deriving DecidableEq, Repr

/-- The struct `tlsALPNSolver`; `config` identifies the `*Config`. -/
structure TlsALPNSolver where
  config : Nat
  address : String
deriving DecidableEq, Repr

/-- The values of the interface field `providerServer`: `nil`, or one of the
two solvers that `nextChallenge` stores there. -/
inductive ProviderServer where
  | unset
  | http (s : HttpSolver)
  | tlsALPN (s : TlsALPNSolver)
deriving DecidableEq, Repr

/-- The struct `distributedSolver`. -/
structure DistributedSolver where
  acmeManager : ACMEManager
  providerServer : ProviderServer
  caURL : String
deriving DecidableEq, Repr

/-- A challenge provider registered with the ACME library's client. -/
inductive Provider where
  /-- A provider the library installed itself. -/
  | builtin
  /-- A `distributedSolver` installed by `SetHTTP01Provider` or `SetTLSALPN01Provider`. -/
  | distributed (d : DistributedSolver)
  /-- The arguments of `SetDNS01Provider`: the provider and the optional option. -/
  | dns (provider : Option Nat) (option : Option Nat)
deriving DecidableEq, Repr

/-- The field `Challenge` of the library client: at most one provider per
challenge type. `Remove` clears an entry, the `Set…Provider` methods fill one. -/
structure SolverManager where
  http01 : Option Provider
  tlsalpn01 : Option Provider
  dns01 : Option Provider
deriving DecidableEq, Repr

/-- The part of a `*lego.Client` that the package touches: its identity as a
pointer, the terms-of-service URL of its directory, the timeout it was
configured with, and its challenge providers. -/
structure LegoClient where
  ptr : Nat
  tosURL : String
  certTimeout : Int
  Challenge : SolverManager
deriving DecidableEq, Repr

/-- The struct `acmeClient`. -/
structure AcmeClient where
  caURL : String
  mgr : ACMEManager
  acmeClient : LegoClient
  challenges : List ChallengeType
deriving DecidableEq, Repr

/-- The method `acmeClient.initialChallenges`. -/
def AcmeClient.initialChallenges (client : AcmeClient) : List ChallengeType :=
  if client.mgr.DNSProvider ≠ none then
    [DNS01]
  else
    let chal : List ChallengeType := []
    let chal := if !client.mgr.DisableHTTPChallenge then chal ++ [HTTP01] else chal
    let chal := if !client.mgr.DisableTLSALPNChallenge then chal ++ [TLSALPN01] else chal
    chal

/-- The library function `net.JoinHostPort`: a host containing a colon is put
in brackets. -/
def joinHostPort (host port : String) : String :=
  if ':' ∈ host.toList then "[" ++ host ++ "]:" ++ port else host ++ ":" ++ port

/-- The library function `strconv.Itoa`. -/
def itoa (n : Int) : String := toString n

/-- The method `acmeClient.nextChallenge`. The argument `randIdx` is the value
returned by `weakrand.Intn(len(available))`; the result is `none` when an index
expression panics, which needs `randIdx` outside `[0, len(available))`. The
returned client carries the updated challenge providers. -/
def AcmeClient.nextChallenge (g : Globals) (client : AcmeClient)
    (available : List ChallengeType) (randIdx : Nat) :
    Option ((ChallengeType × List ChallengeType) × AcmeClient) :=
  if available.length = 0 then
    some (("", available), client)
  else
    match available[randIdx]? with
    | none => none
    | some randomChallenge =>
      let available := available.take randIdx ++ available.drop (randIdx + 1)
      -- clean the slate, since clients are reused
      let cleared : SolverManager := { http01 := none, tlsalpn01 := none, dns01 := none }
      let Challenge : SolverManager :=
        if randomChallenge = HTTP01 then
          let useHTTPPort := g.HTTPChallengePort
          let useHTTPPort :=
            if 0 < g.HTTPPort ∧ g.HTTPPort ≠ g.HTTPChallengePort then g.HTTPPort else useHTTPPort
          let useHTTPPort :=
            if 0 < client.mgr.AltHTTPPort then client.mgr.AltHTTPPort else useHTTPPort
          { cleared with
            http01 := some (.distributed
              { acmeManager := client.mgr
                providerServer := .http
                  { closed := 0, acmeManager := client.mgr
                    address := joinHostPort client.mgr.ListenHost (itoa useHTTPPort) }
                caURL := client.caURL }) }
        else if randomChallenge = TLSALPN01 then
          let useTLSALPNPort := g.TLSALPNChallengePort
          let useTLSALPNPort :=
            if 0 < g.HTTPSPort ∧ g.HTTPSPort ≠ g.TLSALPNChallengePort then g.HTTPSPort
            else useTLSALPNPort
          let useTLSALPNPort :=
            if 0 < client.mgr.AltTLSALPNPort then client.mgr.AltTLSALPNPort else useTLSALPNPort
          { cleared with
            tlsalpn01 := some (.distributed
              { acmeManager := client.mgr
                providerServer := .tlsALPN
                  { config := client.mgr.config
                    address := joinHostPort client.mgr.ListenHost (itoa useTLSALPNPort) }
                caURL := client.caURL }) }
        else if randomChallenge = DNS01 then
          if client.mgr.DNSChallengeOption ≠ none then
            { cleared with
              dns01 := some (.dns client.mgr.DNSProvider client.mgr.DNSChallengeOption) }
          else
            { cleared with dns01 := some (.dns client.mgr.DNSProvider none) }
        else cleared
      some ((randomChallenge, available),
        { client with acmeClient := { client.acmeClient with Challenge := Challenge } })

/-- A manager with both listener challenges enabled and no DNS provider. -/
def plainManager : ACMEManager :=
  { CA := "https://ca.example/directory", TestCA := "https://staging.example/directory",
    Email := "admin@example.com", Agreed := true, ExternalAccount := none,
    DisableHTTPChallenge := false, DisableTLSALPNChallenge := false,
    ListenHost := "", AltHTTPPort := 0, AltTLSALPNPort := 0,
    DNSProvider := none, DNSChallengeOption := none,
    CertObtainTimeout := 0, TrustedRoots := none, config := 0 }

/-- The usual values of the package-level ports and defaults. -/
def plainGlobals : Globals :=
  { HTTPPort := 80, HTTPSPort := 443, HTTPChallengePort := 80, TLSALPNChallengePort := 443,
    DefaultACME := { plainManager with
      CA := "https://acme.example/directory", TestCA := "https://acme-staging.example/directory",
      Email := "", Agreed := false, CertObtainTimeout := 90000000000 }
    UserAgent := "", HTTPTimeout := 30000000000 }

/-- A client of `plainManager` for its primary CA. -/
def plainClient : AcmeClient :=
  { caURL := "https://ca.example/directory", mgr := plainManager,
    acmeClient := { ptr := 1, tosURL := "", certTimeout := 0,
                    Challenge := { http01 := some .builtin, tlsalpn01 := some .builtin,
                                   dns01 := none } }
    challenges := [] }

/-! ## solvers.go: the challenge servers and their reference counts -/

/-- The struct `solverInfo`; `listener` is `none` for `nil` and otherwise the
handle of the listener, `done` tells whether the channel `done` has been closed. -/
structure SolverInfo where
  closed : Int
  count : Int
  listener : Option Nat
  done : Bool
deriving DecidableEq, Repr

/-- What the network answers in one iteration of `robustTryListen`: the error
text of `net.Listen` (`none` when the socket was bound) and the error of
`dialTCPSocket` (`none` when the connection was made). -/
structure ListenAttempt where
  listenErr : Option String
  connectErr : Option String
deriving DecidableEq, Repr

/-- The two results `(net.Listener, error)` of `robustTryListen`. -/
inductive ListenResult where
  /-- A listener and a `nil` error. -/
  | bound
  /-- A `nil` listener and a `nil` error. -/
  | nothing
  /-- A `nil` listener and the error with this text. -/
  | failed (msg : String)
deriving DecidableEq, Repr

/-- The library function `strings.Contains`. -/
def stringsContains (s substr : String) : Bool := decide (substr.toList <:+: s.toList)

/-- The verb `%v` applied to an `error`. -/
def errText : Option String → String
  | none => "<nil>"
  | some msg => msg

/-- The `for` loop of `robustTryListen` with `n` iterations left, `i` the loop
counter. The result comes with the number of calls of `net.Listen` and of
`dialTCPSocket` made. -/
def robustTryListenLoop (addr : String) (net : Nat → ListenAttempt) :
    Nat → Nat → Nat → Option String → ListenResult × Nat × Nat
  | 0, i, dials, listenErr =>
    (.failed ("could not start listener for challenge server at " ++ addr ++ ": "
      ++ errText listenErr), i, dials)
  | n + 1, i, dials, _ =>
    match (net i).listenErr with
    | none => (.bound, i + 1, dials)
    | some msg =>
      if (net i).connectErr = none then (.nothing, i + 1, dials + 1)
      else if stringsContains msg "address already in use" ||
          stringsContains msg "one usage of each socket address" then
        (.nothing, i + 1, dials + 1)
      else robustTryListenLoop addr net n (i + 1) (dials + 1) (some msg)

/-- The function `robustTryListen`. -/
def robustTryListen (addr : String) (net : Nat → ListenAttempt) : ListenResult × Nat × Nat :=
  robustTryListenLoop addr net 2 0 0 none

/-- The struct `Certificate` as the TLS-ALPN solver fills it. -/
structure Certificate where
  cert : Nat
  names : List String
  hash : String
deriving DecidableEq, Repr

/-- Everything the solvers share: the map `solvers`, the certificate caches
(by `*Config`), and the sockets. `opened` lists every listener bound so far
with its address, `closedListeners` those on which `Close` was called; the
three counters record the calls of `net.Listen`, of `dialTCPSocket` and the
challenge servers started. `acceptLoops` lists the listeners that are served by
the accept loop which `tlsALPNSolver.Present` starts; every other listener is
served by `httpSolver.serve`. -/
structure SolverWorld where
  solvers : String → Option SolverInfo
  certCache : Nat → String → Option Certificate
  nextListener : Nat
  opened : List (Nat × String)
  closedListeners : List Nat
  listenCalls : Nat
  dialCalls : Nat
  serversStarted : Nat
  acceptLoops : List Nat

/-- The state in which the map `solvers` is empty and no socket was ever bound. -/
def SolverWorld.init : SolverWorld :=
  { solvers := fun _ => none, certCache := fun _ _ => none, nextListener := 0,
    opened := [], closedListeners := [], listenCalls := 0, dialCalls := 0, serversStarted := 0,
    acceptLoops := [] }

/-- The function `getSolverInfo`: the record for `address`, created and stored
if the map has none. -/
def SolverWorld.getSolverInfo (w : SolverWorld) (address : String) : SolverWorld × SolverInfo :=
  match w.solvers address with
  | some si => (w, si)
  | none =>
    let si : SolverInfo := { closed := 0, count := 0, listener := none, done := false }
    ({ w with solvers := Function.update w.solvers address (some si) }, si)

/-- The part of `Present` that both solvers share: from `getSolverInfo` to the
end, the challenge server being started in a goroutine of its own. `tls` tells
which server that is: the accept loop of `tlsALPNSolver.Present`, or
`httpSolver.serve`. -/
def SolverWorld.presentAt (w : SolverWorld) (address : String) (tls : Bool)
    (net : Nat → ListenAttempt) : SolverWorld × Option GoError :=
  let (w, si) := w.getSolverInfo address
  let si := { si with count := si.count + 1 }
  let w := { w with solvers := Function.update w.solvers address (some si) }
  if si.listener ≠ none then
    (w, none)
  else
    let r := robustTryListen address net
    let w := { w with listenCalls := w.listenCalls + r.2.1, dialCalls := w.dialCalls + r.2.2 }
    match r.1 with
    | .failed msg => (w, some (.plain msg))
    | .nothing => (w, none)
    | .bound =>
      let ln := w.nextListener
      let si := { si with listener := some ln }
      ({ w with solvers := Function.update w.solvers address (some si)
                nextListener := ln + 1
                opened := (ln, address) :: w.opened
                serversStarted := w.serversStarted + 1
                acceptLoops := if tls then ln :: w.acceptLoops else w.acceptLoops }, none)

/-- How a call ends: it returns an `error`, or it never returns. -/
inductive Ended where
  | returned (err : Option GoError)
  | never
deriving DecidableEq, Repr

/-- The part of `CleanUp` that both solvers share, from `getSolverInfo` on. The
flag `closed` that is set is a field of the record for the TLS-ALPN solver and
of the solver itself for the HTTP solver; `siClosed` tells which. The Boolean
tells whether the call returns. After `si.listener.Close()` the call waits in
`<-si.done` for the server goroutine to end: `httpSolver.serve` ends when its
listener is closed, the accept loop of `tlsALPNSolver.Present` ends only when
it finds `si.closed == 1`. If it does not end, the call stays in `<-si.done`
for ever, with `solversMu` locked and the record still in the map. -/
def SolverWorld.cleanUpAt (w : SolverWorld) (address : String) (siClosed : Bool) :
    SolverWorld × Bool :=
  let (w, si) := w.getSolverInfo address
  let si := { si with count := si.count - 1 }
  let w := { w with solvers := Function.update w.solvers address (some si) }
  if si.count = 0 then
    let si := if siClosed then { si with closed := 1 } else si
    let w := { w with solvers := Function.update w.solvers address (some si) }
    match si.listener with
    | some ln =>
      let w := { w with closedListeners := ln :: w.closedListeners }
      if ln ∈ w.acceptLoops ∧ si.closed ≠ 1 then
        (w, false)
      else
        ({ w with solvers := Function.update w.solvers address none }, true)
    | none => ({ w with solvers := Function.update w.solvers address none }, true)
  else (w, true)

/-- The result of a `CleanUp` that returns `nil` if it returns at all. -/
def Ended.ofReturns (returns : Bool) : Ended :=
  if returns then .returned none else .never

/-- The record of a `CleanUp` that brings the count to zero: the count is one
lower, and `closed` is set when it is the record's flag that the solver sets. -/
def SolverInfo.lastOut (si : SolverInfo) (siClosed : Bool) : SolverInfo :=
  if siClosed then { si with count := si.count - 1, closed := 1 }
  else { si with count := si.count - 1 }

/-- The method `httpSolver.Present`. -/
def HttpSolver.Present (s : HttpSolver) (w : SolverWorld) (_domain _token _keyAuth : String)
    (net : Nat → ListenAttempt) : SolverWorld × Option GoError :=
  w.presentAt s.address false net

/-- The method `httpSolver.CleanUp`; when it returns, it returns `nil`. -/
def HttpSolver.CleanUp (s : HttpSolver) (w : SolverWorld) (_domain _token _keyAuth : String) :
    HttpSolver × SolverWorld × Ended :=
  let r := w.cleanUpAt s.address false
  let hit := (w.getSolverInfo s.address).2.count - 1 = 0
  (if hit then { s with closed := 1 } else s, r.1, Ended.ofReturns r.2)

/-- The function `tlsALPNCertKeyName`. -/
def tlsALPNCertKeyName (sniName : String) : String := sniName ++ ":acme-tls-alpn"

/-- The method `tlsALPNSolver.Present`. The argument `cert` is the result of
`tlsalpn01.ChallengeCert(domain, keyAuth)`, `hash` that of `hashCertificateChain`. -/
def TlsALPNSolver.Present (s : TlsALPNSolver) (w : SolverWorld) (domain _token _keyAuth : String)
    (cert : Except GoError Nat) (hash : String) (net : Nat → ListenAttempt) :
    SolverWorld × Option GoError :=
  match cert with
  | .error err => (w, some err)
  | .ok c =>
    let entry : Certificate := { cert := c, names := [domain], hash := hash }
    let cache := Function.update (w.certCache s.config) (tlsALPNCertKeyName domain) (some entry)
    let w := { w with certCache := Function.update w.certCache s.config cache }
    w.presentAt s.address true net

/-- The method `tlsALPNSolver.CleanUp`; when it returns, it returns `nil`. -/
def TlsALPNSolver.CleanUp (s : TlsALPNSolver) (w : SolverWorld) (domain _token _keyAuth : String) :
    SolverWorld × Ended :=
  let cache := Function.update (w.certCache s.config) (tlsALPNCertKeyName domain) none
  let w := { w with certCache := Function.update w.certCache s.config cache }
  let r := w.cleanUpAt s.address true
  (r.1, Ended.ofReturns r.2)

/-- A call of one of the four solver methods, with what the outside world
answers during the call. -/
inductive SolverEvent where
  | httpPresent (s : HttpSolver) (domain token keyAuth : String) (net : Nat → ListenAttempt)
  | httpCleanUp (s : HttpSolver) (domain token keyAuth : String)
  | tlsPresent (s : TlsALPNSolver) (domain token keyAuth : String)
      (cert : Except GoError Nat) (hash : String) (net : Nat → ListenAttempt)
  | tlsCleanUp (s : TlsALPNSolver) (domain token keyAuth : String)

/-- The listener address of the solver that is called. -/
def SolverEvent.address : SolverEvent → String
  | .httpPresent s _ _ _ _ => s.address
  | .httpCleanUp s _ _ _ => s.address
  | .tlsPresent s _ _ _ _ _ _ => s.address
  | .tlsCleanUp s _ _ _ => s.address

/-- The call is a `CleanUp`. -/
def SolverEvent.isCleanUp : SolverEvent → Bool
  | .httpCleanUp _ _ _ _ => true
  | .tlsCleanUp _ _ _ _ => true
  | _ => false

/-- The call is a `Present`. -/
def SolverEvent.isPresent (e : SolverEvent) : Bool := !e.isCleanUp

/-- The call is a `Present` that gets as far as the map `solvers`: every
`httpSolver.Present`, and a `tlsALPNSolver.Present` whose challenge certificate
could be generated. -/
def SolverEvent.reachesTable : SolverEvent → Bool
  | .httpPresent _ _ _ _ _ => true
  | .tlsPresent _ _ _ _ (.ok _) _ _ => true
  | _ => false

/-- The effect of one call on the shared state, and whether the call returns. -/
def SolverWorld.step (w : SolverWorld) : SolverEvent → SolverWorld × Bool
  | .httpPresent s domain token keyAuth net => ((s.Present w domain token keyAuth net).1, true)
  | .httpCleanUp s domain token keyAuth =>
    ((s.CleanUp w domain token keyAuth).2.1,
      decide ((s.CleanUp w domain token keyAuth).2.2 ≠ .never))
  | .tlsPresent s domain token keyAuth cert hash net =>
    ((s.Present w domain token keyAuth cert hash net).1, true)
  | .tlsCleanUp s domain token keyAuth =>
    ((s.CleanUp w domain token keyAuth).1, decide ((s.CleanUp w domain token keyAuth).2 ≠ .never))

/-- The effect of a call that is made while `solversMu` is locked for ever: what
the method does before `solversMu.Lock()`, where it then waits. -/
def SolverWorld.stepLocked (w : SolverWorld) : SolverEvent → SolverWorld
  | .tlsPresent s domain _ _ (.ok c) hash _ =>
    { w with
      certCache := Function.update w.certCache s.config
                    (Function.update (w.certCache s.config) (tlsALPNCertKeyName domain)
                      (some { cert := c, names := [domain], hash := hash })) }
  | .tlsCleanUp s domain _ _ =>
    { w with
      certCache := Function.update w.certCache s.config
                    (Function.update (w.certCache s.config) (tlsALPNCertKeyName domain) none) }
  | _ => w

/-- The effect of a sequence of calls, in the order in which they reach
`solversMu.Lock()`, and whether all of them return. Once a call stays in
`CleanUp` with `solversMu` locked, the calls after it get no further than the
lock. -/
def SolverWorld.run (w : SolverWorld) : List SolverEvent → SolverWorld × Bool
  | [] => (w, true)
  | e :: es =>
    if (w.step e).2 then (w.step e).1.run es
    else (es.foldl SolverWorld.stepLocked (w.step e).1, false)

/-- Number of calls on the address `a` that satisfy `p`. -/
def callsAt (a : String) (p : SolverEvent → Bool) (es : List SolverEvent) : Nat :=
  es.countP fun e => decide (e.address = a) && p e

/-- Every `CleanUp` on the address `a` is matched to an earlier call on `a` that
satisfies `counts` and is not matched already; `d` is the number of such calls
still unmatched before `es`. -/
def matched (a : String) (counts : SolverEvent → Bool) : Nat → List SolverEvent → Bool
  | _, [] => true
  | d, e :: es =>
    if e.address = a then
      if e.isCleanUp then (d ≠ 0 && matched a counts (d - 1) es)
      else if counts e then matched a counts (d + 1) es
      else matched a counts d es
    else matched a counts d es

/-- The two statements about the address `a` in the state `w`: a record with a
listener has a count of at least one; and, when `balanced`, there is no record
and every listener that was bound on `a` has been closed. -/
def RefCountHolds (a : String) (w : SolverWorld) (balanced : Prop) : Prop :=
  (∀ si, w.solvers a = some si → si.listener ≠ none → 1 ≤ si.count) ∧
  (balanced → w.solvers a = none ∧ ∀ h, (h, a) ∈ w.opened → h ∈ w.closedListeners)

/-- The invariant of the table entry for `a` when `d` calls of `Present` that
reached the table are not yet matched by a `CleanUp`: there is a record exactly
when `d` is positive, its count is `d`, and every listener ever bound on `a` is
closed unless it is the one in the record. -/
def SolverInv (a : String) (d : Nat) (w : SolverWorld) : Prop :=
  (d = 0 → w.solvers a = none) ∧
  (0 < d → ∃ si, w.solvers a = some si ∧ si.count = d) ∧
  (∀ h, (h, a) ∈ w.opened →
    h ∈ w.closedListeners ∨ ∃ si, w.solvers a = some si ∧ si.listener = some h)

/-- A TLS-ALPN solver on port 443 of every interface. -/
def tlsSolver443 : TlsALPNSolver := { config := 0, address := ":443" }

/-- An HTTP solver on port 443 of every interface. -/
def httpSolver443 : HttpSolver := { closed := 0, acmeManager := plainManager, address := ":443" }

/-- A network on which the first `net.Listen` succeeds. -/
def freePort : Nat → ListenAttempt := fun _ => { listenErr := none, connectErr := none }

/-- A TLS-ALPN solver and an HTTP solver present on the same address, the
TLS-ALPN solver first, and clean up in the same order. -/
def mixedCalls : List SolverEvent :=
  [.tlsPresent tlsSolver443 "b.example" "t2" "t2.thumb" (.ok 7) "hash" freePort,
   .httpPresent httpSolver443 "a.example" "t1" "t1.thumb" freePort,
   .tlsCleanUp tlsSolver443 "b.example" "t2" "t2.thumb",
   .httpCleanUp httpSolver443 "a.example" "t1" "t1.thumb"]

/-- The calls of `mixedCalls` with the two `CleanUp` calls in the other order. -/
def mixedCallsTLSLast : List SolverEvent :=
  [.tlsPresent tlsSolver443 "b.example" "t2" "t2.thumb" (.ok 7) "hash" freePort,
   .httpPresent httpSolver443 "a.example" "t1" "t1.thumb" freePort,
   .httpCleanUp httpSolver443 "a.example" "t1" "t1.thumb",
   .tlsCleanUp tlsSolver443 "b.example" "t2" "t2.thumb"]
/-! ## solvers.go and httphandler.go: the distributed solver and the HTTP handler -/

/-- The struct `challengeInfo`. -/
structure ChallengeInfo where
  Domain : String
  Token : String
  KeyAuth : String
deriving DecidableEq, Repr

/-- Functions that the embedded files call and that are defined in other files
of the package (`hostOnly`, `storageKeyCAPrefix`, `StorageKeys.Safe`) or in the
standard library (`strings.EqualFold`, `path.Join`, `json.Marshal`,
`json.Unmarshal`). -/
structure Lib where
  hostOnly : String → String
  equalFold : String → String → Bool
  storageKeyCAPrefix : ACMEManager → String → String
  safe : String → String
  pathJoin : List String → String
  jsonMarshal : ChallengeInfo → Except GoError String
  jsonUnmarshal : String → Except GoError ChallengeInfo

/-- Modelled from the spec: the interface `Storage`, a key/value store whose
`store` creates or overwrites, whose `load` yields the bytes or the error
`ErrNotExist`, and whose `delete` removes the key or reports `ErrNotExist`. -/
structure Storage where
  data : String → Option String

/-- The error value `ErrNotExist` of the storage interface. -/
def errNotExist : GoError := .plain "key does not exist"

/-- Modelled from the spec: `Storage.Store`; `fault` is an error of the
back-end, in which case nothing is stored. -/
def Storage.Store (st : Storage) (key value : String) (fault : Option GoError) :
    Storage × Option GoError :=
  match fault with
  | some err => (st, some err)
  | none => ({ data := Function.update st.data key (some value) }, none)

/-- Modelled from the spec: `Storage.Load`. -/
def Storage.Load (st : Storage) (key : String) (fault : Option GoError) : Except GoError String :=
  match fault with
  | some err => .error err
  | none =>
    match st.data key with
    | some value => .ok value
    | none => .error errNotExist

/-- Modelled from the spec: `Storage.Delete`. -/
def Storage.Delete (st : Storage) (key : String) (fault : Option GoError) :
    Storage × Option GoError :=
  match fault with
  | some err => (st, some err)
  | none =>
    match st.data key with
    | some _ => ({ data := Function.update st.data key none }, none)
    | none => (st, some errNotExist)

/-- The method `Error` of an `error`, used by the verb `%v`. -/
def GoError.text : GoError → String
  | .canceled => "context canceled"
  | .plain msg => msg
  | .noRetryNil => ""
  | .noRetry inner => inner.text
  | .wrap msg _ => msg
  | .problem _ msg => msg

/-- The method `distributedSolver.challengeTokensPrefix`. -/
def DistributedSolver.challengeTokensPrefix (lib : Lib) (dhs : DistributedSolver) : String :=
  lib.pathJoin [lib.storageKeyCAPrefix dhs.acmeManager dhs.caURL, "challenge_tokens"]

/-- The method `distributedSolver.challengeTokensKey`. -/
def DistributedSolver.challengeTokensKey (lib : Lib) (dhs : DistributedSolver)
    (domain : String) : String :=
  lib.pathJoin [dhs.challengeTokensPrefix lib, lib.safe domain ++ ".json"]

/-- What the outside world answers during one `distributedSolver.Present`: the
fault of the storage back-end, if any, and the answers to the wrapped solver. -/
structure PresentOracle where
  storeFault : Option GoError
  cert : Except GoError Nat
  hash : String
  net : Nat → ListenAttempt

/-- The run-time panic of a method call on a `nil` interface, as an error value. -/
def nilDereference : GoError := .plain "invalid memory address or nil pointer dereference"

/-- The `Present` method of the wrapped solver. -/
def ProviderServer.Present (p : ProviderServer) (w : SolverWorld)
    (domain token keyAuth : String) (o : PresentOracle) : SolverWorld × Option GoError :=
  match p with
  | .unset => (w, some nilDereference)
  | .http s => s.Present w domain token keyAuth o.net
  | .tlsALPN s => s.Present w domain token keyAuth o.cert o.hash o.net

/-- The `CleanUp` method of the wrapped solver. -/
def ProviderServer.CleanUp (p : ProviderServer) (w : SolverWorld)
    (domain token keyAuth : String) : SolverWorld × Ended :=
  match p with
  | .unset => (w, .returned (some nilDereference))
  | .http s => ((s.CleanUp w domain token keyAuth).2.1, (s.CleanUp w domain token keyAuth).2.2)
  | .tlsALPN s => s.CleanUp w domain token keyAuth

/-- The method `distributedSolver.Present`, on the storage of
`dhs.acmeManager.config` and the shared solver state. -/
def DistributedSolver.Present (lib : Lib) (dhs : DistributedSolver) (st : Storage)
    (w : SolverWorld) (domain token keyAuth : String) (o : PresentOracle) :
    Storage × SolverWorld × Option GoError :=
  match lib.jsonMarshal { Domain := domain, Token := token, KeyAuth := keyAuth } with
  | .error err => (st, w, some err)
  | .ok infoBytes =>
    match st.Store (dhs.challengeTokensKey lib domain) infoBytes o.storeFault with
    | (st, some err) => (st, w, some err)
    | (st, none) =>
      match dhs.providerServer.Present w domain token keyAuth o with
      | (w, some err) =>
        (st, w, some (.plain ("presenting with embedded provider: " ++ err.text)))
      | (w, none) => (st, w, none)

/-- The method `distributedSolver.CleanUp`; it does not return when the
wrapped `CleanUp` does not. -/
def DistributedSolver.CleanUp (lib : Lib) (dhs : DistributedSolver) (st : Storage)
    (w : SolverWorld) (domain token keyAuth : String) (deleteFault : Option GoError) :
    Storage × SolverWorld × Ended :=
  match st.Delete (dhs.challengeTokensKey lib domain) deleteFault with
  | (st, some err) => (st, w, .returned (some err))
  | (st, none) =>
    match dhs.providerServer.CleanUp w domain token keyAuth with
    | (w, .never) => (st, w, .never)
    | (w, .returned (some err)) =>
      (st, w, .returned (some (.plain ("cleaning up embedded provider: " ++ err.text))))
    | (w, .returned none) => (st, w, .returned none)

/-- The fields of `*http.Request` that the handler reads and writes. -/
structure Request where
  method : String
  host : String
  path : String
  close : Bool
deriving DecidableEq, Repr

/-- What has been sent through an `http.ResponseWriter`: the header fields
added, the status line if already written, and the body. -/
structure Response where
  header : List (String × String)
  status : Option Nat
  body : String
deriving DecidableEq, Repr

/-- A response writer nothing has been written to. -/
def Response.fresh : Response := { header := [], status := none, body := "" }

/-- The library function `http01.ChallengePath`. -/
def challengePath (token : String) : String := "/.well-known/acme-challenge/" ++ token

/-- The constant `challengeBasePath`. -/
def challengeBasePath : String := "/.well-known/acme-challenge"

/-- The function `answerHTTPChallenge`: the returned flag, the response and the
request after the call. `Write` sends the status 200 if none was sent before. -/
def answerHTTPChallenge (lib : Lib) (w : Response) (r : Request) (chalInfo : ChallengeInfo) :
    Bool × Response × Request :=
  let challengeReqPath := challengePath chalInfo.Token
  if r.path = challengeReqPath ∧ lib.equalFold (lib.hostOnly r.host) chalInfo.Domain = true ∧
      r.method = "GET" then
    let w := { w with header := w.header ++ [("Content-Type", "text/plain")] }
    let w := { w with status := some (w.status.getD 200), body := w.body ++ chalInfo.KeyAuth }
    (true, w, { r with close := true })
  else
    (false, w, r)

/-- The function `LooksLikeHTTPChallenge`. -/
def LooksLikeHTTPChallenge (r : Request) : Bool :=
  decide (r.method = "GET") && challengeBasePath.toList.isPrefixOf r.path.toList

/-- The method `ACMEManager.distributedHTTPChallengeSolver`; the receiver is
`none` for a `nil` pointer, `st` is the storage of `manager.config` and
`loadFault` a fault of its back-end during `Load`. -/
def distributedHTTPChallengeSolver (lib : Lib) (manager : Option ACMEManager) (st : Storage)
    (loadFault : Option GoError) (w : Response) (r : Request) : Bool × Response × Request :=
  match manager with
  | none => (false, w, r)
  | some manager =>
    let host := lib.hostOnly r.host
    let tokenKey := DistributedSolver.challengeTokensKey lib
      { acmeManager := manager, providerServer := .unset, caURL := manager.CA }
      host
    match st.Load tokenKey loadFault with
    | .error _ => (false, w, r)
    | .ok chalInfoBytes =>
      match lib.jsonUnmarshal chalInfoBytes with
      | .error _ => (false, w, r)
      | .ok chalInfo => answerHTTPChallenge lib w r chalInfo

/-- The method `ACMEManager.HandleHTTPChallenge`. -/
def HandleHTTPChallenge (lib : Lib) (manager : Option ACMEManager) (st : Storage)
    (loadFault : Option GoError) (w : Response) (r : Request) : Bool × Response × Request :=
  match manager with
  | none => (false, w, r)
  | some m =>
    if m.DisableHTTPChallenge then (false, w, r)
    else if !LooksLikeHTTPChallenge r then (false, w, r)
    else distributedHTTPChallengeSolver lib manager st loadFault w r

/-! ## acmeclient.go: creating clients -/

/-- The fields of a parsed `*url.URL` that `newACMEClient` reads. -/
structure URL where
  Scheme : String
  Host : String
deriving DecidableEq, Repr

/-- Modelled from the spec: the account `(email, private_key,
registration_resource)`; its declaration is not among the embedded files.
`Registration` is `none` for an account that is not registered yet. -/
structure User where
  Email : String
  Registration : Option Nat
  key : Nat
deriving DecidableEq, Repr

/-- The configuration handed to `lego.NewClient`. -/
structure LegoConfig where
  user : User
  CADirURL : String
  UserAgent : String
  HTTPTimeout : Int
  CertificateTimeout : Int
  RootCAs : Option Nat
deriving DecidableEq, Repr

/-- What `newACMEClient` calls outside the embedded files: `url.Parse`, the
helpers `isLoopback`, `isInternal`, `getUser`, `saveUser` and
`askUserAgreement` of the package, and the ACME library (`lego.NewClient`, the
two registration calls, given the agreement flag and the optional key id and
encoded HMAC of an external account). -/
structure ClientEnv where
  urlParse : String → Except GoError URL
  isLoopback : String → Bool
  isInternal : String → Bool
  getUser : ACMEManager → String → String → Except GoError User
  newClient : LegoConfig → Except GoError LegoClient
  askUserAgreement : ACMEManager → String → Bool
  register : LegoClient → Bool → Option (String × String) → Except GoError Nat
  saveUser : ACMEManager → String → User → Option GoError
  base64 : String → String

/-- The calls that `newACMEClient` makes through `ClientEnv`, for the record. -/
inductive ClientCall where
  | getUser (caURL email : String)
  | newClient (cfg : LegoConfig)
  | askUserAgreement (termsURL : String)
  | register (client : Nat) (agreed : Bool) (eab : Option (String × String))
  | saveUser (caURL : String) (user : User)
deriving DecidableEq, Repr

/-- The outcome of `newACMEClient`: the returned pair as an `Except`, the
manager (whose `Agreed` may have been set), the table `acmeClients`, and the
outside calls made, in order. -/
structure NewClientResult where
  result : Except GoError AcmeClient
  manager : ACMEManager
  acmeClients : String → Option LegoClient
  calls : List ClientCall

/-- The function `buildUAString`. -/
def buildUAString (g : Globals) : String :=
  if g.UserAgent ≠ "" then "otomatik" ++ " " ++ g.UserAgent else "otomatik"

/-- The CA URL that `newACMEClient` settles on, before it is parsed: the
statements from `var caURL string` to the insertion of `https://`. -/
def resolveCAURL (g : Globals) (manager : ACMEManager) (useTestCA : Bool) : String :=
  let caURL := ""
  let caURL :=
    if useTestCA then
      let caURL := manager.TestCA
      if caURL = "" ∧ manager.CA = g.DefaultACME.CA then g.DefaultACME.TestCA else caURL
    else caURL
  let caURL := if caURL = "" then manager.CA else caURL
  let caURL := if caURL = "" then g.DefaultACME.CA else caURL
  if !stringsContains caURL "://" then "https://" ++ caURL else caURL

/-- The registration step of `newACMEClient` for a user without registration,
after the interactive part. -/
def registerUser (env : ClientEnv) (manager : ACMEManager)
    (acmeClients : String → Option LegoClient) (calls : List ClientCall)
    (caURL : String) (leUser : User) (client : LegoClient) : NewClientResult :=
  let eab : Option (String × String) :=
    manager.ExternalAccount.map fun ea => (ea.KeyID, env.base64 ea.HMAC)
  let calls := calls ++ [.register client.ptr manager.Agreed eab]
  match env.register client manager.Agreed eab with
  | .error err => ⟨.error err, manager, acmeClients, calls⟩
  | .ok reg =>
    let leUser := { leUser with Registration := some reg }
    let calls := calls ++ [.saveUser caURL leUser]
    match env.saveUser manager caURL leUser with
    | some err =>
      ⟨.error (.plain ("could not save user: " ++ err.text)), manager, acmeClients, calls⟩
    | none =>
      ⟨.ok { caURL := caURL, mgr := manager, acmeClient := client, challenges := [] },
        manager, acmeClients, calls⟩

/-- The method `ACMEManager.newACMEClient`, on the table `acmeClients`. The
local `certObtainTimeout` is computed and not read again. -/
def newACMEClient (g : Globals) (env : ClientEnv) (manager : ACMEManager)
    (acmeClients : String → Option LegoClient) (useTestCA interactive : Bool) :
    NewClientResult :=
  let _certObtainTimeout :=
    if manager.CertObtainTimeout = 0 then g.DefaultACME.CertObtainTimeout
    else manager.CertObtainTimeout
  let caURL := resolveCAURL g manager useTestCA
  match env.urlParse caURL with
  | .error err => ⟨.error err, manager, acmeClients, []⟩
  | .ok u =>
    if u.Scheme ≠ "https" ∧ env.isLoopback u.Host = false ∧ env.isInternal u.Host = false then
      ⟨.error (.plain (caURL ++ ": insecure CA URL (HTTPS required)")), manager, acmeClients, []⟩
    else
      let calls := [ClientCall.getUser caURL manager.Email]
      match env.getUser manager caURL manager.Email with
      | .error err => ⟨.error err, manager, acmeClients, calls⟩
      | .ok leUser =>
        let clientKey := caURL ++ leUser.Email
        let made : Except GoError (LegoClient × (String → Option LegoClient) × List ClientCall) :=
          match acmeClients clientKey with
          | some client => .ok (client, acmeClients, calls)
          | none =>
            let legoCfg : LegoConfig :=
              { user := leUser, CADirURL := caURL, UserAgent := buildUAString g,
                HTTPTimeout := g.HTTPTimeout, CertificateTimeout := manager.CertObtainTimeout,
                RootCAs := manager.TrustedRoots }
            match env.newClient legoCfg with
            | .error err => .error err
            | .ok client =>
              .ok (client, Function.update acmeClients clientKey (some client),
                calls ++ [.newClient legoCfg])
        match made with
        | .error err =>
          ⟨.error err, manager, acmeClients, calls ++ [.newClient
            { user := leUser, CADirURL := caURL, UserAgent := buildUAString g,
              HTTPTimeout := g.HTTPTimeout, CertificateTimeout := manager.CertObtainTimeout,
              RootCAs := manager.TrustedRoots }]⟩
        | .ok (client, acmeClients, calls) =>
          if leUser.Registration = none then
            if interactive then
              let termsURL := client.tosURL
              let asked := !manager.Agreed && termsURL ≠ ""
              let calls := if asked then calls ++ [.askUserAgreement termsURL] else calls
              let manager :=
                if asked then { manager with Agreed := env.askUserAgreement manager termsURL }
                else manager
              if !manager.Agreed && termsURL ≠ "" then
                ⟨.error (.plain "user must agree to CA terms"), manager, acmeClients, calls⟩
              else registerUser env manager acmeClients calls caURL leUser client
            else registerUser env manager acmeClients calls caURL leUser client
          else
            ⟨.ok { caURL := caURL, mgr := manager, acmeClient := client, challenges := [] },
              manager, acmeClients, calls⟩

/-! ## Concrete stand-ins for the functions outside the embedded files -/

/-- The rest of a string after the first `://`, if there is one. -/
def afterScheme : List Char → Option (List Char)
  | [] => none
  | c :: cs => if "://".toList.isPrefixOf (c :: cs) then some (cs.drop 2) else afterScheme cs

/-- The part of a string before the first `://`, if there is one. -/
def beforeScheme : List Char → Option (List Char)
  | [] => none
  | c :: cs =>
    if "://".toList.isPrefixOf (c :: cs) then some []
    else (beforeScheme cs).map fun s => c :: s

/-- Modelled from the spec: the issuer key, the host-and-path portion of the CA
directory URL with `/` replaced by `-`; `https://example.com/acme-ca/directory`
gives `example.com-acme-ca-directory`. -/
def issuerKey (ca : String) : String :=
  let hostPath := (afterScheme ca.toList).getD ca.toList
  String.mk (hostPath.map fun c => if c = '/' then '-' else c)

/-- Remove every occurrence of `..`, scanning from the left. -/
def dropDotDot : List Char → List Char
  | '.' :: '.' :: rest => dropDotDot rest
  | c :: rest => c :: dropDotDot rest
  | [] => []

/-- The characters that the sanitiser keeps: no path separator, no backslash,
no control character. -/
def keptChar (c : Char) : Bool :=
  c ≠ '/' && c ≠ '\\' && decide (32 ≤ c.toNat) && c.toNat ≠ 127

/-- The wildcard rule of the sanitiser: `wildcard_` for a leading `*`. -/
def starToWildcard : List Char → List Char
  | '*' :: rest => "wildcard_".toList ++ rest
  | l => l

/-- Modelled from the spec: the sanitiser `StorageKeys.Safe`. It lowercases,
writes `wildcard_` for a leading `*` (the key builder test expects
`wildcard_.example.com` for `*.example.com`), strips path separators,
backslashes and control characters, and then removes `..`, so that no `..` is
left where a separator stood between two dots. -/
def safeName (name : String) : String :=
  String.mk (dropDotDot ((starToWildcard (name.toList.map Char.toLower)).filter keptChar))

/-- Split a path at every `/`. -/
def splitOnSlash : List Char → List (List Char)
  | [] => [[]]
  | c :: cs =>
    match splitOnSlash cs with
    | [] => [[c]]
    | seg :: rest => if c = '/' then [] :: seg :: rest else (c :: seg) :: rest

/-- One step of `path.Clean`: `acc` holds the elements kept so far, last first. -/
def cleanStep (rooted : Bool) (acc : List (List Char)) (seg : List Char) : List (List Char) :=
  if seg = [] ∨ seg = ['.'] then acc
  else if seg = ['.', '.'] then
    match acc with
    | [] => if rooted then [] else [seg]
    | top :: rest => if top = ['.', '.'] then seg :: acc else rest
  else seg :: acc

/-- The library function `path.Clean`. -/
def pathClean (p : List Char) : List Char :=
  if p = [] then ['.']
  else
    let rooted := p.head? = some '/'
    let segs := ((splitOnSlash p).foldl (cleanStep rooted) []).reverse
    let body := List.intercalate ['/'] segs
    if rooted then '/' :: body else if segs = [] then ['.'] else body

/-- The library function `path.Join`: empty elements are ignored, the others
joined by `/` and the result cleaned. -/
def pathJoin (elems : List String) : String :=
  let parts := (elems.filter fun e => e ≠ "").map String.toList
  if parts = [] then "" else String.mk (pathClean (List.intercalate ['/'] parts))

/-- Modelled from the spec: `hostOnly`, the request host with any port
stripped: a final `:port` with a decimal port is cut off. -/
def hostOnly (hostport : String) : String :=
  let r := hostport.toList.reverse
  let digits := r.takeWhile Char.isDigit
  match r.dropWhile Char.isDigit with
  | ':' :: host => if digits = [] then hostport else String.mk host.reverse
  | _ => hostport

/-- Equality of strings ignoring the case of ASCII letters, standing in for
`strings.EqualFold`. -/
def equalFoldASCII (s t : String) : Bool :=
  s.toList.map Char.toLower = t.toList.map Char.toLower

/-- A string between double quotes, with `"` and `\` escaped by a backslash. -/
def quoted (s : String) : List Char :=
  '"' :: (s.toList.flatMap fun c => if c = '"' ∨ c = '\\' then ['\\', c] else [c]) ++ ['"']

/-- Read a string written by `quoted`, the opening quote already consumed; the
second component is the input left over. -/
def readQuoted : List Char → Option (List Char × List Char)
  | [] => none
  | '"' :: rest => some ([], rest)
  | '\\' :: c :: rest => (readQuoted rest).map fun r => (c :: r.1, r.2)
  | c :: rest => (readQuoted rest).map fun r => (c :: r.1, r.2)

/-- Strip the literal `lit` from the front of the input. -/
def expect (lit : String) (input : List Char) : Option (List Char) :=
  if lit.toList.isPrefixOf input then some (input.drop lit.length) else none

/-- The challenge record as a JSON object, standing in for `json.Marshal`. -/
def marshalInfo (c : ChallengeInfo) : Except GoError String :=
  .ok (String.mk ("\x7b\"Domain\":".toList ++ quoted c.Domain ++ ",\"Token\":".toList
    ++ quoted c.Token ++ ",\"KeyAuth\":".toList ++ quoted c.KeyAuth ++ "\x7d".toList))

/-- Reads back what `marshalInfo` writes, standing in for `json.Unmarshal`. -/
def unmarshalInfo (bytes : String) : Except GoError ChallengeInfo :=
  let parsed : Option ChallengeInfo := do
    let rest ← expect "\x7b\"Domain\":\"" bytes.toList
    let (domain, rest) ← readQuoted rest
    let rest ← expect ",\"Token\":\"" rest
    let (token, rest) ← readQuoted rest
    let rest ← expect ",\"KeyAuth\":\"" rest
    let (keyAuth, rest) ← readQuoted rest
    let rest ← expect "\x7d" rest
    if rest = [] then some ⟨String.mk domain, String.mk token, String.mk keyAuth⟩ else none
  match parsed with
  | some c => .ok c
  | none => .error (.plain "invalid character in challenge record")

/-- The stand-ins together. -/
def plainLib : Lib :=
  { hostOnly := hostOnly, equalFold := equalFoldASCII,
    storageKeyCAPrefix := fun _ caURL => issuerKey caURL,
    safe := safeName, pathJoin := pathJoin,
    jsonMarshal := marshalInfo, jsonUnmarshal := unmarshalInfo }

/-- A CA that answers every call: URLs are split at `://` and the next `/`, no
host is loopback or internal, users are new, clients get the pointer 1 and
directories without terms of service, registration and saving succeed. -/
def plainEnv : ClientEnv :=
  { urlParse := fun s =>
      match beforeScheme s.toList, afterScheme s.toList with
      | some scheme, some rest =>
        .ok { Scheme := String.mk scheme, Host := String.mk (rest.takeWhile fun c => c ≠ '/') }
      | _, _ => .ok { Scheme := "", Host := "" }
    isLoopback := fun _ => false
    isInternal := fun _ => false
    getUser := fun _ _ email => .ok { Email := email, Registration := none, key := 11 }
    newClient := fun cfg =>
      .ok { ptr := 1, tosURL := "", certTimeout := cfg.CertificateTimeout,
            Challenge := { http01 := some .builtin, tlsalpn01 := some .builtin, dns01 := none } }
    askUserAgreement := fun _ _ => false
    register := fun _ _ _ => .ok 5
    saveUser := fun _ _ _ => none
    base64 := fun s => s }

/-- An empty storage. -/
def emptyStorage : Storage := { data := fun _ => none }

/-- Answers for a `Present` during which nothing fails. -/
def calmOracle : PresentOracle :=
  { storeFault := none, cert := .ok 7, hash := "hash", net := freePort }

/-- The client that `plainManager` gets for its test CA. -/
def testCAClient : Option AcmeClient :=
  (newACMEClient plainGlobals plainEnv plainManager (fun _ => none) true false).result.toOption

/-- The client that `plainManager` gets for its primary CA. -/
def primaryCAClient : Option AcmeClient :=
  (newACMEClient plainGlobals plainEnv plainManager (fun _ => none) false false).result.toOption

/-- The HTTP-01 provider that `nextChallenge` installs when it draws from `[HTTP-01]`. -/
def installedHTTPSolver (client : Option AcmeClient) : Option DistributedSolver :=
  match client.bind fun c => c.nextChallenge plainGlobals [HTTP01] 0 with
  | some (_, c) =>
    match c.acmeClient.Challenge.http01 with
    | some (.distributed d) => some d
    | _ => none
  | none => none

/-- The storage after the installed HTTP-01 provider of `client` has presented
the challenge `(example.com, tok, tok.auth)` on an empty storage; `none` unless
`Present` returned `nil`. -/
def storageAfterPresent (client : Option AcmeClient) : Option Storage :=
  match installedHTTPSolver client with
  | none => none
  | some d =>
    match d.Present plainLib emptyStorage SolverWorld.init "example.com" "tok" "tok.auth"
        calmOracle with
    | (st, _, none) => some st
    | _ => none

/-- The validation request of the CA for the challenge `(example.com, tok)`. -/
def validationRequest : Request :=
  { method := "GET", host := "example.com", path := "/.well-known/acme-challenge/tok",
    close := false }

/-- What the HTTP challenge handler of `plainManager` answers to the validation
request after that `Present`. -/
def handlerAnswer (client : Option AcmeClient) : Option (Bool × Response × Request) :=
  (storageAfterPresent client).map fun st =>
    HandleHTTPChallenge plainLib (some plainManager) st none Response.fresh validationRequest

/-! ## Further objects for evaluation -/

/-- The HTTP-01 provider that `nextChallenge` installs for `plainClient`, on
port 80 of every interface. -/
def exampleSolver : DistributedSolver :=
  { acmeManager := plainManager
    providerServer := .http { closed := 0, acmeManager := plainManager, address := ":80" }
    caURL := "https://ca.example/directory" }

/-- Storage and solver state after `exampleSolver` has presented one challenge
for `example.com`. -/
def afterOnePresent : Storage × SolverWorld :=
  let r1 := exampleSolver.Present plainLib emptyStorage SolverWorld.init
    "example.com" "tok1" "tok1.auth" calmOracle
  (r1.1, r1.2.1)

/-- Storage and solver state after `exampleSolver` has presented two challenges
for `example.com`, as two orders for the same name do. -/
def afterTwoPresents : Storage × SolverWorld :=
  let r1 := exampleSolver.Present plainLib emptyStorage SolverWorld.init
    "example.com" "tok1" "tok1.auth" calmOracle
  let r2 := exampleSolver.Present plainLib r1.1 r1.2.1 "example.com" "tok2" "tok2.auth" calmOracle
  (r2.1, r2.2.1)

/-- The two matching `CleanUp` calls after `afterTwoPresents`, with a storage
back-end that works; the results of the first and of the second call. -/
def twoCleanUps :
    (Storage × SolverWorld × Ended) × (Storage × SolverWorld × Ended) :=
  let c1 := exampleSolver.CleanUp plainLib afterTwoPresents.1 afterTwoPresents.2
    "example.com" "tok1" "tok1.auth" none
  let c2 := exampleSolver.CleanUp plainLib c1.1 c1.2.1 "example.com" "tok2" "tok2.auth" none
  (c1, c2)

/-- The first component of the pair returned by `robustTryListen` is a listener. -/
def ListenResult.hasListener : ListenResult → Bool
  | .bound => true
  | _ => false

/-- The second component of the pair returned by `robustTryListen`: the text of
the error, `none` for `nil`. -/
def ListenResult.err : ListenResult → Option String
  | .failed msg => some msg
  | _ => none

/-- A failed listen attempt that `robustTryListen` puts up with: the dial to the
address succeeded, or the error text of the listen names an address in use. -/
def ListenAttempt.tolerated (a : ListenAttempt) : Bool :=
  match a.listenErr with
  | none => false
  | some msg =>
    decide (a.connectErr = none) || stringsContains msg "address already in use" ||
      stringsContains msg "one usage of each socket address"

/-- A network on which the port is taken by a process that accepts connections. -/
def takenPort : Nat → ListenAttempt := fun _ =>
  { listenErr := some "listen tcp :80: bind: address already in use", connectErr := none }

/-- A network on which binding is refused and nobody answers. -/
def deniedPort : Nat → ListenAttempt := fun _ =>
  { listenErr := some "listen tcp :80: bind: permission denied",
    connectErr := some "dial tcp :80: connect: connection refused" }

/-- The CA URL that `newACMEClient` selects, before the scheme is looked at:
the statements from `var caURL string` to the second `if caURL == ""`. -/
def selectedCA (g : Globals) (manager : ACMEManager) (useTestCA : Bool) : String :=
  let caURL := ""
  let caURL :=
    if useTestCA then
      let caURL := manager.TestCA
      if caURL = "" ∧ manager.CA = g.DefaultACME.CA then g.DefaultACME.TestCA else caURL
    else caURL
  let caURL := if caURL = "" then manager.CA else caURL
  if caURL = "" then g.DefaultACME.CA else caURL

/-- The primary CA of a manager: `manager.CA`, or `DefaultACME.CA` when that is empty. -/
def primaryCA (g : Globals) (manager : ACMEManager) : String :=
  if manager.CA = "" then g.DefaultACME.CA else manager.CA

/-- A URL with `https://` put in front when it contains no `://`. -/
def withScheme (caURL : String) : String :=
  if !stringsContains caURL "://" then "https://" ++ caURL else caURL

/-- The constant `http.StatusTooManyRequests`. -/
def statusTooManyRequests : Int := 429

/-- The outcome of `newACMEClientWithRetry`: the returned pair, the table
`acmeClients`, the number of calls of `newACMEClient` and the outside calls made. -/
structure RetryClientResult where
  client : Option AcmeClient
  err : Option GoError
  acmeClients : String → Option LegoClient
  attempts : Nat
  calls : List ClientCall

/-- The `for` loop of `newACMEClientWithRetry` with `n` iterations left and `i`
the loop counter; `envs i` is what the outside world answers during iteration
`i`, `client` and `err` are the local variables of these names. -/
def newACMEClientRetryLoop (g : Globals) (envs : Nat → ClientEnv) (manager : ACMEManager)
    (useTestCA : Bool) :
    Nat → Nat → (String → Option LegoClient) → Option AcmeClient → Option GoError →
      List ClientCall → RetryClientResult
  | 0, i, acmeClients, client, err, calls => ⟨client, err, acmeClients, i, calls⟩
  | n + 1, i, acmeClients, _, _, calls =>
    let r := newACMEClient g (envs i) manager acmeClients useTestCA false
    match r.result with
    | .ok c => ⟨some c, none, r.acmeClients, i + 1, calls ++ r.calls⟩
    | .error e =>
      match e with
      | .problem status _ =>
        if status = statusTooManyRequests then
          ⟨none, some (.plain ("too many requests making new ACME client: " ++ e.text
            ++ " - aborting")), r.acmeClients, i + 1, calls ++ r.calls⟩
        else
          newACMEClientRetryLoop g envs r.manager useTestCA n (i + 1) r.acmeClients none (some e)
            (calls ++ r.calls)
      | _ =>
        newACMEClientRetryLoop g envs r.manager useTestCA n (i + 1) r.acmeClients none (some e)
          (calls ++ r.calls)

/-- The method `ACMEManager.newACMEClientWithRetry`, with `maxTries = 2`. -/
def newACMEClientWithRetry (g : Globals) (envs : Nat → ClientEnv) (manager : ACMEManager)
    (acmeClients : String → Option LegoClient) (useTestCA : Bool) : RetryClientResult :=
  newACMEClientRetryLoop g envs manager useTestCA 2 0 acmeClients none none []

/-- The last part of `newACMEClient`, from `if leUser.Registration == nil` to
the end, as a function of the values of the local variables at that point. -/
def finishClient (env : ClientEnv) (manager : ACMEManager)
    (acmeClients : String → Option LegoClient) (calls : List ClientCall) (caURL : String)
    (leUser : User) (client : LegoClient) (interactive : Bool) : NewClientResult :=
  if leUser.Registration = none then
    if interactive then
      let termsURL := client.tosURL
      let asked := !manager.Agreed && termsURL ≠ ""
      let calls := if asked then calls ++ [.askUserAgreement termsURL] else calls
      let manager :=
        if asked then { manager with Agreed := env.askUserAgreement manager termsURL }
        else manager
      if !manager.Agreed && termsURL ≠ "" then
        ⟨.error (.plain "user must agree to CA terms"), manager, acmeClients, calls⟩
      else registerUser env manager acmeClients calls caURL leUser client
    else registerUser env manager acmeClients calls caURL leUser client
  else
    ⟨.ok { caURL := caURL, mgr := manager, acmeClient := client, challenges := [] },
      manager, acmeClients, calls⟩

/-- The configuration that `newACMEClient` hands to `lego.NewClient`. -/
def legoConfigFor (g : Globals) (manager : ACMEManager) (caURL : String) (leUser : User) :
    LegoConfig :=
  { user := leUser, CADirURL := caURL, UserAgent := buildUAString g,
    HTTPTimeout := g.HTTPTimeout, CertificateTimeout := manager.CertObtainTimeout,
    RootCAs := manager.TrustedRoots }

/-- A manager on the default CA of `plainGlobals` with no test CA of its own. -/
def defaultCAManager : ACMEManager :=
  { plainManager with CA := "https://acme.example/directory", TestCA := "" }

/-- The call is a registration request to the CA. -/
def ClientCall.isRegister : ClientCall → Bool
  | .register _ _ _ => true
  | _ => false

/-- The call persists a user. -/
def ClientCall.isSaveUser : ClientCall → Bool
  | .saveUser _ _ => true
  | _ => false

/-- A manager whose user has not agreed to the terms of service. -/
def reluctantManager : ACMEManager := { plainManager with Agreed := false }

/-- A CA whose directory names terms of service and which rejects a
registration that does not agree to them. -/
def strictEnv : ClientEnv :=
  { plainEnv with
    newClient := fun cfg =>
      .ok { ptr := 1, tosURL := "https://ca.example/terms", certTimeout := cfg.CertificateTimeout,
            Challenge := { http01 := some .builtin, tlsalpn01 := some .builtin, dns01 := none } }
    register := fun _ agreed _ =>
      if agreed then .ok 5
      else .error (.plain "urn:ietf:params:acme:error:malformed :: must agree to terms of service") }

/-- A CA whose directory names terms of service and which registers every account. -/
def lenientEnv : ClientEnv :=
  { strictEnv with register := fun _ _ _ => .ok 5 }

/-- The first call of `newACMEClient` made by `newACMEClientWithRetry`. -/
def firstAttempt (g : Globals) (envs : Nat → ClientEnv) (manager : ACMEManager)
    (acmeClients : String → Option LegoClient) (useTestCA : Bool) : NewClientResult :=
  newACMEClient g (envs 0) manager acmeClients useTestCA false

/-- The second call of `newACMEClient` made by `newACMEClientWithRetry`, if it
comes to that: on the table that the first call left behind. -/
def secondAttempt (g : Globals) (envs : Nat → ClientEnv) (manager : ACMEManager)
    (acmeClients : String → Option LegoClient) (useTestCA : Bool) : NewClientResult :=
  newACMEClient g (envs 1) (firstAttempt g envs manager acmeClients useTestCA).manager
    (firstAttempt g envs manager acmeClients useTestCA).acmeClients useTestCA false

/-- The error that `newACMEClientWithRetry` returns for a response with status 429. -/
def tooManyRequests (msg : String) : GoError :=
  .plain ("too many requests making new ACME client: " ++ msg ++ " - aborting")

/-- The error is an `acme.ProblemDetails` with `HTTPStatus` 429. -/
def GoError.isRateLimited : GoError → Bool
  | .problem status _ => status = statusTooManyRequests
  | _ => false

/-- A CA that is unreachable on every call. -/
def downEnv : ClientEnv :=
  { plainEnv with newClient := fun _ => .error (.plain "get directory: connection refused") }

/-- A CA that answers the directory request with status 429. -/
def busyEnv : ClientEnv :=
  { plainEnv with newClient := fun _ => .error (.problem 429 "rateLimited :: too many requests") }

/-- The call constructs an ACME library client. -/
def ClientCall.isNewClient : ClientCall → Bool
  | .newClient _ => true
  | _ => false

/-- An outside world in which a constructed client shows the configuration it
was made from: its terms URL is that of the directory it was given, its pointer
the length of the directory URL. Users are registered already. -/
def labelEnv : ClientEnv :=
  { plainEnv with
    getUser := fun _ _ email => .ok { Email := email, Registration := some 3, key := 11 }
    newClient := fun cfg =>
      .ok { ptr := cfg.CADirURL.length, tosURL := cfg.CADirURL ++ "/terms",
            certTimeout := cfg.CertificateTimeout,
            Challenge := { http01 := some .builtin, tlsalpn01 := some .builtin, dns01 := none } } }

/-- A manager for the account `admin@x.org` at the CA `https://ca.example/dir`. -/
def managerA : ACMEManager :=
  { plainManager with CA := "https://ca.example/dir", Email := "admin@x.org" }

/-- A manager for the account `dmin@x.org` at the CA `https://ca.example/dira`. -/
def managerB : ACMEManager :=
  { plainManager with CA := "https://ca.example/dira", Email := "dmin@x.org" }

/-- The call of `newACMEClient` for `managerA` on an empty table. -/
def callA : NewClientResult :=
  newACMEClient plainGlobals labelEnv managerA (fun _ => none) false false

/-- The call of `newACMEClient` for `managerB` on the table left by `callA`. -/
def callB : NewClientResult :=
  newACMEClient plainGlobals labelEnv managerB callA.acmeClients false false

/-- The call of `newACMEClient` for `managerB` on an empty table. -/
def callBAlone : NewClientResult :=
  newACMEClient plainGlobals labelEnv managerB (fun _ => none) false false

/-- The manager of `TestHTTPChallengeHandlerNoOp`. -/
def noOpManager : ACMEManager :=
  { plainManager with
    CA := "https://example.com/acme/directory", TestCA := "", Email := "", Agreed := false }

/-- A `GET` request as `http.NewRequest` makes it from a URL with this host and path. -/
def getRequest (host path : String) : Request :=
  { method := "GET", host := host, path := path, close := false }

/-- The requests of `TestHTTPChallengeHandlerNoOp`. -/
def noOpRequests : List Request :=
  [getRequest "localhost" "/", getRequest "localhost" "/foo.html",
   getRequest "localhost" "/.git", getRequest "localhost" "/.well-known/",
   getRequest "localhost" "/.well-known/acme-challenging",
   getRequest "other" "/.well-known/acme-challenge/foo"]

/-- The storage key under which the handler of `manager` looks for the
challenge record of a request: `tokenKey` in `distributedHTTPChallengeSolver`. -/
def handlerTokenKey (lib : Lib) (manager : ACMEManager) (r : Request) : String :=
  DistributedSolver.challengeTokensKey lib
    { acmeManager := manager, providerServer := .unset, caURL := manager.CA }
    (lib.hostOnly r.host)

/-! ### Storage keys -/

/-- Modelled from the spec: `StorageKeys.CertsSitePrefix`, the folder
`certificates/<issuer_key>/<safe_name>` of a site. -/
def StorageKeys.CertsSitePrefix (issuerKey name : String) : String :=
  "certificates/" ++ issuerKey ++ "/" ++ safeName name

/-- Modelled from the spec: `StorageKeys.SiteCert`, the key
`certificates/<issuer_key>/<safe_name>/<safe_name>.crt`. -/
def StorageKeys.SiteCert (issuerKey name : String) : String :=
  StorageKeys.CertsSitePrefix issuerKey name ++ "/" ++ safeName name ++ ".crt"

/-- Modelled from the spec: `StorageKeys.SitePrivateKey`, the key
`certificates/<issuer_key>/<safe_name>/<safe_name>.key`. -/
def StorageKeys.SitePrivateKey (issuerKey name : String) : String :=
  StorageKeys.CertsSitePrefix issuerKey name ++ "/" ++ safeName name ++ ".key"

/-- Modelled from the spec: `StorageKeys.SiteMeta`, the key
`certificates/<issuer_key>/<safe_name>/<safe_name>.json`. -/
def StorageKeys.SiteMeta (issuerKey name : String) : String :=
  StorageKeys.CertsSitePrefix issuerKey name ++ "/" ++ safeName name ++ ".json"

/-- The wildcard rule in the words of the specification: `wildcard_` for a
leading `*.`. -/
def starDotToWildcard : List Char → List Char
  | '*' :: '.' :: rest => "wildcard_".toList ++ rest
  | l => l

/-- The sanitiser with the wildcard rule in the words of the specification: a
leading `*.` is replaced by `wildcard_`. -/
def safeNameStarDot (name : String) : String :=
  String.mk (dropDotDot ((starDotToWildcard (name.toList.map Char.toLower)).filter keptChar))

/-- The manager of `TestPrefixAndKeyBuilders`. -/
def keyTestManager : ACMEManager :=
  { plainManager with
    CA := "https://example.com/acme-ca/directory", TestCA := "", Email := "", Agreed := false }

/-- The value `base` of `TestPrefixAndKeyBuilders`. -/
def keyTestBase : String := pathJoin ["certificates", "example.com-acme-ca-directory"]

/-- The test cases of `TestPrefixAndKeyBuilders`: the input name, and the
expected certificate, key and metadata files. -/
def keyTestCases : List (String × String × String × String) :=
  [("example.com",
    pathJoin [keyTestBase, "example.com", "example.com.crt"],
    pathJoin [keyTestBase, "example.com", "example.com.key"],
    pathJoin [keyTestBase, "example.com", "example.com.json"]),
   ("*.example.com",
    pathJoin [keyTestBase, "wildcard_.example.com", "wildcard_.example.com.crt"],
    pathJoin [keyTestBase, "wildcard_.example.com", "wildcard_.example.com.key"],
    pathJoin [keyTestBase, "wildcard_.example.com", "wildcard_.example.com.json"]),
   ("a/../../../foo",
    pathJoin [keyTestBase, "afoo", "afoo.crt"],
    pathJoin [keyTestBase, "afoo", "afoo.key"],
    pathJoin [keyTestBase, "afoo", "afoo.json"]),
   ("b\\..\\..\\..\\foo",
    pathJoin [keyTestBase, "bfoo", "bfoo.crt"],
    pathJoin [keyTestBase, "bfoo", "bfoo.key"],
    pathJoin [keyTestBase, "bfoo", "bfoo.json"]),
   ("c/foo",
    pathJoin [keyTestBase, "cfoo", "cfoo.crt"],
    pathJoin [keyTestBase, "cfoo", "cfoo.key"],
    pathJoin [keyTestBase, "cfoo", "cfoo.json"])]

/-- A path element that `path.Clean` keeps as it is: not empty, not `.`, not
`..`, without separator. -/
def ordinary (seg : List Char) : Prop :=
  seg ≠ [] ∧ seg ≠ ['.'] ∧ seg ≠ ['.', '.'] ∧ '/' ∉ seg

/-- A stack of path elements as `path.Clean` builds it (last element first):
ordinary elements, below them, for a path that is not rooted, only `..`. -/
def Stable (rooted : Bool) : List (List Char) → Prop
  | [] => True
  | a :: rest =>
    (ordinary a ∨ (a = ['.', '.'] ∧ rooted = false ∧ ∀ b ∈ rest, b = ['.', '.'])) ∧
      Stable rooted rest

/-- The path that `path.Clean` writes for a non-empty stack of elements. -/
def render (rooted : Bool) (acc : List (List Char)) : List Char :=
  if rooted then '/' :: List.intercalate ['/'] acc.reverse
  else List.intercalate ['/'] acc.reverse

/-- The library of stand-ins with the storage prefix of a CA left open. -/
def libWithPrefix (storageKeyCAPrefix : ACMEManager → String → String) : Lib :=
  { plainLib with storageKeyCAPrefix := storageKeyCAPrefix }

/-! ### The queue as a sequence -/

/-- The entry that the call `Submit(name, job)` appends to the queue in the
state `jm`, as a list: empty when the call is a no-op. -/
def JobManager.appended (jm : JobManager) (name : String) (job : Nat) : List NamedJob :=
  if name ≠ "" ∧ name ∈ jm.names then [] else [⟨name, job⟩]

/-- The entries that one event appends to the queue. -/
def Sys.appendedBy (s : Sys) : Event → List NamedJob
  | .submit name job => s.jm.appended name job
  | _ => []

/-- The entries that the `Submit` calls of an event sequence append to the
queue, in the order of the calls, when the sequence is run from `s`. -/
def Sys.accepted (s : Sys) : List Event → List NamedJob
  | [] => []
  | e :: es =>
    match s.step e with
    | none => []
    | some s' => s.appendedBy e ++ s'.accepted es

/-- A manager with room for one worker after two jobs were submitted, the
first has run to its end and the second is running. -/
def afterTwoJobs : Sys :=
  { jm := { maxConcurrentJobs := 1, activeWorkers := 1, queue := [], names := {"renew:b"} }
    idle := 0, running := [⟨"renew:b", 2⟩]
    started := [⟨"renew:a", 1⟩, ⟨"renew:b", 2⟩], finished := [⟨"renew:a", 1⟩] }

/-- The calls that lead from the empty manager to `afterTwoJobs`. -/
def twoJobs : List Event :=
  [.submit "renew:a" 1, .submit "renew:b" 2, .workerLoop, .finish 0, .workerLoop]

/-- The package-level manager after three submissions, one of them a
duplicate, and one worker having taken the first job. -/
def afterThreeSubmits : Sys :=
  { jm := { maxConcurrentJobs := 1000, activeWorkers := 2, queue := [⟨"renew:b", 2⟩],
            names := {"renew:b", "renew:a"} }
    idle := 1, running := [⟨"renew:a", 1⟩]
    started := [⟨"renew:a", 1⟩], finished := [] }

/-- The calls that lead from `jobmanager` to `afterThreeSubmits`. -/
def threeSubmits : List Event :=
  [.submit "renew:a" 1, .submit "renew:b" 2, .submit "renew:a" 3, .workerLoop]

/-! ### The attempt counter of `doWithRetry` -/

/-- What `doWithRetry` cannot decide itself, when the local variable `attempts`
is kept apart from the number of the loop iteration: `f` receives a context
that carries `&attempts` under `AttemptsCtxKey`, so a call can read the counter
and can also write it. Every field is indexed by the number of the loop
iteration, counted from 0. -/
structure CounterEnv where
  /-- The call `f(ctx)` of iteration `i` when the counter holds `v` on entry:
  the result, and the value the counter holds when the call returns. -/
  f : Nat → Int → Option GoError × Int
  /-- The reading `time.Since(start)` in the loop condition. -/
  sinceHead : Nat → Int
  /-- The reading `time.Since(start)` in the `if` after a failed call. -/
  sinceTail : Nat → Int
  /-- Whether the `select` receives from `ctx.Done()` rather than from `timer.C`. -/
  ctxDone : Nat → Bool

/-- One call of `f` as the counter sees it: the value of `*ctx.Value(AttemptsCtxKey)`
when the call begins, when it returns, and after the `attempts++` that follows. -/
structure CallRecord where
  onEntry : Int
  onReturn : Int
  afterIncrement : Int
deriving DecidableEq, Repr

/-- A run of `doWithRetry` with the counter observed: how it ended, the final
value of `attempts`, and the record of every call of `f`, in order. -/
structure CounterRun where
  outcome : RetryOutcome
  attempts : Int
  calls : List CallRecord
deriving DecidableEq, Repr

/-- The `for` loop of `doWithRetry`, at most `fuel` iterations of it, with `i`
the number of the iteration and `attempts` the local variable. -/
def counterLoop (env : CounterEnv) :
    Nat → Nat → Int → Int → Option GoError → List CallRecord → CounterRun
  | 0, _, attempts, _, _, calls => ⟨.pending, attempts, calls⟩
  | fuel + 1, i, attempts, intervalIndex, err, calls =>
    if env.sinceHead i < maxRetryDuration then
      match (if 0 ≤ intervalIndex then retryIntervalAt intervalIndex else some 0) with
      | none => ⟨.indexPanic, attempts, calls⟩
      | some _ =>
        if env.ctxDone i then
          ⟨.returned (some .canceled), attempts, calls⟩
        else
          let r := env.f i attempts
          let calls := calls ++ [⟨attempts, r.2, r.2 + 1⟩]
          let attempts := r.2 + 1
          match r.1 with
          | none => ⟨.returned none, attempts, calls⟩
          | some e =>
            if e.isCanceled then ⟨.returned (some e), attempts, calls⟩
            else if e.asNoRetry then ⟨.returned (some e), attempts, calls⟩
            else
              let next : Int :=
                if intervalIndex < (retryIntervals.length : Int) - 1 then intervalIndex + 1
                else intervalIndex
              if env.sinceTail i < maxRetryDuration then
                match retryIntervalAt next with
                | none => ⟨.indexPanic, attempts, calls⟩
                | some _ => counterLoop env fuel (i + 1) attempts next (some e) calls
              else
                ⟨.returned none, attempts, calls⟩
    else
      ⟨.returned err, attempts, calls⟩

/-- The function `doWithRetry` with the counter observed, for at most `fuel`
iterations. -/
def doWithRetryCounted (env : CounterEnv) (fuel : Nat) : CounterRun :=
  counterLoop env fuel 0 0 (-1) none []

/-- An operation that only reads the counter: its result may depend on the
iteration, the counter is left as it was found. -/
def RetryEnv.reading (env : RetryEnv) : CounterEnv :=
  { f := fun i v => (env.f i, v)
    sinceHead := env.sinceHead
    sinceTail := env.sinceTail
    ctxDone := env.ctxDone }

/-- An operation that looks at the counter and succeeds from the third attempt
on (counter value 2); it does not write the counter. -/
def thirdTimeLucky : CounterEnv :=
  { f := fun _ v => (if v < 2 then some (.plain "connection reset") else none, v)
    sinceHead := fun k => elapsed k
    sinceTail := fun k => elapsed (k + 1)
    ctxDone := fun _ => false }

/-- What the records of the calls look like when no call has written the counter: call
number `k`, counted from 0, finds `k` and is followed by `k + 1`. -/
def Counted (calls : List CallRecord) : Prop :=
  ∀ k, k < calls.length → calls[k]? = some ⟨(k : Int), (k : Int), (k : Int) + 1⟩

/-! ### Solvers on a busy port -/

/-- An HTTP solver on port 80 of every interface. -/
def httpSolver80 : HttpSolver := { closed := 0, acmeManager := plainManager, address := ":80" }

/-- A TLS-ALPN solver on port 80 of every interface. -/
def tlsSolver80 : TlsALPNSolver := { config := 0, address := ":80" }

/-- The solver state after one `httpSolver.Present` on `:80` while another
process holds the port. -/
def afterBusyPresent : SolverWorld :=
  (httpSolver80.Present SolverWorld.init "a.example" "t1" "t1.thumb" takenPort).1

/-- The solver state after a second `Present` on `:80`, when the port has
become free. -/
def afterSecondPresent : SolverWorld :=
  (httpSolver80.Present afterBusyPresent "b.example" "t2" "t2.thumb" freePort).1

/-- The solver state after one `httpSolver.Present` on `:80` that cannot bind
the port and finds nobody listening there. -/
def afterFailedPresent : SolverWorld :=
  (httpSolver80.Present SolverWorld.init "a.example" "t1" "t1.thumb" deniedPort).1

/-- A `tlsALPNSolver.Present` on `:80` for which `tlsalpn01.ChallengeCert`
fails, followed by the `CleanUp` with the same arguments. -/
def failedCertThenCleanUp : List SolverEvent :=
  [.tlsPresent tlsSolver80 "b.example" "t2" "t2.thumb"
     (.error (.plain "tlsalpn01: could not generate the challenge certificate")) "hash" freePort,
   .tlsCleanUp tlsSolver80 "b.example" "t2" "t2.thumb"]

/-- The calls of `failedCertThenCleanUp` followed by an `httpSolver.Present` on
`:80` that cannot bind the port and finds nobody listening there. -/
def failedCertThenFailedPresent : List SolverEvent :=
  failedCertThenCleanUp ++ [.httpPresent httpSolver80 "a.example" "t1" "t1.thumb" deniedPort]

/-- The solver state after `tlsALPNSolver.Present` has put the challenge
certificate for `domain` into the certificate cache of the solver's config. -/
def SolverWorld.withChallengeCert (w : SolverWorld) (t : TlsALPNSolver) (domain : String)
    (c : Nat) (hash : String) : SolverWorld :=
  { w with
    certCache := Function.update w.certCache t.config
                  (Function.update (w.certCache t.config) (tlsALPNCertKeyName domain)
                    (some { cert := c, names := [domain], hash := hash })) }

/-! ### Challenge rotation -/

/-- Modelled from the spec: the rotation loop `repeat: (chosen, available) =
next_challenge(available)` for `n` rounds, the loop itself not being among the
embedded files. `rand k len` is what `weakrand.Intn(len)` returns in round `k`.
The result holds the challenges chosen, in order, the list left over and the
client; it is `none` when an index expression panics. -/
def rotation (g : Globals) (rand : Nat → Nat → Nat) :
    Nat → Nat → AcmeClient → List ChallengeType →
      Option (List ChallengeType × List ChallengeType × AcmeClient)
  | 0, _, client, available => some ([], available, client)
  | n + 1, k, client, available =>
    match client.nextChallenge g available (rand k available.length) with
    | none => none
    | some ((chosen, rest), client') =>
      match rotation g rand n (k + 1) client' rest with
      | none => none
      | some (cs, final, client'') => some (chosen :: cs, final, client'')

/-- A random source that always draws the last index. -/
def lastIndex : Nat → Nat → Nat := fun _ len => len - 1

/-! ### The certificate timeout handed to the ACME library -/

/-- The certificate timeout in the configuration of a `lego.NewClient` call. -/
def ClientCall.certificateTimeout : ClientCall → Option Int
  | .newClient cfg => some cfg.CertificateTimeout
  | _ => none

/-- The value of the local variable `certObtainTimeout` of `newACMEClient`
after the statements under `ensure defaults are filled in`. -/
def defaultedTimeout (g : Globals) (manager : ACMEManager) : Int :=
  if manager.CertObtainTimeout = 0 then g.DefaultACME.CertObtainTimeout
  else manager.CertObtainTimeout

/-- A manager with a certificate timeout of its own, thirty seconds. -/
def patientManager : ACMEManager :=
  { plainManager with CertObtainTimeout := 30000000000 }

/-! ## Properties of the job manager -/

theorem perm_cons_eraseIdx {α : Type} (l : List α) (i : Nat) (a : α)
    (h : l[i]? = some a) : l.Perm (a :: l.eraseIdx i) := by
  induction l generalizing i with
  | nil => simp at h
  | cons b t ih =>
    cases i with
    | zero =>
      simp at h
      subst h
      simp
    | succ k =>
      simp at h
      have := ih k h
      simp only [List.eraseIdx_cons_succ]
      exact (List.Perm.cons b this).trans (List.Perm.swap a b _)

theorem countName_append (n : String) (l₁ l₂ : List NamedJob) :
    countName n (l₁ ++ l₂) = countName n l₁ + countName n l₂ := by
  simp [countName, List.countP_append]

theorem countName_cons (n : String) (j : NamedJob) (l : List NamedJob) :
    countName n (j :: l) = countName n l + if j.name = n then 1 else 0 := by
  simp [countName, List.countP_cons]

theorem countName_nil (n : String) : countName n [] = 0 := by
  simp [countName]

theorem countName_eraseIdx (n : String) (l : List NamedJob) (i : Nat) (a : NamedJob)
    (h : l[i]? = some a) :
    countName n l = countName n (l.eraseIdx i) + if a.name = n then 1 else 0 := by
  have hp := perm_cons_eraseIdx l i a h
  have := hp.countP_eq (fun j => decide (j.name = n))
  simp only [countName]
  rw [this]
  simp [List.countP_cons]

theorem singleFlightInv_init (m : Int) : SingleFlightInv (Sys.init m) := by
  intro n _
  simp [Sys.init, Sys.inFlight, countName]

theorem Submit_dup (jm : JobManager) (name : String) (job : Nat)
    (h : name ≠ "" ∧ name ∈ jm.names) : jm.Submit name job = (jm, false) := by
  simp only [JobManager.Submit, h, and_self, ne_eq, not_false_eq_true, if_true]

theorem Submit_queue (jm : JobManager) (name : String) (job : Nat)
    (h : ¬ (name ≠ "" ∧ name ∈ jm.names)) :
    (jm.Submit name job).1.queue = jm.queue ++ [⟨name, job⟩] := by
  simp only [JobManager.Submit, h, if_false]
  split <;> rfl

theorem Submit_names (jm : JobManager) (name : String) (job : Nat)
    (h : ¬ (name ≠ "" ∧ name ∈ jm.names)) :
    (jm.Submit name job).1.names = if name ≠ "" then insert name jm.names else jm.names := by
  simp only [JobManager.Submit, h, if_false]
  split <;> rfl

theorem workerRelease_queue (jm : JobManager) (next : NamedJob) :
    (jm.workerRelease next).queue = jm.queue := by
  simp only [JobManager.workerRelease]
  split <;> rfl

theorem workerRelease_names (jm : JobManager) (next : NamedJob) :
    (jm.workerRelease next).names
      = if next.name ≠ "" then jm.names.erase next.name else jm.names := by
  simp only [JobManager.workerRelease]
  split <;> rfl

theorem singleFlightInv_step (s s' : Sys) (e : Event) (hinv : SingleFlightInv s)
    (h : s.step e = some s') : SingleFlightInv s' := by
  cases e with
  | submit name job =>
    simp only [Sys.step, Option.some.injEq] at h
    subst h
    intro n hn
    obtain ⟨h1, h2⟩ := hinv n hn
    by_cases hdup : name ≠ "" ∧ name ∈ s.jm.names
    · simp only [Submit_dup _ _ _ hdup, Sys.inFlight] at *
      exact ⟨h1, h2⟩
    · have hq := Submit_queue s.jm name job hdup
      have hnm := Submit_names s.jm name job hdup
      simp only [Sys.inFlight, hq, hnm] at *
      rw [countName_append, countName_append, countName_cons, countName_nil]
      rw [countName_append] at h1 h2
      by_cases hname : name = n
      · subst hname
        have hnot : name ∉ s.jm.names := fun hm => hdup ⟨hn, hm⟩
        have hz : ¬ 0 < countName name s.jm.queue + countName name s.running :=
          fun hp => hnot (h2.mpr hp)
        simp only [if_true, hn, ne_eq, not_false_eq_true, Finset.mem_insert, true_or, true_iff]
        omega
      · simp only [hname, if_false]
        constructor
        · omega
        · by_cases he : name = ""
          · simp only [he, ne_eq, not_true_eq_false, if_false]
            rw [h2]; omega
          · simp only [he, ne_eq, not_false_eq_true, if_true, Finset.mem_insert]
            rw [h2]
            constructor
            · rintro (hx | hx)
              · exact absurd hx.symm hname
              · omega
            · intro hx; right; omega
  | workerLoop =>
    simp only [Sys.step] at h
    split at h
    · simp at h
    · cases hq : s.jm.queue with
      | nil =>
        simp only [JobManager.workerHead, hq, Option.some.injEq] at h
        subst h
        intro n hn
        simpa [Sys.inFlight, hq] using hinv n hn
      | cons next rest =>
        simp only [JobManager.workerHead, hq, Option.some.injEq] at h
        subst h
        intro n hn
        have := hinv n hn
        simp only [Sys.inFlight, hq, countName_append, countName_cons, countName_nil] at this ⊢
        constructor
        · omega
        · rw [this.2]; omega
  | finish i =>
    simp only [Sys.step] at h
    cases hr : s.running[i]? with
    | none => simp [hr] at h
    | some next =>
      simp only [hr, Option.some.injEq] at h
      subst h
      intro n hn
      obtain ⟨h1, h2⟩ := hinv n hn
      have hc := countName_eraseIdx n s.running i next hr
      simp only [Sys.inFlight, countName_append, workerRelease_queue,
        workerRelease_names] at h1 h2 ⊢
      by_cases hname : next.name = n
      · have hne : next.name ≠ "" := by rw [hname]; exact hn
        simp only [hname, if_true] at hc
        simp only [hne, ne_eq, not_false_eq_true, if_true, Finset.mem_erase]
        constructor
        · omega
        · constructor
          · intro hx; exact absurd hname.symm hx.1
          · intro hx; omega
      · simp only [hname, if_false] at hc
        constructor
        · omega
        · by_cases he : next.name = ""
          · simp only [he, ne_eq, not_true_eq_false, if_false]
            rw [h2]; omega
          · simp only [he, ne_eq, not_false_eq_true, if_true, Finset.mem_erase]
            rw [h2]
            constructor
            · rintro ⟨_, hx⟩; omega
            · intro hx; exact ⟨fun hh => hname hh.symm, by omega⟩

theorem singleFlightInv_run (es : List Event) (s s' : Sys) (hinv : SingleFlightInv s)
    (h : s.run es = some s') : SingleFlightInv s' := by
  induction es generalizing s with
  | nil =>
    simp only [Sys.run, Option.some.injEq] at h
    subst h
    exact hinv
  | cons e es ih =>
    simp only [Sys.run] at h
    cases hs : s.step e with
    | none => simp [hs] at h
    | some s1 =>
      simp only [hs, Option.some_bind] at h
      exact ih s1 (singleFlightInv_step s s1 e hinv hs) h

theorem onlyName_append (n : String) (l₁ l₂ : List NamedJob) :
    onlyName n (l₁ ++ l₂) = onlyName n l₁ ++ onlyName n l₂ := by
  simp [onlyName]

theorem onlyName_cons (n : String) (j : NamedJob) (l : List NamedJob) :
    onlyName n (j :: l) = if j.name = n then j :: onlyName n l else onlyName n l := by
  simp only [onlyName, List.filter_cons, decide_eq_true_eq]

theorem onlyName_nil (n : String) : onlyName n [] = [] := rfl

theorem onlyName_eq_nil_of_count (n : String) (l : List NamedJob) (h : countName n l = 0) :
    onlyName n l = [] := by
  simp only [countName, List.countP_eq_zero, decide_eq_true_eq] at h
  simp only [onlyName, List.filter_eq_nil_iff, decide_eq_true_eq]
  exact h

theorem step_logs (s s1 : Sys) (e : Event) (h : s.step e = some s1) :
    ∃ ls lf, s1.started = s.started ++ ls ∧ s1.finished = s.finished ++ lf := by
  cases e with
  | submit name job =>
    simp only [Sys.step, Option.some.injEq] at h
    subst h
    exact ⟨[], [], by simp, by simp⟩
  | workerLoop =>
    simp only [Sys.step] at h
    split at h
    · simp at h
    · split at h
      · simp only [Option.some.injEq] at h
        subst h
        exact ⟨[], [], by simp, by simp⟩
      · rename_i next _
        simp only [Option.some.injEq] at h
        subst h
        exact ⟨[next], [], by simp, by simp⟩
  | finish i =>
    simp only [Sys.step] at h
    split at h
    · simp at h
    · rename_i next _
      simp only [Option.some.injEq] at h
      subst h
      exact ⟨[], [next], by simp, by simp⟩

theorem run_logs (es : List Event) (s s' : Sys) (h : s.run es = some s') :
    ∃ ls lf, s'.started = s.started ++ ls ∧ s'.finished = s.finished ++ lf := by
  induction es generalizing s with
  | nil =>
    simp only [Sys.run, Option.some.injEq] at h
    subst h
    exact ⟨[], [], by simp, by simp⟩
  | cons e es ih =>
    simp only [Sys.run] at h
    cases hs : s.step e with
    | none => simp [hs] at h
    | some s1 =>
      simp only [hs, Option.some_bind] at h
      obtain ⟨ls1, lf1, h1, h2⟩ := step_logs s s1 e hs
      obtain ⟨ls2, lf2, h3, h4⟩ := ih s1 h
      exact ⟨ls1 ++ ls2, lf1 ++ lf2, by rw [h3, h1, List.append_assoc],
        by rw [h4, h2, List.append_assoc]⟩

/-- One transition while the name `n` is in flight and none of its jobs finishes. -/
theorem step_after (n : String) (j : Nat) (s s1 : Sys) (e : Event) (A ls lf : List NamedJob)
    (hn0 : n ≠ "") (hn : n ∈ s.jm.names) (hA : onlyName n (s.jm.queue ++ A) = [⟨n, j⟩])
    (h : s.step e = some s1) (hls : s1.started = s.started ++ ls)
    (hlf : s1.finished = s.finished ++ lf) (hfin : countName n lf = 0) :
    n ∈ s1.jm.names ∧ onlyName n (s1.jm.queue ++ (A ++ ls)) = [⟨n, j⟩] := by
  cases e with
  | submit name job =>
    simp only [Sys.step, Option.some.injEq] at h
    subst h
    simp only [List.self_eq_append_right] at hls
    subst hls
    by_cases hdup : name ≠ "" ∧ name ∈ s.jm.names
    · simp only [Submit_dup _ _ _ hdup, List.append_nil]
      exact ⟨hn, hA⟩
    · have hq := Submit_queue s.jm name job hdup
      have hnm := Submit_names s.jm name job hdup
      have hne : name ≠ n := by
        intro he
        subst he
        exact hdup ⟨hn0, hn⟩
      simp only [hq, hnm, List.append_nil]
      constructor
      · split
        · exact Finset.mem_insert_of_mem hn
        · exact hn
      · rw [onlyName_append] at hA
        rw [onlyName_append, onlyName_append, onlyName_cons, onlyName_nil]
        simp only [hne, if_false, List.append_nil]
        exact hA
  | workerLoop =>
    simp only [Sys.step] at h
    split at h
    · simp at h
    · cases hq : s.jm.queue with
      | nil =>
        simp only [JobManager.workerHead, hq, Option.some.injEq] at h
        subst h
        simp only [List.self_eq_append_right] at hls
        subst hls
        simp only [hq, List.append_nil] at hA ⊢
        exact ⟨hn, hA⟩
      | cons next rest =>
        simp only [JobManager.workerHead, hq, Option.some.injEq] at h
        subst h
        simp only [List.append_cancel_left_eq] at hls
        subst hls
        refine ⟨hn, ?_⟩
        simp only [hq, List.cons_append, onlyName_cons, onlyName_append, onlyName_nil] at hA ⊢
        by_cases hnext : next.name = n
        · simp only [hnext, if_true, List.cons.injEq] at hA ⊢
          obtain ⟨h1, h2⟩ := hA
          have h3 := List.append_eq_nil.mp h2
          rw [h3.1, h3.2, h1]
          rfl
        · simp only [hnext, if_false, List.append_nil] at hA ⊢
          exact hA
  | finish i =>
    simp only [Sys.step] at h
    cases hr : s.running[i]? with
    | none => simp [hr] at h
    | some next =>
      simp only [hr, Option.some.injEq] at h
      subst h
      simp only [List.self_eq_append_right, List.append_cancel_left_eq] at hls hlf
      subst hls
      subst hlf
      have hnext : next.name ≠ n := by
        intro he
        simp [countName, he] at hfin
      simp only [workerRelease_queue, workerRelease_names, List.append_nil]
      refine ⟨?_, hA⟩
      split
      · exact Finset.mem_erase.mpr ⟨fun hh => hnext hh.symm, hn⟩
      · exact hn

theorem run_after (n : String) (j : Nat) (es : List Event) :
    ∀ (s s' : Sys) (A ls lf : List NamedJob), n ≠ "" → n ∈ s.jm.names →
      onlyName n (s.jm.queue ++ A) = [⟨n, j⟩] → s.run es = some s' →
      s'.started = s.started ++ ls → s'.finished = s.finished ++ lf → countName n lf = 0 →
      onlyName n (s'.jm.queue ++ (A ++ ls)) = [⟨n, j⟩] := by
  induction es with
  | nil =>
    intro s s' A ls lf _ _ hA h hls _ _
    simp only [Sys.run, Option.some.injEq] at h
    subst h
    simp only [List.self_eq_append_right] at hls
    subst hls
    simpa using hA
  | cons e es ih =>
    intro s s' A ls lf hn0 hn hA h hls hlf hfin
    simp only [Sys.run] at h
    cases hs : s.step e with
    | none => simp [hs] at h
    | some s1 =>
      simp only [hs, Option.some_bind] at h
      obtain ⟨ls1, lf1, h1, h2⟩ := step_logs s s1 e hs
      obtain ⟨ls2, lf2, h3, h4⟩ := run_logs es s1 s' h
      have els : ls = ls1 ++ ls2 := by
        rw [h1, List.append_assoc] at h3
        exact List.append_cancel_left (hls.symm.trans h3)
      have elf : lf = lf1 ++ lf2 := by
        rw [h2, List.append_assoc] at h4
        exact List.append_cancel_left (hlf.symm.trans h4)
      rw [elf, countName_append] at hfin
      obtain ⟨hn1, hA1⟩ := step_after n j s s1 e A ls1 lf1 hn0 hn hA hs h1 h2 (by omega)
      have := ih s1 s' (A ++ ls1) ls2 lf2 hn0 hn1 hA1 h h3 h4 (by omega)
      rw [els]
      simpa only [List.append_assoc] using this

/-- One transition other than `Submit n` while the name `n` is not in flight. -/
theorem step_before (n : String) (s s1 : Sys) (e : Event) (A ls : List NamedJob)
    (hn0 : n ≠ "") (hinv : SingleFlightInv s) (hn : n ∉ s.jm.names) (hA : onlyName n A = [])
    (he : ∀ job, e ≠ .submit n job)
    (h : s.step e = some s1) (hls : s1.started = s.started ++ ls) :
    n ∉ s1.jm.names ∧ onlyName n (A ++ ls) = [] := by
  have hcount : countName n s.jm.queue = 0 := by
    have := (hinv n hn0).2
    simp only [Sys.inFlight, countName_append] at this
    by_contra hc
    exact hn (this.mpr (by omega))
  cases e with
  | submit name job =>
    simp only [Sys.step, Option.some.injEq] at h
    subst h
    simp only [List.self_eq_append_right] at hls
    subst hls
    have hne : name ≠ n := fun hh => he job (by rw [hh])
    simp only [List.append_nil]
    refine ⟨?_, hA⟩
    by_cases hdup : name ≠ "" ∧ name ∈ s.jm.names
    · simp only [Submit_dup _ _ _ hdup]
      exact hn
    · rw [Submit_names s.jm name job hdup]
      split
      · simp only [Finset.mem_insert, not_or]
        exact ⟨fun hh => hne hh.symm, hn⟩
      · exact hn
  | workerLoop =>
    simp only [Sys.step] at h
    split at h
    · simp at h
    · cases hq : s.jm.queue with
      | nil =>
        simp only [JobManager.workerHead, hq, Option.some.injEq] at h
        subst h
        simp only [List.self_eq_append_right] at hls
        subst hls
        simp only [List.append_nil]
        exact ⟨hn, hA⟩
      | cons next rest =>
        simp only [JobManager.workerHead, hq, Option.some.injEq] at h
        subst h
        simp only [List.append_cancel_left_eq] at hls
        subst hls
        refine ⟨hn, ?_⟩
        have hnext : next.name ≠ n := by
          intro hh
          rw [hq, countName_cons] at hcount
          simp only [hh, if_true] at hcount
          omega
        rw [onlyName_append, hA, onlyName_cons, onlyName_nil]
        simp only [hnext, if_false, List.append_nil]
  | finish i =>
    simp only [Sys.step] at h
    cases hr : s.running[i]? with
    | none => simp [hr] at h
    | some next =>
      simp only [hr, Option.some.injEq] at h
      subst h
      simp only [List.self_eq_append_right] at hls
      subst hls
      simp only [workerRelease_names, List.append_nil]
      refine ⟨?_, hA⟩
      split
      · exact fun hh => hn (Finset.mem_of_mem_erase hh)
      · exact hn

/-- The transition `Submit n job` while the name `n` is not in flight. -/
theorem step_accept (n : String) (job : Nat) (s s1 : Sys) (A : List NamedJob)
    (hn0 : n ≠ "") (hinv : SingleFlightInv s) (hn : n ∉ s.jm.names) (hA : onlyName n A = [])
    (h : s.step (.submit n job) = some s1) :
    n ∈ s1.jm.names ∧ s1.started = s.started ∧ s1.finished = s.finished ∧
      onlyName n (s1.jm.queue ++ A) = [⟨n, job⟩] := by
  have hcount : countName n s.jm.queue = 0 := by
    have := (hinv n hn0).2
    simp only [Sys.inFlight, countName_append] at this
    by_contra hc
    exact hn (this.mpr (by omega))
  simp only [Sys.step, Option.some.injEq] at h
  subst h
  have hdup : ¬ (n ≠ "" ∧ n ∈ s.jm.names) := fun hh => hn hh.2
  simp only [Submit_queue s.jm n job hdup, Submit_names s.jm n job hdup, hn0, ne_eq,
    not_false_eq_true, if_true, Finset.mem_insert_self, true_and]
  rw [onlyName_append, onlyName_append, hA, onlyName_eq_nil_of_count n _ hcount,
    onlyName_cons, onlyName_nil]
  simp

theorem run_before (n : String) (es : List Event) :
    ∀ (s s' : Sys) (A ls lf : List NamedJob), n ≠ "" → SingleFlightInv s → n ∉ s.jm.names →
      onlyName n A = [] → 1 ≤ submitsOf n es → s.run es = some s' →
      s'.started = s.started ++ ls → s'.finished = s.finished ++ lf → countName n lf = 0 →
      ∃ j, firstSubmit n es = some j ∧ onlyName n (s'.jm.queue ++ (A ++ ls)) = [⟨n, j⟩] := by
  induction es with
  | nil =>
    intro s s' A ls lf _ _ _ _ hK
    simp [submitsOf] at hK
  | cons e es ih =>
    intro s s' A ls lf hn0 hinv hn hA hK h hls hlf hfin
    simp only [Sys.run] at h
    cases hs : s.step e with
    | none => simp [hs] at h
    | some s1 =>
      simp only [hs, Option.some_bind] at h
      obtain ⟨ls1, lf1, h1, h2⟩ := step_logs s s1 e hs
      obtain ⟨ls2, lf2, h3, h4⟩ := run_logs es s1 s' h
      have els : ls = ls1 ++ ls2 := by
        rw [h1, List.append_assoc] at h3
        exact List.append_cancel_left (hls.symm.trans h3)
      have elf : lf = lf1 ++ lf2 := by
        rw [h2, List.append_assoc] at h4
        exact List.append_cancel_left (hlf.symm.trans h4)
      rw [elf, countName_append] at hfin
      by_cases he : ∃ job, e = .submit n job
      · obtain ⟨job, rfl⟩ := he
        obtain ⟨hn1, e1, e2, hA1⟩ := step_accept n job s s1 A hn0 hinv hn hA hs
        refine ⟨job, by simp [firstSubmit], ?_⟩
        rw [e1] at h3
        rw [e2] at h4
        have els' : ls = ls2 := List.append_cancel_left (hls.symm.trans h3)
        have elf' : lf2 = lf2 := rfl
        rw [els']
        exact run_after n job es s1 s' A ls2 lf2 hn0 hn1 hA1 h (by rw [e1]; exact h3)
          (by rw [e2]; exact h4) (by omega)
      · have he' : ∀ job, e ≠ .submit n job := fun job hh => he ⟨job, hh⟩
        obtain ⟨hn1, hA1⟩ := step_before n s s1 e A ls1 hn0 hinv hn hA he' hs h1
        have hK' : 1 ≤ submitsOf n es := by
          cases e with
          | submit name job =>
            have : name ≠ n := fun hh => he' job (by rw [hh])
            simpa [submitsOf, List.countP_cons, this] using hK
          | workerLoop => simpa [submitsOf, List.countP_cons] using hK
          | finish i => simpa [submitsOf, List.countP_cons] using hK
        have hfs : firstSubmit n (e :: es) = firstSubmit n es := by
          cases e with
          | submit name job =>
            have : name ≠ n := fun hh => he' job (by rw [hh])
            simp [firstSubmit, this]
          | workerLoop => simp [firstSubmit]
          | finish i => simp [firstSubmit]
        obtain ⟨j, hj1, hj2⟩ := ih s1 s' (A ++ ls1) ls2 lf2 hn0
          (singleFlightInv_step s s1 e hinv hs) hn1 hA1 hK' h h3 h4 (by omega)
        refine ⟨j, by rw [hfs]; exact hj1, ?_⟩
        rw [els]
        simpa only [List.append_assoc] using hj2

theorem workersInv_init (m : Int) : WorkersInv (Sys.init m) := by
  simp [WorkersInv, Sys.init]

theorem step_maxConcurrentJobs (s s' : Sys) (e : Event) (h : s.step e = some s') :
    s'.jm.maxConcurrentJobs = s.jm.maxConcurrentJobs := by
  cases e with
  | submit name job =>
    simp only [Sys.step, Option.some.injEq] at h
    subst h
    simp only [JobManager.Submit]
    split
    · rfl
    · split <;> rfl
  | workerLoop =>
    simp only [Sys.step] at h
    split at h
    · simp at h
    · cases hq : s.jm.queue with
      | nil =>
        simp only [JobManager.workerHead, hq, Option.some.injEq] at h
        subst h; rfl
      | cons next rest =>
        simp only [JobManager.workerHead, hq, Option.some.injEq] at h
        subst h; rfl
  | finish i =>
    simp only [Sys.step] at h
    cases hr : s.running[i]? with
    | none => simp [hr] at h
    | some next =>
      simp only [hr, Option.some.injEq] at h
      subst h
      simp only [JobManager.workerRelease]
      split <;> rfl

theorem workersInv_step (s s' : Sys) (e : Event) (hinv : WorkersInv s)
    (h : s.step e = some s') : WorkersInv s' := by
  obtain ⟨h1, h2⟩ := hinv
  cases e with
  | submit name job =>
    simp only [Sys.step, Option.some.injEq] at h
    subst h
    by_cases hdup : name ≠ "" ∧ name ∈ s.jm.names
    · simp only [WorkersInv, Submit_dup _ _ _ hdup]
      exact ⟨by simpa using h1, h2⟩
    · by_cases hlt : s.jm.activeWorkers < s.jm.maxConcurrentJobs
      · simp only [WorkersInv, JobManager.Submit, hdup, hlt, if_false, if_true]
        constructor
        · push_cast; omega
        · intro _ _; omega
      · simp only [WorkersInv, JobManager.Submit, hdup, hlt, if_false]
        constructor
        · simpa using h1
        · intro hm _; omega
  | workerLoop =>
    simp only [Sys.step] at h
    split at h
    · simp at h
    · rename_i hidle
      cases hq : s.jm.queue with
      | nil =>
        simp only [JobManager.workerHead, hq, Option.some.injEq] at h
        subst h
        simp only [WorkersInv, hq, ne_eq, not_true_eq_false, false_implies, implies_true,
          and_true]
        omega
      | cons next rest =>
        simp only [JobManager.workerHead, hq, Option.some.injEq] at h
        subst h
        simp only [WorkersInv, List.length_append, List.length_singleton]
        constructor
        · push_cast; omega
        · intro hm _
          exact h2 hm (by simp [hq])
  | finish i =>
    simp only [Sys.step] at h
    cases hr : s.running[i]? with
    | none => simp [hr] at h
    | some next =>
      simp only [hr, Option.some.injEq] at h
      subst h
      have hi : i < s.running.length := by
        rcases Nat.lt_or_ge i s.running.length with hlt | hge
        · exact hlt
        · rw [List.getElem?_eq_none hge] at hr; cases hr
      have hlen : (s.running.eraseIdx i).length = s.running.length - 1 :=
        List.length_eraseIdx_of_lt hi
      have haw : (s.jm.workerRelease next).activeWorkers = s.jm.activeWorkers := by
        simp only [JobManager.workerRelease]; split <;> rfl
      have hmx : (s.jm.workerRelease next).maxConcurrentJobs = s.jm.maxConcurrentJobs := by
        simp only [JobManager.workerRelease]; split <;> rfl
      simp only [WorkersInv, workerRelease_queue, haw, hmx, hlen]
      constructor
      · push_cast; omega
      · exact h2

theorem workersInv_run (es : List Event) (s s' : Sys) (hinv : WorkersInv s)
    (h : s.run es = some s') : WorkersInv s' := by
  induction es generalizing s with
  | nil =>
    simp only [Sys.run, Option.some.injEq] at h
    subst h
    exact hinv
  | cons e es ih =>
    simp only [Sys.run] at h
    cases hs : s.step e with
    | none => simp [hs] at h
    | some s1 =>
      simp only [hs, Option.some_bind] at h
      exact ih s1 (workersInv_step s s1 e hinv hs) h

theorem run_maxConcurrentJobs (es : List Event) (s s' : Sys) (h : s.run es = some s') :
    s'.jm.maxConcurrentJobs = s.jm.maxConcurrentJobs := by
  induction es generalizing s with
  | nil =>
    simp only [Sys.run, Option.some.injEq] at h
    subst h
    rfl
  | cons e es ih =>
    simp only [Sys.run] at h
    cases hs : s.step e with
    | none => simp [hs] at h
    | some s1 =>
      simp only [hs, Option.some_bind] at h
      rw [ih s1 h, step_maxConcurrentJobs s s1 e hs]

theorem run_append (es₁ es₂ : List Event) (s s1 s2 : Sys) (h1 : s.run es₁ = some s1)
    (h2 : s1.run es₂ = some s2) : s.run (es₁ ++ es₂) = some s2 := by
  induction es₁ generalizing s with
  | nil =>
    simp only [Sys.run, Option.some.injEq] at h1
    subst h1
    simpa using h2
  | cons e es ih =>
    simp only [Sys.run, List.cons_append] at h1 ⊢
    cases hs : s.step e with
    | none => simp [hs] at h1
    | some s' =>
      simp only [hs, Option.some_bind] at h1 ⊢
      exact ih s' h1

/-- Moving the head of the queue to the end of the started log keeps the
entries named `n`. -/
theorem onlyName_rotate (n : String) (x next : NamedJob) (rest A : List NamedJob)
    (h : onlyName n (next :: rest ++ A) = [x]) : onlyName n (rest ++ (A ++ [next])) = [x] := by
  simp only [List.cons_append, onlyName_cons, onlyName_append, onlyName_nil] at h ⊢
  by_cases hnext : next.name = n
  · simp only [hnext, if_true, List.cons.injEq] at h ⊢
    obtain ⟨h1, h2⟩ := h
    have h3 := List.append_eq_nil.mp h2
    rw [h3.1, h3.2, h1]
    rfl
  · simp only [hnext, if_false, List.append_nil] at h ⊢
    exact h

/-- With a positive cap the workers can always drain the queue: from any state
there is a schedule of worker events after which every queued entry has been
started. -/
theorem drain (n : String) (x : NamedJob) :
    ∀ (k : Nat) (s : Sys) (B : List NamedJob), s.jm.queue.length = k → WorkersInv s →
      1 ≤ s.jm.maxConcurrentJobs → onlyName n (s.jm.queue ++ B) = [x] →
      ∃ es s' ls, (∀ e ∈ es, e.isWorker = true) ∧ s.run es = some s' ∧
        s'.started = s.started ++ ls ∧ s'.finished.length ≤ s.finished.length + k ∧
        onlyName n (B ++ ls) = [x] := by
  intro k
  induction k with
  | zero =>
    intro s B hk _ _ hB
    have hq : s.jm.queue = [] := List.length_eq_zero.mp hk
    refine ⟨[], s, [], by simp, rfl, by simp, by simp, ?_⟩
    simpa [hq] using hB
  | succ k ih =>
    intro s B hk hinv hm hB
    cases hq : s.jm.queue with
    | nil => simp [hq] at hk
    | cons next rest =>
      have hrest : rest.length = k := by simpa [hq] using hk
      -- a state with an idle worker and the same queue
      have hidle : ∃ es0 s0, (∀ e ∈ es0, e.isWorker = true) ∧ s.run es0 = some s0 ∧
          s0.jm.queue = s.jm.queue ∧ s0.started = s.started ∧ s0.idle ≠ 0 ∧
          s0.finished.length ≤ s.finished.length + 1 := by
        by_cases h0 : s.idle = 0
        · have haw := hinv.2 hm (by simp [hq])
          have hlen : 0 < s.running.length := by
            have := hinv.1
            rw [h0] at this
            omega
          cases hr : s.running with
          | nil => simp [hr] at hlen
          | cons r rs =>
            refine ⟨[.finish 0],
              { s with
                jm := s.jm.workerRelease r
                idle := s.idle + 1
                running := s.running.eraseIdx 0
                finished := s.finished ++ [r] },
              by simp [Event.isWorker], ?_, ?_, ?_, ?_, ?_⟩
            · simp only [Sys.run, Sys.step, hr, List.getElem?_cons_zero, Option.some_bind]
            · simp only [workerRelease_queue]
            · rfl
            · simp
            · simp
        · exact ⟨[], s, by simp, rfl, rfl, rfl, h0, by omega⟩
      obtain ⟨es0, s0, hw0, hrun0, hq0, hst0, hid0, hf0⟩ := hidle
      have hinv0 := workersInv_run es0 s s0 hinv hrun0
      have hm0 : 1 ≤ s0.jm.maxConcurrentJobs := by
        rw [run_maxConcurrentJobs es0 s s0 hrun0]; exact hm
      -- the idle worker takes the head of the queue
      have hstep : s0.step .workerLoop = some { s0 with
          jm := { s0.jm with queue := rest }, idle := s0.idle - 1,
          running := s0.running ++ [next], started := s0.started ++ [next] } := by
        simp only [Sys.step, hid0, if_false, JobManager.workerHead, hq0, hq]
      have hinv1 := workersInv_step _ _ _ hinv0 hstep
      have hB1 : onlyName n (rest ++ (B ++ [next])) = [x] := by
        apply onlyName_rotate
        rw [hq] at hB
        exact hB
      obtain ⟨es2, s2, ls2, hw2, hrun2, hst2, hf2, hB2⟩ :=
        ih _ (B ++ [next]) hrest hinv1 hm0 hB1
      refine ⟨es0 ++ (.workerLoop :: es2), s2, next :: ls2, ?_, ?_, ?_, ?_, ?_⟩
      · intro e he
        rcases List.mem_append.mp he with h | h
        · exact hw0 e h
        · rcases List.mem_cons.mp h with h | h
          · rw [h]; rfl
          · exact hw2 e h
      · apply run_append es0 _ s s0 s2 hrun0
        simp only [Sys.run, hstep, Option.some_bind]
        exact hrun2
      · rw [hst2]
        simp [hst0]
      · simp only at hf2
        omega
      · simpa using hB2

theorem emptyName_step (s s' : Sys) (e : Event) (hinv : "" ∉ s.jm.names)
    (h : s.step e = some s') : "" ∉ s'.jm.names := by
  cases e with
  | submit name job =>
    simp only [Sys.step, Option.some.injEq] at h
    subst h
    by_cases hdup : name ≠ "" ∧ name ∈ s.jm.names
    · simpa only [Submit_dup _ _ _ hdup] using hinv
    · simp only [Submit_names s.jm name job hdup]
      split
      · rename_i hne
        simp only [Finset.mem_insert, not_or]
        exact ⟨fun hh => hne hh.symm, hinv⟩
      · exact hinv
  | workerLoop =>
    simp only [Sys.step] at h
    split at h
    · simp at h
    · cases hq : s.jm.queue with
      | nil =>
        simp only [JobManager.workerHead, hq, Option.some.injEq] at h
        subst h; exact hinv
      | cons next rest =>
        simp only [JobManager.workerHead, hq, Option.some.injEq] at h
        subst h; exact hinv
  | finish i =>
    simp only [Sys.step] at h
    cases hr : s.running[i]? with
    | none => simp [hr] at h
    | some next =>
      simp only [hr, Option.some.injEq] at h
      subst h
      simp only [workerRelease_names]
      split
      · exact fun hh => hinv (Finset.mem_of_mem_erase hh)
      · exact hinv

theorem emptyName_run (es : List Event) (s s' : Sys) (hinv : "" ∉ s.jm.names)
    (h : s.run es = some s') : "" ∉ s'.jm.names := by
  induction es generalizing s with
  | nil =>
    simp only [Sys.run, Option.some.injEq] at h
    subst h
    exact hinv
  | cons e es ih =>
    simp only [Sys.run] at h
    cases hs : s.step e with
    | none => simp [hs] at h
    | some s1 =>
      simp only [hs, Option.some_bind] at h
      exact ih s1 (emptyName_step s s1 e hinv hs) h

/-- C1. Single flight per name. In every state `s` reachable from the empty
manager, a non-empty name occurs at most once among the queued and running
entries, and `names` is exactly the set of non-empty names occurring there.
Consequently, take any continuation `es'` from `s` in which `Submit` is called
`K ≥ 1` times for a name `n` that is not in flight in `s`, and in which no job
named `n` finishes: exactly one entry named `n` has been accepted, it carries
the job of the first of these calls, and it is either still queued or was
started exactly once; and when the cap is positive the workers alone can go on
to a state in which that job has been started, exactly once. -/
theorem single_flight_per_name (m : Int) (es : List Event) (s : Sys)
    (h : (Sys.init m).run es = some s) :
    (∀ n : String, n ≠ "" → countName n s.inFlight ≤ 1) ∧
    (∀ n : String, n ∈ s.jm.names ↔ n ≠ "" ∧ ∃ j ∈ s.inFlight, j.name = n) ∧
    (∀ (n : String) (K : Nat) (es' : List Event) (s' : Sys),
      n ≠ "" → n ∉ s.jm.names → 1 ≤ K → submitsOf n es' = K → s.run es' = some s' →
      countName n (s'.finished.drop s.finished.length) = 0 →
      ∃ j, firstSubmit n es' = some j ∧
        onlyName n (s'.jm.queue ++ s'.started.drop s.started.length) = [⟨n, j⟩] ∧
        (1 ≤ m → ∃ es'' s'', (∀ e ∈ es'', e.isWorker = true) ∧ s'.run es'' = some s'' ∧
          onlyName n (s''.started.drop s.started.length) = [⟨n, j⟩])) := by
  have hinv := singleFlightInv_run es _ s (singleFlightInv_init m) h
  have hemp := emptyName_run es _ s (by simp [Sys.init]) h
  have hw := workersInv_run es _ s (workersInv_init m) h
  have hmax : s.jm.maxConcurrentJobs = m := by
    rw [run_maxConcurrentJobs es _ s h]; rfl
  refine ⟨fun n hn => (hinv n hn).1, ?_, ?_⟩
  · intro n
    by_cases hn : n = ""
    · subst hn
      simp only [ne_eq, not_true_eq_false, false_and, iff_false]
      exact hemp
    · rw [(hinv n hn).2]
      simp only [countName, List.countP_pos_iff, decide_eq_true_eq, ne_eq, hn, not_false_eq_true,
        true_and]
  · intro n K es' s' hn hnot hK hsub hrun hfin
    obtain ⟨ls, lf, hls, hlf⟩ := run_logs es' s s' hrun
    have hd1 : s'.started.drop s.started.length = ls := by simp [hls]
    have hd2 : s'.finished.drop s.finished.length = lf := by simp [hlf]
    rw [hd2] at hfin
    obtain ⟨j, hj1, hj2⟩ := run_before n es' s s' [] ls lf hn hinv hnot rfl
      (by omega) hrun hls hlf hfin
    refine ⟨j, hj1, ?_, ?_⟩
    · rw [hd1]; simpa using hj2
    · intro hm
      have hw' := workersInv_run es' s s' hw hrun
      have hmax' : 1 ≤ s'.jm.maxConcurrentJobs := by
        rw [run_maxConcurrentJobs es' s s' hrun, hmax]; exact hm
      obtain ⟨es2, s2, ls2, hwk, hrun2, hst2, _, hB⟩ :=
        drain n ⟨n, j⟩ _ s' ls rfl hw' hmax' (by simpa using hj2)
      refine ⟨es2, s2, hwk, hrun2, ?_⟩
      have : s2.started.drop s.started.length = ls ++ ls2 := by
        rw [hst2, hls, List.append_assoc]; simp
      rw [this]
      exact hB

theorem single_flight_per_name_witness :
    jobmanager.run [.submit "obtain:example.com" 7] = some afterOneSubmit ∧
    ((∀ n : String, n ≠ "" → countName n afterOneSubmit.inFlight ≤ 1) ∧
    (∀ n : String, n ∈ afterOneSubmit.jm.names ↔
      n ≠ "" ∧ ∃ j ∈ afterOneSubmit.inFlight, j.name = n) ∧
    (∀ (n : String) (K : Nat) (es' : List Event) (s' : Sys),
      n ≠ "" → n ∉ afterOneSubmit.jm.names → 1 ≤ K → submitsOf n es' = K →
      afterOneSubmit.run es' = some s' →
      countName n (s'.finished.drop afterOneSubmit.finished.length) = 0 →
      ∃ j, firstSubmit n es' = some j ∧
        onlyName n (s'.jm.queue ++ s'.started.drop afterOneSubmit.started.length) = [⟨n, j⟩] ∧
        ((1 : Int) ≤ 1000 → ∃ es'' s'', (∀ e ∈ es'', e.isWorker = true) ∧
          s'.run es'' = some s'' ∧
          onlyName n (s''.started.drop afterOneSubmit.started.length) = [⟨n, j⟩]))) :=
  ⟨by decide, single_flight_per_name 1000 [.submit "obtain:example.com" 7] afterOneSubmit
    (by decide)⟩

/-- C2. Effect of one `Submit(name, job)`. If `name` is non-empty and already in
`names`, the call changes nothing and spawns no worker. In every other case
exactly the entry `(name, job)` is appended at the tail of the queue, a
non-empty name is added to `names`, and for the empty name `names` is left as
it was; in particular a `Submit` with the empty name is never dropped. -/
theorem submit_effect (jm : JobManager) (name : String) (job : Nat) :
    (name ≠ "" ∧ name ∈ jm.names → jm.Submit name job = (jm, false)) ∧
    (¬ (name ≠ "" ∧ name ∈ jm.names) →
      (jm.Submit name job).1.queue = jm.queue ++ [⟨name, job⟩] ∧
      (name ≠ "" → (jm.Submit name job).1.names = insert name jm.names) ∧
      (name = "" → (jm.Submit name job).1.names = jm.names)) ∧
    ((jm.Submit "" job).1.queue = jm.queue ++ [⟨"", job⟩] ∧
      (jm.Submit "" job).1.names = jm.names) ∧
    ("" ∉ jm.names → "" ∉ (jm.Submit name job).1.names) := by
  have hempty : ¬ (("" : String) ≠ "" ∧ "" ∈ jm.names) := fun h => h.1 rfl
  refine ⟨Submit_dup jm name job, ?_, ?_, ?_⟩
  · intro h
    refine ⟨Submit_queue jm name job h, ?_, ?_⟩
    · intro hn
      rw [Submit_names jm name job h, if_pos hn]
    · intro hn
      rw [Submit_names jm name job h, if_neg (by simpa using hn)]
  · refine ⟨Submit_queue jm "" job hempty, ?_⟩
    rw [Submit_names jm "" job hempty, if_neg (by simp)]
  · intro h0
    by_cases hdup : name ≠ "" ∧ name ∈ jm.names
    · rw [Submit_dup jm name job hdup]
      exact h0
    · rw [Submit_names jm name job hdup]
      split
      · rename_i hne
        simp only [Finset.mem_insert, not_or]
        exact ⟨fun hh => hne hh.symm, h0⟩
      · exact h0

theorem submit_effect_witness :
    (("renew:a.example" : String) ≠ "" ∧ "renew:a.example" ∈ busyManager.names) ∧
    busyManager.Submit "renew:a.example" 4 = (busyManager, false) ∧
    ¬ (("obtain:b.example" : String) ≠ "" ∧ "obtain:b.example" ∈ busyManager.names) ∧
    (busyManager.Submit "obtain:b.example" 5).1.queue
      = [⟨"renew:a.example", 3⟩, ⟨"obtain:b.example", 5⟩] ∧
    (busyManager.Submit "obtain:b.example" 5).1.names
      = {"obtain:b.example", "renew:a.example"} :=
  ⟨by decide,
   (submit_effect busyManager "renew:a.example" 4).1 (by decide),
   by decide,
   ((submit_effect busyManager "obtain:b.example" 5).2.1 (by decide)).1,
   ((submit_effect busyManager "obtain:b.example" 5).2.1 (by decide)).2.1 (by decide)⟩

/-! ## Properties of the retry engine -/

theorem retryIntervals_length : retryIntervals.length = 12 := rfl

theorem backoff_isSome (k : Nat) : ∃ w, backoff k = some w := by
  unfold backoff
  split
  · exact ⟨0, rfl⟩
  · have h : min (k - 1) 11 < retryIntervals.length := by
      rw [retryIntervals_length]; omega
    exact ⟨retryIntervals[min (k - 1) 11], List.getElem?_eq_getElem h⟩

theorem wait_eq_backoff (k : Nat) :
    (if 0 ≤ idxAt k then retryIntervalAt (idxAt k) else some 0) = backoff k := by
  unfold idxAt backoff retryIntervalAt
  by_cases hk : k = 0
  · simp [hk]
  · simp only [hk, if_false]
    have : (0 : Int) ≤ ((min (k - 1) 11 : Nat) : Int) := Int.ofNat_nonneg _
    simp only [this, if_true, Int.toNat_ofNat]

theorem idxAt_next (k : Nat) :
    (if idxAt k < (retryIntervals.length : Int) - 1 then idxAt k + 1 else idxAt k)
      = idxAt (k + 1) := by
  unfold idxAt
  rw [retryIntervals_length]
  by_cases hk : k = 0
  · simp [hk]
  · simp only [hk, if_false, Nat.add_eq_zero, one_ne_zero, and_false, Nat.add_sub_cancel]
    split <;> omega

theorem retryIntervalAt_idxAt_succ (k : Nat) :
    retryIntervalAt (idxAt (k + 1)) = backoff (k + 1) := by
  have := wait_eq_backoff (k + 1)
  have h0 : (0 : Int) ≤ idxAt (k + 1) := by
    unfold idxAt
    simp only [Nat.add_eq_zero, one_ne_zero, and_false, if_false]
    exact Int.ofNat_nonneg _
  simpa only [h0, if_true] using this

/-- One iteration of the loop, with the clamped index and the wait of the
schedule substituted. -/
theorem retryLoop_succ (env : RetryEnv) (fuel k : Nat) (err : Option GoError)
    (waits : List Int) (w w' : Int) (hw : backoff k = some w) (hw' : backoff (k + 1) = some w') :
    retryLoop env (fuel + 1) k (idxAt k) err waits =
      if env.sinceHead k < maxRetryDuration then
        if env.ctxDone k then ⟨.returned (some .canceled), k, waits ++ [w]⟩
        else
          match env.f k with
          | none => ⟨.returned none, k + 1, waits ++ [w]⟩
          | some e =>
            if e.isCanceled then ⟨.returned (some e), k + 1, waits ++ [w]⟩
            else if e.asNoRetry then ⟨.returned (some e), k + 1, waits ++ [w]⟩
            else if env.sinceTail k < maxRetryDuration then
              retryLoop env fuel (k + 1) (idxAt (k + 1)) (some e) (waits ++ [w])
            else ⟨.returned none, k + 1, waits ++ [w]⟩
      else ⟨.returned err, k, waits⟩ := by
  rw [retryLoop]
  simp only [wait_eq_backoff, hw, idxAt_next, retryIntervalAt_idxAt_succ, hw']

theorem waits_snoc (k : Nat) (waits : List Int) (w : Int) (hlen : waits.length = k)
    (h : ∀ i, i < k → waits[i]? = backoff i) (hw : backoff k = some w) :
    ∀ i, i < (waits ++ [w]).length → (waits ++ [w])[i]? = backoff i := by
  intro i hi
  simp only [List.length_append, List.length_singleton, hlen] at hi
  rcases Nat.lt_or_ge i k with hlt | hge
  · rw [List.getElem?_append_left (by omega)]
    exact h i hlt
  · have : i = k := by omega
    subst this
    rw [List.getElem?_append_right (by omega), hlen, hw]
    simp

theorem retryLoop_schedule (env : RetryEnv) :
    ∀ (fuel k : Nat) (err : Option GoError) (waits : List Int), waits.length = k →
      (∀ i, i < k → waits[i]? = backoff i) →
      (retryLoop env fuel k (idxAt k) err waits).outcome ≠ .indexPanic ∧
      (∀ i, i < (retryLoop env fuel k (idxAt k) err waits).waits.length →
        (retryLoop env fuel k (idxAt k) err waits).waits[i]? = backoff i) ∧
      (retryLoop env fuel k (idxAt k) err waits).attempts
        ≤ (retryLoop env fuel k (idxAt k) err waits).waits.length ∧
      (retryLoop env fuel k (idxAt k) err waits).waits.length
        ≤ (retryLoop env fuel k (idxAt k) err waits).attempts + 1 := by
  intro fuel
  induction fuel with
  | zero =>
    intro k err waits hlen h
    simp only [retryLoop]
    refine ⟨by simp, ?_, by omega, by omega⟩
    intro i hi
    exact h i (by omega)
  | succ fuel ih =>
    intro k err waits hlen h
    obtain ⟨w, hw⟩ := backoff_isSome k
    obtain ⟨w', hw'⟩ := backoff_isSome (k + 1)
    have hs := waits_snoc k waits w hlen h hw
    have hl : (waits ++ [w]).length = k + 1 := by simp [hlen]
    rw [retryLoop_succ env fuel k err waits w w' hw hw']
    split
    · split
      · exact ⟨by simp, hs, by simp [hlen], by simp [hlen]⟩
      · split
        · exact ⟨by simp, hs, by simp [hlen], by simp [hlen]⟩
        · split
          · exact ⟨by simp, hs, by simp [hlen], by simp [hlen]⟩
          · split
            · exact ⟨by simp, hs, by simp [hlen], by simp [hlen]⟩
            · split
              · exact ih (k + 1) _ (waits ++ [w]) hl (fun i hi => hs i (by omega))
              · exact ⟨by simp, hs, by simp [hlen], by simp [hlen]⟩
    · exact ⟨by simp, fun i hi => h i (by simpa [hlen] using hi), by simp [hlen], by simp [hlen]⟩

/-- Iterations that ask for a retry are passed through one by one. -/
theorem retryLoop_skip (env : RetryEnv) :
    ∀ (j k fuel : Nat) (err : Option GoError) (waits : List Int),
      (∀ i, k ≤ i → i < k + j → Retried env i) →
      ∃ err' waits', retryLoop env (j + fuel) k (idxAt k) err waits
        = retryLoop env fuel (k + j) (idxAt (k + j)) err' waits' := by
  intro j
  induction j with
  | zero =>
    intro k fuel err waits _
    exact ⟨err, waits, by simp⟩
  | succ j ih =>
    intro k fuel err waits h
    obtain ⟨w, hw⟩ := backoff_isSome k
    obtain ⟨w', hw'⟩ := backoff_isSome (k + 1)
    obtain ⟨h1, h2, ⟨e, h3, h4, h5⟩, h6⟩ := h k (le_refl k) (by omega)
    have hfuel : j + 1 + fuel = (j + fuel) + 1 := by omega
    rw [hfuel, retryLoop_succ env (j + fuel) k err waits w w' hw hw']
    simp only [h1, h2, h3, h4, h5, h6, if_true, if_false, Bool.false_eq_true]
    obtain ⟨err', waits', hh⟩ := ih (k + 1) fuel (some e) (waits ++ [w])
      (fun i hi1 hi2 => h i (by omega) (by omega))
    refine ⟨err', waits', ?_⟩
    rw [hh]
    have : k + 1 + j = k + (j + 1) := by omega
    rw [this]

/-- C3. `doWithRetry` stops without another call of `f`. Suppose the first `k`
iterations were retried (their calls of `f` failed with errors that are not and
do not wrap `context.Canceled` or `ErrNoRetry`, the context was not done and
the clock stayed below `maxRetryDuration`) and iteration `k` is entered. If
call number `k + 1` of `f` returns `nil`, the result is `nil`; if it returns an
error that is or wraps `ErrNoRetry` or `context.Canceled`, the result is
exactly that error; in both cases `f` has been called exactly `k + 1` times. If
instead the context is done while the timer of iteration `k` is pending, the
result is `context.Canceled` and `f` has been called exactly `k` times. -/
theorem doWithRetry_stops (env : RetryEnv) (k extra : Nat)
    (hret : ∀ i, i < k → Retried env i) (hhead : env.sinceHead k < maxRetryDuration) :
    (env.ctxDone k = false → env.f k = none →
      (doWithRetry env (k + 1 + extra)).outcome = .returned none ∧
      (doWithRetry env (k + 1 + extra)).attempts = k + 1) ∧
    (∀ e, env.ctxDone k = false → env.f k = some e →
      e.asNoRetry = true ∨ e.isCanceled = true →
      (doWithRetry env (k + 1 + extra)).outcome = .returned (some e) ∧
      (doWithRetry env (k + 1 + extra)).attempts = k + 1) ∧
    (env.ctxDone k = true →
      (doWithRetry env (k + 1 + extra)).outcome = .returned (some .canceled) ∧
      (doWithRetry env (k + 1 + extra)).attempts = k) := by
  obtain ⟨err', waits', hskip⟩ := retryLoop_skip env k 0 (extra + 1) none []
    (fun i _ hi => hret i (by omega))
  have hfuel : k + 1 + extra = k + (extra + 1) := by omega
  have hidx : idxAt 0 = -1 := rfl
  obtain ⟨w, hw⟩ := backoff_isSome k
  obtain ⟨w', hw'⟩ := backoff_isSome (k + 1)
  have hrun : doWithRetry env (k + 1 + extra)
      = retryLoop env (extra + 1) k (idxAt k) err' waits' := by
    rw [doWithRetry, hfuel, ← hidx, hskip, Nat.zero_add]
  rw [hrun, retryLoop_succ env extra k err' waits' w w' hw hw']
  refine ⟨?_, ?_, ?_⟩
  · intro hc hf
    simp only [hhead, hc, hf, if_true, if_false, Bool.false_eq_true, and_self]
  · intro e hc hf he
    simp only [hhead, hc, hf, if_true, if_false, Bool.false_eq_true]
    rcases he with he | he
    · by_cases hcan : e.isCanceled = true
      · simp only [hcan, if_true, and_self]
      · simp only [hcan, he, if_true, if_false, Bool.false_eq_true, and_self]
    · simp only [he, if_true, and_self]
  · intro hc
    simp only [hhead, hc, if_true, and_self]

theorem doWithRetry_stops_witness :
    (∀ i, i < 1 → Retried failsOnce i) ∧ failsOnce.sinceHead 1 < maxRetryDuration ∧
    failsOnce.ctxDone 1 = false ∧ failsOnce.f 1 = none ∧
    (doWithRetry failsOnce 2).outcome = .returned none ∧
    (doWithRetry failsOnce 2).attempts = 2 :=
  have h1 : ∀ i, i < 1 → Retried failsOnce i := by
    intro i hi
    have : i = 0 := by omega
    subst this
    exact ⟨by decide, rfl, ⟨.plain "connection reset", rfl, rfl, rfl⟩, by decide⟩
  have h2 : failsOnce.sinceHead 1 < maxRetryDuration := by decide
  ⟨h1, h2, rfl, rfl, (doWithRetry_stops failsOnce 1 0 h1 h2).1 rfl rfl⟩

/-- The loop only ever adds to the calls made and the timers created. -/
theorem retryLoop_mono (env : RetryEnv) :
    ∀ (fuel k : Nat) (err : Option GoError) (waits : List Int),
      k ≤ (retryLoop env fuel k (idxAt k) err waits).attempts ∧
      waits.length ≤ (retryLoop env fuel k (idxAt k) err waits).waits.length := by
  intro fuel
  induction fuel with
  | zero =>
    intro k err waits
    simp only [retryLoop]
    exact ⟨le_refl _, le_refl _⟩
  | succ fuel ih =>
    intro k err waits
    obtain ⟨w, hw⟩ := backoff_isSome k
    obtain ⟨w', hw'⟩ := backoff_isSome (k + 1)
    rw [retryLoop_succ env fuel k err waits w w' hw hw']
    split
    · split
      · exact ⟨le_refl _, by simp⟩
      · split
        · exact ⟨by simp, by simp⟩
        · split
          · exact ⟨by simp, by simp⟩
          · split
            · exact ⟨by simp, by simp⟩
            · split
              · exact ⟨le_trans (Nat.le_succ k) (ih (k + 1) _ _).1,
                  le_trans (by simp) (ih (k + 1) _ (waits ++ [w])).2⟩
              · exact ⟨by simp, by simp⟩
    · exact ⟨le_refl _, le_refl _⟩

/-- Iterations that ask for a retry are passed through one by one, each adding
one timer. -/
theorem retryLoop_skip_len (env : RetryEnv) :
    ∀ (j k fuel : Nat) (err : Option GoError) (waits : List Int),
      (∀ i, k ≤ i → i < k + j → Retried env i) →
      ∃ err' waits', retryLoop env (j + fuel) k (idxAt k) err waits
        = retryLoop env fuel (k + j) (idxAt (k + j)) err' waits' ∧
        waits'.length = waits.length + j := by
  intro j
  induction j with
  | zero =>
    intro k fuel err waits _
    exact ⟨err, waits, by simp, rfl⟩
  | succ j ih =>
    intro k fuel err waits h
    obtain ⟨w, hw⟩ := backoff_isSome k
    obtain ⟨w', hw'⟩ := backoff_isSome (k + 1)
    obtain ⟨h1, h2, ⟨e, h3, h4, h5⟩, h6⟩ := h k (le_refl k) (by omega)
    have hfuel : j + 1 + fuel = (j + fuel) + 1 := by omega
    rw [hfuel, retryLoop_succ env (j + fuel) k err waits w w' hw hw']
    simp only [h1, h2, h3, h4, h5, h6, if_true, if_false, Bool.false_eq_true]
    obtain ⟨err', waits', hh, hlen⟩ := ih (k + 1) fuel (some e) (waits ++ [w])
      (fun i hi1 hi2 => h i (by omega) (by omega))
    refine ⟨err', waits', ?_, ?_⟩
    · rw [hh]
      have : k + 1 + j = k + (j + 1) := by omega
      rw [this]
    · rw [hlen]
      simp only [List.length_append, List.length_singleton]
      omega

/-- An iteration that passes the loop condition creates its timer, and calls
`f` unless the context is done. -/
theorem retryLoop_enters (env : RetryEnv) (fuel k : Nat) (err : Option GoError)
    (waits : List Int) (hhead : env.sinceHead k < maxRetryDuration) :
    waits.length + 1 ≤ (retryLoop env (fuel + 1) k (idxAt k) err waits).waits.length ∧
    (env.ctxDone k = false →
      k + 1 ≤ (retryLoop env (fuel + 1) k (idxAt k) err waits).attempts) := by
  obtain ⟨w, hw⟩ := backoff_isSome k
  obtain ⟨w', hw'⟩ := backoff_isSome (k + 1)
  rw [retryLoop_succ env fuel k err waits w w' hw hw']
  simp only [hhead, if_true]
  split
  · rename_i hc
    exact ⟨by simp, fun h => by rw [h] at hc; cases hc⟩
  · split
    · exact ⟨by simp, fun _ => by simp⟩
    · split
      · exact ⟨by simp, fun _ => by simp⟩
      · split
        · exact ⟨by simp, fun _ => by simp⟩
        · split
          · exact ⟨le_trans (by simp) (retryLoop_mono env fuel (k + 1) _ (waits ++ [w])).2,
              fun _ => (retryLoop_mono env fuel (k + 1) _ _).1⟩
          · exact ⟨by simp, fun _ => by simp⟩

/-- C5. The backoff schedule of `doWithRetry`. No index expression panics. The
timer created before call number `k` of `f` (counted from 1) has duration 0 for
`k = 1` and `retryIntervals[min(k-2, 11)]` for `k ≥ 2`, every call is preceded
by its own timer, `retryIntervals` is the list of twelve durations from one
minute to six hours, and from call number 13 on the wait is the last of them,
six hours. The timers and the calls do take place: when the first `k - 1`
iterations were retried and the loop condition holds once more, the loop, given
at least `k` iterations, creates timer number `k` with the duration above, and
if the context is not done while that timer is pending, call number `k` of `f`
is made. -/
theorem backoff_schedule (env : RetryEnv) (fuel : Nat) :
    (doWithRetry env fuel).outcome ≠ .indexPanic ∧
    (∀ k, 1 ≤ k → k ≤ (doWithRetry env fuel).waits.length →
      (doWithRetry env fuel).waits[k - 1]? =
        if k = 1 then some 0 else retryIntervals[min (k - 2) 11]?) ∧
    (doWithRetry env fuel).attempts ≤ (doWithRetry env fuel).waits.length ∧
    (doWithRetry env fuel).waits.length ≤ (doWithRetry env fuel).attempts + 1 ∧
    retryIntervals = [60000000000, 120000000000, 120000000000, 300000000000, 600000000000,
      1200000000000, 1200000000000, 1800000000000, 1800000000000, 3600000000000,
      10800000000000, 21600000000000] ∧
    (∀ k, k < 12 → ∃ w, retryIntervals[k]? = some w) ∧
    (∀ k, 13 ≤ k → retryIntervals[min (k - 2) 11]? = some (6 * hour)) ∧
    (∀ k, 1 ≤ k → k ≤ fuel → (∀ i, i < k - 1 → Retried env i) →
      env.sinceHead (k - 1) < maxRetryDuration →
      (∃ w, (doWithRetry env fuel).waits[k - 1]? = some w ∧
        (if k = 1 then some 0 else retryIntervals[min (k - 2) 11]?) = some w) ∧
      (env.ctxDone (k - 1) = false → k ≤ (doWithRetry env fuel).attempts)) := by
  have h := retryLoop_schedule env fuel 0 none [] rfl (fun i hi => by omega)
  have hidx : idxAt 0 = -1 := rfl
  rw [hidx] at h
  obtain ⟨h1, h2, h3, h4⟩ := h
  have hsched : ∀ k, 1 ≤ k → k ≤ (doWithRetry env fuel).waits.length →
      (doWithRetry env fuel).waits[k - 1]? =
        if k = 1 then some 0 else retryIntervals[min (k - 2) 11]? := by
    intro k hk1 hk2
    have hk3 : k ≤ (retryLoop env fuel 0 (-1) none []).waits.length := hk2
    have := h2 (k - 1) (by omega)
    unfold doWithRetry
    rw [this]
    unfold backoff
    by_cases hk : k = 1
    · simp [hk]
    · have h0 : k - 1 ≠ 0 := by omega
      have hsub : k - 1 - 1 = k - 2 := by omega
      simp only [h0, hk, if_false, hsub]
  refine ⟨h1, hsched, h3, h4, by decide, ?_, ?_, ?_⟩
  · intro k hk
    have hlt : k < retryIntervals.length := by rw [retryIntervals_length]; exact hk
    exact ⟨retryIntervals[k], List.getElem?_eq_getElem hlt⟩
  · intro k hk
    have : min (k - 2) 11 = 11 := by omega
    rw [this]
    decide
  · intro k hk1 hkf hret hhead
    obtain ⟨err', waits', hskip, hlen⟩ := retryLoop_skip_len env (k - 1) 0 (fuel - k + 1) none []
      (fun i _ hi => hret i (by omega))
    have hfuel : fuel = k - 1 + (fuel - k + 1) := by omega
    have hrun : doWithRetry env fuel
        = retryLoop env (fuel - k + 1) (k - 1) (idxAt (k - 1)) err' waits' := by
      rw [doWithRetry, ← hidx]
      nth_rewrite 1 [hfuel]
      rw [hskip, Nat.zero_add]
    obtain ⟨e1, e2⟩ := retryLoop_enters env (fuel - k) (k - 1) err' waits' hhead
    rw [← hrun] at e1 e2
    simp only [hlen, List.length_nil, Nat.zero_add] at e1
    have hk2 : k ≤ (doWithRetry env fuel).waits.length := by omega
    have hlt : k - 1 < (doWithRetry env fuel).waits.length := by omega
    refine ⟨⟨(doWithRetry env fuel).waits[k - 1], List.getElem?_eq_getElem hlt, ?_⟩, ?_⟩
    · rw [← hsched k hk1 hk2]
      exact List.getElem?_eq_getElem hlt
    · intro hc
      have := e2 hc
      omega

set_option maxRecDepth 200000 in
theorem backoff_schedule_witness :
    (∀ i, i < 14 - 1 → Retried steadyFailure i) ∧
    steadyFailure.sinceHead (14 - 1) < maxRetryDuration ∧
    steadyFailure.ctxDone (14 - 1) = false ∧
    ((∃ w, (doWithRetry steadyFailure 14).waits[14 - 1]? = some w ∧
        (if 14 = 1 then some 0 else retryIntervals[min (14 - 2) 11]?) = some w) ∧
      (steadyFailure.ctxDone (14 - 1) = false → 14 ≤ (doWithRetry steadyFailure 14).attempts)) ∧
    doWithRetry steadyFailure 14 = ⟨.pending, 14,
      [0, 60000000000, 120000000000, 120000000000, 300000000000, 600000000000,
       1200000000000, 1200000000000, 1800000000000, 1800000000000, 3600000000000,
       10800000000000, 21600000000000, 21600000000000]⟩ ∧
    doWithRetry failsOnce 14 = ⟨.returned none, 2, [0, 60000000000]⟩ :=
  have h1 : ∀ i, i < 14 - 1 → Retried steadyFailure i := by
    intro i hi
    refine ⟨?_, rfl, ⟨.plain "no route to host", rfl, rfl, rfl⟩, ?_⟩
    · have hi2 : i < 13 := hi
      interval_cases i <;> decide
    · have hi2 : i < 13 := hi
      interval_cases i <;> decide
  have h2 : steadyFailure.sinceHead (14 - 1) < maxRetryDuration := by decide
  ⟨h1, h2, rfl,
    (backoff_schedule steadyFailure 14).2.2.2.2.2.2.2 14 (by decide) (by decide) h1 h2,
    by decide, by decide⟩

set_option maxRecDepth 200000 in
/-- C4, evaluated on the code. Every call of `f` fails with the
ordinary error `no route to host`, the context is never cancelled, and the
clock advances by the backoff waits alone. After call number 131 thirty days
have elapsed, and `doWithRetry` returns `nil` although that last call, like all
before it, returned a non-`nil` error. The same happens when a single failing
call outlasts the thirty days. -/
theorem doWithRetry_gives_up_with_nil :
    (∀ k, steadyFailure.f k = some (.plain "no route to host")) ∧
    steadyFailure.sinceHead 130 < maxRetryDuration ∧
    maxRetryDuration ≤ steadyFailure.sinceTail 130 ∧
    (doWithRetry steadyFailure 200).outcome = .returned none ∧
    (doWithRetry steadyFailure 200).attempts = 131 ∧
    slowFailure.f 0 = some (.plain "timeout") ∧
    doWithRetry slowFailure 2 = ⟨.returned none, 1, [0]⟩ := by
  refine ⟨fun _ => rfl, by decide, by decide, ?_, ?_, rfl, by decide⟩
  · decide
  · decide

/-! ## Properties of challenge selection -/

/-- C6. `nextChallenge` pops exactly one challenge. For a non-empty list and any
index `i` in range drawn by the random source it returns `available[i]` and the
list with position `i` deleted, the other elements in their original order; the
remainder is one shorter and, together with the chosen challenge, a
rearrangement of the input. For the empty list it returns `("", [])` and the
client, with its challenge providers, is unchanged. -/
theorem nextChallenge_pops_one (g : Globals) (client : AcmeClient)
    (available : List ChallengeType) (i : Nat) (hi : i < available.length) :
    (∃ client', client.nextChallenge g available i
        = some ((available[i], available.eraseIdx i), client') ∧
      client'.caURL = client.caURL ∧ client'.mgr = client.mgr) ∧
    (available.eraseIdx i).length = available.length - 1 ∧
    (available[i] :: available.eraseIdx i).Perm available ∧
    (available.eraseIdx i).Sublist available ∧
    (∀ r, client.nextChallenge g [] r = some (("", []), client)) := by
  have hne : available.length ≠ 0 := by omega
  have hget : available[i]? = some available[i] := List.getElem?_eq_getElem hi
  have herase : available.take i ++ available.drop (i + 1) = available.eraseIdx i :=
    (List.eraseIdx_eq_take_drop_succ available i).symm
  refine ⟨?_, List.length_eraseIdx_of_lt hi, ?_, List.eraseIdx_sublist available i, ?_⟩
  · simp only [AcmeClient.nextChallenge, hne, if_false, hget, herase]
    exact ⟨_, rfl, rfl, rfl⟩
  · exact (perm_cons_eraseIdx available i available[i] hget).symm
  · intro r
    simp [AcmeClient.nextChallenge]

theorem nextChallenge_pops_one_witness :
    1 < [HTTP01, TLSALPN01].length ∧
    (∃ client', plainClient.nextChallenge plainGlobals [HTTP01, TLSALPN01] 1
        = some ((TLSALPN01, [HTTP01]), client') ∧
      client'.caURL = plainClient.caURL ∧ client'.mgr = plainClient.mgr) :=
  ⟨by decide, (nextChallenge_pops_one plainGlobals plainClient [HTTP01, TLSALPN01] 1
    (by decide)).1⟩

/-- C7. `initialChallenges` returns exactly `[DNS-01]` whenever a DNS provider is
configured, whatever the two disable flags say; otherwise it returns the
sub-list of `[HTTP-01, TLS-ALPN-01]` that contains HTTP-01 iff
`DisableHTTPChallenge` is false and TLS-ALPN-01 iff `DisableTLSALPNChallenge`
is false. The result has no duplicate and never holds DNS-01 next to another
challenge. -/
theorem initialChallenges_spec (client : AcmeClient) :
    (client.mgr.DNSProvider ≠ none → client.initialChallenges = [DNS01]) ∧
    (client.mgr.DNSProvider = none →
      client.initialChallenges.Sublist [HTTP01, TLSALPN01] ∧
      (HTTP01 ∈ client.initialChallenges ↔ client.mgr.DisableHTTPChallenge = false) ∧
      (TLSALPN01 ∈ client.initialChallenges ↔ client.mgr.DisableTLSALPNChallenge = false) ∧
      (client.mgr.DisableHTTPChallenge = true → client.mgr.DisableTLSALPNChallenge = true →
        client.initialChallenges = [])) ∧
    client.initialChallenges.Nodup ∧
    (DNS01 ∈ client.initialChallenges → client.initialChallenges = [DNS01]) := by
  unfold AcmeClient.initialChallenges
  cases hd : client.mgr.DNSProvider <;>
    cases hh : client.mgr.DisableHTTPChallenge <;>
      cases ht : client.mgr.DisableTLSALPNChallenge <;>
        simp [HTTP01, TLSALPN01, DNS01]

/-! ## Properties of the solver table -/

/-- The record that `getSolverInfo` hands out for `b`. -/
theorem getSolverInfo_snd (w : SolverWorld) (b : String) :
    (w.getSolverInfo b).2 = (w.solvers b).getD ⟨0, 0, none, false⟩ := by
  unfold SolverWorld.getSolverInfo
  cases h : w.solvers b <;> simp

theorem getSolverInfo_fst (w : SolverWorld) (b : String) :
    (w.getSolverInfo b).1.solvers = Function.update w.solvers b (some (w.getSolverInfo b).2) ∧
    (w.getSolverInfo b).1.opened = w.opened ∧
    (w.getSolverInfo b).1.closedListeners = w.closedListeners ∧
    (w.getSolverInfo b).1.nextListener = w.nextListener := by
  unfold SolverWorld.getSolverInfo
  cases h : w.solvers b with
  | none => simp
  | some si =>
    simp only [and_self, and_true]
    rw [← h, Function.update_eq_self]

/-- What `presentAt` does to the table, the listeners bound and the listeners
closed. -/
theorem presentAt_effect (w : SolverWorld) (b : String) (tls : Bool)
    (net : Nat → ListenAttempt) :
    ∃ si', (w.presentAt b tls net).1.solvers = Function.update w.solvers b (some si') ∧
      si'.count = (w.getSolverInfo b).2.count + 1 ∧
      (w.presentAt b tls net).1.closedListeners = w.closedListeners ∧
      (((w.presentAt b tls net).1.opened = w.opened ∧
          si'.listener = (w.getSolverInfo b).2.listener) ∨
        ((w.getSolverInfo b).2.listener = none ∧
          ∃ ln, si'.listener = some ln ∧ (w.presentAt b tls net).1.opened = (ln, b) :: w.opened)) := by
  obtain ⟨h1, h2, h3, h4⟩ := getSolverInfo_fst w b
  unfold SolverWorld.presentAt
  simp only
  split
  · refine ⟨{ (w.getSolverInfo b).2 with count := (w.getSolverInfo b).2.count + 1 },
      ?_, rfl, h3, Or.inl ⟨h2, rfl⟩⟩
    simp only [h1, Function.update_idem]
  · rename_i hl
    simp only [ne_eq, not_not] at hl
    split
    · refine ⟨{ (w.getSolverInfo b).2 with count := (w.getSolverInfo b).2.count + 1 },
        ?_, rfl, h3, Or.inl ⟨h2, rfl⟩⟩
      simp only [h1, Function.update_idem]
    · refine ⟨{ (w.getSolverInfo b).2 with count := (w.getSolverInfo b).2.count + 1 },
        ?_, rfl, h3, Or.inl ⟨h2, rfl⟩⟩
      simp only [h1, Function.update_idem]
    · refine ⟨{ (w.getSolverInfo b).2 with
          count := (w.getSolverInfo b).2.count + 1
          listener := some w.nextListener },
        ?_, rfl, h3, Or.inr ⟨hl, w.nextListener, rfl, ?_⟩⟩
      · simp only [h1, h4, Function.update_idem]
      · simp only [h2, h4]

/-- `cleanUpAt` in terms of the record that `getSolverInfo` hands out. -/
theorem cleanUpAt_eq (w : SolverWorld) (b : String) (f : Bool) :
    w.cleanUpAt b f =
      if (w.getSolverInfo b).2.count - 1 = 0 then
        match (w.getSolverInfo b).2.listener with
        | some ln =>
          if ln ∈ w.acceptLoops ∧ ((w.getSolverInfo b).2.lastOut f).closed ≠ 1 then
            ({ w with
                solvers := Function.update w.solvers b (some ((w.getSolverInfo b).2.lastOut f))
                closedListeners := ln :: w.closedListeners }, false)
          else
            ({ w with
                solvers := Function.update w.solvers b none
                closedListeners := ln :: w.closedListeners }, true)
        | none => ({ w with solvers := Function.update w.solvers b none }, true)
      else
        ({ w with
            solvers := Function.update w.solvers b
              (some { (w.getSolverInfo b).2 with count := (w.getSolverInfo b).2.count - 1 }) },
          true) := by
  unfold SolverWorld.cleanUpAt SolverWorld.getSolverInfo SolverInfo.lastOut
  cases h : w.solvers b with
  | none =>
    simp only [Function.update_idem]
    split
    · rename_i h0
      simp at h0
    · rfl
  | some si =>
    simp only [Function.update_idem]
    split
    · cases hl : si.listener with
      | none => cases f <;> simp [hl]
      | some ln =>
        cases f <;> simp only [hl, if_true, if_false, Bool.false_eq_true]
    · rfl

/-- What `cleanUpAt` does to the table, the listeners bound and the listeners
closed. -/
theorem cleanUpAt_effect (w : SolverWorld) (b : String) (f : Bool) :
    (w.cleanUpAt b f).1.opened = w.opened ∧
    ((w.getSolverInfo b).2.count - 1 = 0 →
      ((w.cleanUpAt b f).2 = true →
        (w.cleanUpAt b f).1.solvers = Function.update w.solvers b none) ∧
      (∀ ln, (w.getSolverInfo b).2.listener = some ln →
        (w.cleanUpAt b f).1.closedListeners = ln :: w.closedListeners) ∧
      ((w.getSolverInfo b).2.listener = none →
        (w.cleanUpAt b f).1.closedListeners = w.closedListeners)) ∧
    ((w.getSolverInfo b).2.count - 1 ≠ 0 →
      (w.cleanUpAt b f).1.solvers = Function.update w.solvers b
        (some { (w.getSolverInfo b).2 with count := (w.getSolverInfo b).2.count - 1 }) ∧
      (w.cleanUpAt b f).1.closedListeners = w.closedListeners ∧
      (w.cleanUpAt b f).2 = true) := by
  rw [cleanUpAt_eq]
  refine ⟨?_, ?_, ?_⟩
  · split
    · split
      · split <;> rfl
      · rfl
    · rfl
  · intro h0
    simp only [h0, if_true]
    refine ⟨?_, ?_, ?_⟩
    · intro hret
      split at hret
      · split at hret
        · cases hret
        · rename_i hl hh
          simp only [hl, hh, if_false]
      · rename_i hl
        simp only [hl]
    · intro ln hln
      simp only [hln]
      split <;> rfl
    · intro hln
      simp only [hln]
  · intro h0
    simp [h0]

/-- When `cleanUpAt` does not return: the count reaches zero, the record has a
listener that is served by an accept loop, and the flag `closed` of the record
is not set, which is the case for the `CleanUp` of an HTTP solver. The record
then stays in the table, with count 0 and its listener. -/
theorem cleanUpAt_never (w : SolverWorld) (b : String) (f : Bool) :
    ((w.cleanUpAt b f).2 = false ↔
      (w.getSolverInfo b).2.count - 1 = 0 ∧
      ∃ ln, (w.getSolverInfo b).2.listener = some ln ∧ ln ∈ w.acceptLoops ∧
        f = false ∧ (w.getSolverInfo b).2.closed ≠ 1) ∧
    ((w.cleanUpAt b f).2 = false →
      (w.cleanUpAt b f).1.solvers b
        = some { (w.getSolverInfo b).2 with count := (w.getSolverInfo b).2.count - 1 }) := by
  rw [cleanUpAt_eq]
  by_cases h0 : (w.getSolverInfo b).2.count - 1 = 0
  · simp only [h0, if_true, true_and]
    cases hl : (w.getSolverInfo b).2.listener with
    | none => simp
    | some ln =>
      simp only [Option.some.injEq, exists_eq_left']
      cases f with
      | true => simp [SolverInfo.lastOut]
      | false =>
        simp only [SolverInfo.lastOut, Bool.false_eq_true, if_false, ne_eq, true_and]
        by_cases hh : ln ∈ w.acceptLoops ∧ ¬ (w.getSolverInfo b).2.closed = 1
        · simp only [hh, not_false_eq_true, and_self, if_true, Function.update_same, true_and]
          intro _
          rw [hl, h0]
        · simp only [hh, if_false, Bool.true_eq_false, false_iff, not_false_eq_true,
            false_implies, and_true]
  · simp [h0]

/-- The `CleanUp` of a TLS-ALPN solver always returns. -/
theorem cleanUpAt_closed_returns (w : SolverWorld) (b : String) :
    (w.cleanUpAt b true).2 = true := by
  cases h : (w.cleanUpAt b true).2 with
  | true => rfl
  | false =>
    have := ((cleanUpAt_never w b true).1.mp h).2
    obtain ⟨_, _, _, hf, _⟩ := this
    cases hf

theorem inv_presentAt_same (a : String) (d : Nat) (w : SolverWorld) (tls : Bool)
    (net : Nat → ListenAttempt) (hinv : SolverInv a d w) : SolverInv a (d + 1) (w.presentAt a tls net).1 := by
  obtain ⟨i1, i2, i3⟩ := hinv
  obtain ⟨si', e1, e2, e3, e4⟩ := presentAt_effect w a tls net
  have hcur := getSolverInfo_snd w a
  refine ⟨by omega, ?_, ?_⟩
  · intro _
    refine ⟨si', by rw [e1, Function.update_same], ?_⟩
    rw [e2, hcur]
    rcases Nat.eq_zero_or_pos d with h0 | hpos
    · rw [i1 h0, h0]; simp
    · obtain ⟨si, hs, hc⟩ := i2 hpos
      rw [hs]; simp [hc]
  · intro h hh
    rw [e3]
    rcases e4 with ⟨eo, el⟩ | ⟨hnone, ln, el, eo⟩
    · rw [eo] at hh
      rcases i3 h hh with hc | ⟨si, hs, hl⟩
      · exact Or.inl hc
      · right
        refine ⟨si', by rw [e1, Function.update_same], ?_⟩
        rw [el, hcur, hs]
        exact hl
    · rw [eo] at hh
      rcases List.mem_cons.mp hh with hh | hh
      · right
        refine ⟨si', by rw [e1, Function.update_same], ?_⟩
        rw [el]
        congr 1
        exact (Prod.mk.inj hh).1.symm
      · rcases i3 h hh with hc | ⟨si, hs, hl⟩
        · exact Or.inl hc
        · rw [hcur, hs] at hnone
          simp only [Option.getD_some] at hnone
          rw [hnone] at hl
          cases hl

theorem inv_presentAt_other (a b : String) (d : Nat) (w : SolverWorld) (tls : Bool)
    (net : Nat → ListenAttempt) (hab : b ≠ a) (hinv : SolverInv a d w) :
    SolverInv a d (w.presentAt b tls net).1 := by
  obtain ⟨i1, i2, i3⟩ := hinv
  obtain ⟨si', e1, _, e3, e4⟩ := presentAt_effect w b tls net
  have hs : (w.presentAt b tls net).1.solvers a = w.solvers a := by
    rw [e1, Function.update_noteq (Ne.symm hab)]
  refine ⟨fun h => by rw [hs]; exact i1 h, fun h => by rw [hs]; exact i2 h, ?_⟩
  intro h hh
  rw [hs, e3]
  apply i3
  rcases e4 with ⟨eo, _⟩ | ⟨_, ln, _, eo⟩
  · rw [eo] at hh; exact hh
  · rw [eo] at hh
    rcases List.mem_cons.mp hh with hh | hh
    · exact absurd (Prod.mk.inj hh).2.symm hab
    · exact hh

theorem inv_cleanUpAt_same (a : String) (d : Nat) (w : SolverWorld) (f : Bool)
    (hd : d ≠ 0) (hinv : SolverInv a d w) (hret : (w.cleanUpAt a f).2 = true) :
    SolverInv a (d - 1) (w.cleanUpAt a f).1 := by
  have hpos : 0 < d := Nat.pos_of_ne_zero hd
  obtain ⟨si, hs, hc⟩ := hinv.2.1 hpos
  have i3 := hinv.2.2
  have hcur : (w.getSolverInfo a).2 = si := by
    rw [getSolverInfo_snd, hs]; rfl
  have hcase : (d = 1 ∧ si.count - 1 = 0) ∨ (1 < d ∧ si.count - 1 ≠ 0 ∧ 0 < d - 1 ∧
      si.count - 1 = ((d - 1 : Nat) : Int)) := by
    rcases Nat.lt_or_ge 1 d with h | h
    · right
      refine ⟨h, ?_, by omega, ?_⟩
      · rw [hc]; omega
      · rw [hc]; omega
    · left
      have : d = 1 := by omega
      exact ⟨this, by rw [hc, this]; rfl⟩
  obtain ⟨e1, e2, e3⟩ := cleanUpAt_effect w a f
  rw [hcur] at e2 e3
  rcases hcase with ⟨h1, hz⟩ | ⟨h1, hz, hp, hcnt⟩
  · obtain ⟨s1, s2, s3⟩ := e2 hz
    have s1 := s1 hret
    refine ⟨fun _ => by rw [s1, Function.update_same], ?_, ?_⟩
    · intro h
      rw [h1] at h
      exact absurd h (by decide)
    intro h hh
    rw [e1] at hh
    left
    rcases i3 h hh with hcl | ⟨si2, hs2, hl⟩
    · cases hln : si.listener with
      | none => rw [s3 hln]; exact hcl
      | some ln => rw [s2 ln hln]; exact List.mem_cons_of_mem _ hcl
    · rw [hs] at hs2
      cases hs2
      rw [s2 h hl]
      exact List.mem_cons_self _ _
  · obtain ⟨s1, s2, _⟩ := e3 hz
    refine ⟨?_, ?_, ?_⟩
    · intro h
      rw [h] at hp
      exact absurd hp (by decide)
    · intro _
      exact ⟨{ si with count := si.count - 1 }, by rw [s1, Function.update_same], hcnt⟩
    · intro h hh
      rw [e1] at hh
      rw [s2]
      rcases i3 h hh with hcl | ⟨si2, hs2, hl⟩
      · exact Or.inl hcl
      · right
        rw [hs] at hs2
        cases hs2
        exact ⟨{ si with count := si.count - 1 }, by rw [s1, Function.update_same], hl⟩

theorem cleanUpAt_other (w : SolverWorld) (a b : String) (f : Bool) (hab : b ≠ a) :
    (w.cleanUpAt b f).1.solvers a = w.solvers a := by
  rw [cleanUpAt_eq]
  split
  · split
    · split
      · exact Function.update_noteq (Ne.symm hab) _ _
      · exact Function.update_noteq (Ne.symm hab) _ _
    · exact Function.update_noteq (Ne.symm hab) _ _
  · exact Function.update_noteq (Ne.symm hab) _ _

theorem inv_cleanUpAt_other (a b : String) (d : Nat) (w : SolverWorld) (f : Bool)
    (hab : b ≠ a) (hinv : SolverInv a d w) : SolverInv a d (w.cleanUpAt b f).1 := by
  obtain ⟨i1, i2, i3⟩ := hinv
  obtain ⟨e1, e2, e3⟩ := cleanUpAt_effect w b f
  have hs : (w.cleanUpAt b f).1.solvers a = w.solvers a := cleanUpAt_other w a b f hab
  have hcl : ∀ h, h ∈ w.closedListeners → h ∈ (w.cleanUpAt b f).1.closedListeners := by
    intro h hh
    by_cases hz : (w.getSolverInfo b).2.count - 1 = 0
    · cases hln : (w.getSolverInfo b).2.listener with
      | none => rw [(e2 hz).2.2 hln]; exact hh
      | some ln => rw [(e2 hz).2.1 ln hln]; exact List.mem_cons_of_mem _ hh
    · rw [(e3 hz).2.1]; exact hh
  refine ⟨fun h => by rw [hs]; exact i1 h, fun h => by rw [hs]; exact i2 h, ?_⟩
  intro h hh
  rw [e1] at hh
  rw [hs]
  rcases i3 h hh with hc | hr
  · exact Or.inl (hcl h hc)
  · exact Or.inr hr

theorem ofReturns_ne_never (r : Bool) : decide (Ended.ofReturns r ≠ .never) = r := by
  cases r <;> rfl

theorem step_httpCleanUp (w : SolverWorld) (s : HttpSolver) (domain token keyAuth : String) :
    w.step (.httpCleanUp s domain token keyAuth) = w.cleanUpAt s.address false := by
  simp only [SolverWorld.step, HttpSolver.CleanUp, ofReturns_ne_never]

theorem step_tlsCleanUp (w : SolverWorld) (s : TlsALPNSolver) (domain token keyAuth : String) :
    w.step (.tlsCleanUp s domain token keyAuth) =
      SolverWorld.cleanUpAt
        { w with
          certCache := Function.update w.certCache s.config
                        (Function.update (w.certCache s.config) (tlsALPNCertKeyName domain)
                          none) }
        s.address true := by
  simp only [SolverWorld.step, TlsALPNSolver.CleanUp, ofReturns_ne_never]

theorem inv_step (a : String) (d : Nat) (w : SolverWorld) (e : SolverEvent)
    (es : List SolverEvent) (hinv : SolverInv a d w)
    (hm : matched a SolverEvent.reachesTable d (e :: es) = true)
    (hret : (w.step e).2 = true) :
    ∃ d', SolverInv a d' (w.step e).1 ∧ matched a SolverEvent.reachesTable d' es = true ∧
      d' + callsAt a SolverEvent.isCleanUp [e] = d + callsAt a SolverEvent.reachesTable [e] := by
  by_cases hab : e.address = a
  · cases e with
    | httpPresent s domain token keyAuth net =>
      simp only [SolverEvent.address] at hab
      simp only [matched, SolverEvent.address, hab, if_true, SolverEvent.isCleanUp,
        SolverEvent.reachesTable, Bool.false_eq_true, if_false] at hm
      refine ⟨d + 1, ?_, hm, ?_⟩
      · simp only [SolverWorld.step, HttpSolver.Present, hab]
        exact inv_presentAt_same a d w false net hinv
      · simp [callsAt, SolverEvent.address, hab, SolverEvent.isCleanUp, SolverEvent.reachesTable]
    | httpCleanUp s domain token keyAuth =>
      simp only [SolverEvent.address] at hab
      simp only [matched, SolverEvent.address, hab, if_true, SolverEvent.isCleanUp,
        Bool.and_eq_true, decide_eq_true_eq] at hm
      refine ⟨d - 1, ?_, hm.2, ?_⟩
      · rw [step_httpCleanUp, hab] at hret ⊢
        exact inv_cleanUpAt_same a d w false hm.1 hinv hret
      · have := hm.1
        simp [callsAt, SolverEvent.address, hab, SolverEvent.isCleanUp,
          SolverEvent.reachesTable]
        omega
    | tlsPresent s domain token keyAuth cert hash net =>
      simp only [SolverEvent.address] at hab
      cases cert with
      | error err =>
        simp only [matched, SolverEvent.address, hab, if_true, SolverEvent.isCleanUp,
          SolverEvent.reachesTable, Bool.false_eq_true, if_false] at hm
        refine ⟨d, ?_, hm, ?_⟩
        · simp only [SolverWorld.step, TlsALPNSolver.Present]
          exact hinv
        · simp [callsAt, SolverEvent.address, hab, SolverEvent.isCleanUp,
            SolverEvent.reachesTable]
      | ok c =>
        simp only [matched, SolverEvent.address, hab, if_true, SolverEvent.isCleanUp,
          SolverEvent.reachesTable, Bool.false_eq_true, if_false] at hm
        refine ⟨d + 1, ?_, hm, ?_⟩
        · simp only [SolverWorld.step, TlsALPNSolver.Present, hab]
          exact inv_presentAt_same a d _ true net hinv
        · simp [callsAt, SolverEvent.address, hab, SolverEvent.isCleanUp,
            SolverEvent.reachesTable]
    | tlsCleanUp s domain token keyAuth =>
      simp only [SolverEvent.address] at hab
      simp only [matched, SolverEvent.address, hab, if_true, SolverEvent.isCleanUp,
        Bool.and_eq_true, decide_eq_true_eq] at hm
      refine ⟨d - 1, ?_, hm.2, ?_⟩
      · rw [step_tlsCleanUp, hab] at hret ⊢
        exact inv_cleanUpAt_same a d _ true hm.1 hinv hret
      · have := hm.1
        simp [callsAt, SolverEvent.address, hab, SolverEvent.isCleanUp,
          SolverEvent.reachesTable]
        omega
  · have hm' : matched a SolverEvent.reachesTable d es = true := by
      simpa only [matched, hab, if_false] using hm
    refine ⟨d, ?_, hm', ?_⟩
    · cases e with
      | httpPresent s domain token keyAuth net =>
        exact inv_presentAt_other a s.address d w false net hab hinv
      | httpCleanUp s domain token keyAuth =>
        rw [step_httpCleanUp]
        exact inv_cleanUpAt_other a s.address d w false hab hinv
      | tlsPresent s domain token keyAuth cert hash net =>
        cases cert with
        | error err => exact hinv
        | ok c => exact inv_presentAt_other a s.address d _ true net hab hinv
      | tlsCleanUp s domain token keyAuth =>
        rw [step_tlsCleanUp]
        exact inv_cleanUpAt_other a s.address d _ true hab hinv
    · simp [callsAt, hab]

theorem callsAt_cons (a : String) (p : SolverEvent → Bool) (e : SolverEvent)
    (es : List SolverEvent) : callsAt a p (e :: es) = callsAt a p [e] + callsAt a p es := by
  simp only [callsAt, List.countP_cons, List.countP_nil]
  omega

theorem run_cons_returns (w : SolverWorld) (e : SolverEvent) (es : List SolverEvent)
    (h : (w.run (e :: es)).2 = true) :
    (w.step e).2 = true ∧ w.run (e :: es) = (w.step e).1.run es := by
  cases hs : (w.step e).2 with
  | true => exact ⟨rfl, by simp only [SolverWorld.run, hs, if_true]⟩
  | false =>
    simp only [SolverWorld.run, hs, Bool.false_eq_true, if_false] at h

theorem inv_run (a : String) (es : List SolverEvent) :
    ∀ (w : SolverWorld) (d : Nat), SolverInv a d w →
      matched a SolverEvent.reachesTable d es = true → (w.run es).2 = true →
      ∃ d', SolverInv a d' (w.run es).1 ∧
        d' + callsAt a SolverEvent.isCleanUp es = d + callsAt a SolverEvent.reachesTable es := by
  induction es with
  | nil =>
    intro w d hinv _ _
    exact ⟨d, hinv, by simp [callsAt]⟩
  | cons e es ih =>
    intro w d hinv hm hret
    obtain ⟨hstep, hrun⟩ := run_cons_returns w e es hret
    obtain ⟨d1, h1, h2, h3⟩ := inv_step a d w e es hinv hm hstep
    rw [hrun] at hret ⊢
    obtain ⟨d2, h4, h5⟩ := ih (w.step e).1 d1 h1 h2 hret
    refine ⟨d2, h4, ?_⟩
    rw [callsAt_cons a _ e es, callsAt_cons a _ e es]
    omega

theorem matched_take (a : String) (c : SolverEvent → Bool) (es : List SolverEvent) :
    ∀ (d n : Nat), matched a c d es = true → matched a c d (es.take n) = true := by
  induction es with
  | nil => intro d n h; simpa using h
  | cons e es ih =>
    intro d n h
    cases n with
    | zero => simp [matched]
    | succ n =>
      simp only [List.take_succ_cons, matched] at h ⊢
      split at h
      · rename_i hab
        simp only [hab, if_true]
        split at h
        · rename_i hc
          simp only [hc, if_true]
          simp only [Bool.and_eq_true] at h ⊢
          exact ⟨h.1, ih _ n h.2⟩
        · rename_i hc
          simp only [hc, if_false]
          split at h
          · rename_i hcnt
            simp only [hcnt, if_true]
            exact ih _ n h
          · rename_i hcnt
            simp only [hcnt, if_false]
            exact ih _ n h
      · rename_i hab
        simp only [hab, if_false]
        exact ih _ n h

theorem solverInv_init (a : String) : SolverInv a 0 SolverWorld.init := by
  refine ⟨fun _ => rfl, fun h => absurd h (by decide), ?_⟩
  intro h hh
  simp [SolverWorld.init] at hh

/-- Reference counting as long as every call returns. Start from the empty
solver table and take any sequence of `Present` and `CleanUp` calls of HTTP and
TLS-ALPN solvers, on any addresses, in which every `CleanUp` on the address `a`
is matched to an earlier `Present` on `a` that reached the solver table. After
every prefix of the sequence all of whose calls return, a record for `a` whose
listener is non-nil has a count of at least one, and when the `CleanUp` calls on
`a` are as many as the `Present` calls on `a` that reached the table, the table
has no entry for `a` and every listener that was bound on `a` has been closed. -/
theorem refcount_while_calls_return (a : String) (es : List SolverEvent) (n : Nat)
    (hm : matched a SolverEvent.reachesTable 0 es = true)
    (hret : (SolverWorld.init.run (es.take n)).2 = true) :
    RefCountHolds a (SolverWorld.init.run (es.take n)).1
      (callsAt a SolverEvent.isCleanUp (es.take n)
        = callsAt a SolverEvent.reachesTable (es.take n)) := by
  obtain ⟨d, ⟨i1, i2, i3⟩, hd⟩ := inv_run a (es.take n) SolverWorld.init 0 (solverInv_init a)
    (matched_take a _ es 0 n hm) hret
  constructor
  · intro si hs _
    rcases Nat.eq_zero_or_pos d with h0 | hpos
    · rw [i1 h0] at hs; cases hs
    · obtain ⟨si', hs', hc⟩ := i2 hpos
      rw [hs] at hs'
      cases hs'
      rw [hc]
      exact_mod_cast hpos
  · intro hbal
    have h0 : d = 0 := by omega
    refine ⟨i1 h0, ?_⟩
    intro h hh
    rcases i3 h hh with hc | ⟨si, hs, _⟩
    · exact hc
    · rw [i1 h0] at hs; cases hs

/-- C8, evaluated on the code. On the empty solver table a TLS-ALPN solver
presents on `:443`, binds the socket and starts its accept loop; an HTTP solver
presents on the same address; the TLS-ALPN solver cleans up; the HTTP solver
cleans up. Every `CleanUp` is matched to an earlier `Present`, and there are as
many of the one as of the other. The last `CleanUp` brings the count to 0, sets
`closed` on the HTTP solver, not on the record, closes the listener and waits in
`<-si.done` for an accept loop that does not end: the call never returns, the
record stays in the table with count 0 and its listener, and `solversMu` stays
locked, so that a later `Present` on any address gets no further than the
lock. With the two `CleanUp` calls in the other order every call returns and
the record is removed. -/
theorem cleanup_of_mixed_solvers_hangs :
    matched ":443" SolverEvent.isPresent 0 mixedCalls = true ∧
    callsAt ":443" SolverEvent.isCleanUp mixedCalls
      = callsAt ":443" SolverEvent.isPresent mixedCalls ∧
    (SolverWorld.init.run (mixedCalls.take 3)).2 = true ∧
    (SolverWorld.init.run (mixedCalls.take 3)).1.solvers ":443"
      = some { closed := 0, count := 1, listener := some 0, done := false } ∧
    (SolverWorld.init.run (mixedCalls.take 3)).1.acceptLoops = [0] ∧
    (httpSolver443.CleanUp (SolverWorld.init.run (mixedCalls.take 3)).1 "a.example" "t1"
      "t1.thumb").2.2 = .never ∧
    (httpSolver443.CleanUp (SolverWorld.init.run (mixedCalls.take 3)).1 "a.example" "t1"
      "t1.thumb").1.closed = 1 ∧
    (SolverWorld.init.run mixedCalls).2 = false ∧
    (SolverWorld.init.run mixedCalls).1.solvers ":443"
      = some { closed := 0, count := 0, listener := some 0, done := false } ∧
    (SolverWorld.init.run mixedCalls).1.closedListeners = [0] ∧
    (SolverWorld.init.run (mixedCalls ++ [.httpPresent httpSolver80 "c.example" "t3" "t3.thumb"
      freePort])).1.solvers ":80" = none ∧
    (SolverWorld.init.run mixedCallsTLSLast).2 = true ∧
    (SolverWorld.init.run mixedCallsTLSLast).1.solvers ":443" = none ∧
    (SolverWorld.init.run mixedCallsTLSLast).1.closedListeners = [0] := by
  refine ⟨by decide, by decide, by decide, by decide, by decide, by decide, by decide,
    by decide, by decide, by decide, by decide, by decide, by decide, by decide⟩
/-! ## Properties of the HTTP handler and the distributed solver -/

theorem string_empty_append (s : String) : "" ++ s = s := by
  cases s
  rfl

theorem answer_pos (lib : Lib) (w : Response) (r : Request) (chalInfo : ChallengeInfo)
    (hc : r.path = challengePath chalInfo.Token ∧
      lib.equalFold (lib.hostOnly r.host) chalInfo.Domain = true ∧ r.method = "GET") :
    answerHTTPChallenge lib w r chalInfo =
      (true, { header := w.header ++ [("Content-Type", "text/plain")],
               status := some (w.status.getD 200), body := w.body ++ chalInfo.KeyAuth },
        { r with close := true }) := by
  simp only [answerHTTPChallenge, hc, and_self, if_true]

theorem answer_neg (lib : Lib) (w : Response) (r : Request) (chalInfo : ChallengeInfo)
    (hc : ¬ (r.path = challengePath chalInfo.Token ∧
      lib.equalFold (lib.hostOnly r.host) chalInfo.Domain = true ∧ r.method = "GET")) :
    answerHTTPChallenge lib w r chalInfo = (false, w, r) := by
  simp only [answerHTTPChallenge, hc, if_false]

/-- C9. `answerHTTPChallenge` returns true if and only if the method is `GET`,
the URL path is `/.well-known/acme-challenge/` followed by exactly the token,
and `strings.EqualFold` accepts `hostOnly(r.Host)` and the domain of the
challenge. When it returns true, the header `Content-Type: text/plain` has been
added and the key authorization appended to the body, so a fresh writer
carries exactly that header, status 200 and the key authorization as body;
when it returns false, response and request are untouched. In particular a
request whose host does not match the domain never gets the key authorization. -/
theorem answerHTTPChallenge_spec (lib : Lib) (w : Response) (r : Request)
    (chalInfo : ChallengeInfo) :
    ((answerHTTPChallenge lib w r chalInfo).1 = true ↔
      r.method = "GET" ∧ r.path = "/.well-known/acme-challenge/" ++ chalInfo.Token ∧
      lib.equalFold (lib.hostOnly r.host) chalInfo.Domain = true) ∧
    ((answerHTTPChallenge lib w r chalInfo).1 = true →
      (answerHTTPChallenge lib w r chalInfo).2.1.header
        = w.header ++ [("Content-Type", "text/plain")] ∧
      (answerHTTPChallenge lib w r chalInfo).2.1.body = w.body ++ chalInfo.KeyAuth) ∧
    ((answerHTTPChallenge lib Response.fresh r chalInfo).1 = true →
      (answerHTTPChallenge lib Response.fresh r chalInfo).2.1
        = { header := [("Content-Type", "text/plain")], status := some 200,
            body := chalInfo.KeyAuth }) ∧
    ((answerHTTPChallenge lib w r chalInfo).1 = false →
      (answerHTTPChallenge lib w r chalInfo).2 = (w, r)) ∧
    (lib.equalFold (lib.hostOnly r.host) chalInfo.Domain = false →
      answerHTTPChallenge lib w r chalInfo = (false, w, r)) := by
  by_cases hc : r.path = challengePath chalInfo.Token ∧
      lib.equalFold (lib.hostOnly r.host) chalInfo.Domain = true ∧ r.method = "GET"
  · rw [answer_pos lib w r chalInfo hc, answer_pos lib Response.fresh r chalInfo hc]
    refine ⟨?_, ?_, ?_, ?_, ?_⟩
    · simp only [true_iff]
      exact ⟨hc.2.2, hc.1, hc.2.1⟩
    · intro _
      exact ⟨rfl, rfl⟩
    · intro _
      simp only [Response.fresh, List.nil_append, Option.getD_none, string_empty_append]
    · intro h
      cases h
    · intro h
      rw [hc.2.1] at h
      cases h
  · rw [answer_neg lib w r chalInfo hc, answer_neg lib Response.fresh r chalInfo hc]
    refine ⟨?_, ?_, ?_, ?_, ?_⟩
    · simp only [Bool.false_eq_true, false_iff]
      intro h
      exact hc ⟨h.2.1, h.2.2, h.1⟩
    · intro h
      cases h
    · intro h
      cases h
    · intro _
      rfl
    · intro _
      rfl

theorem registerUser_caURL (env : ClientEnv) (manager : ACMEManager)
    (acmeClients : String → Option LegoClient) (calls : List ClientCall) (caURL : String)
    (leUser : User) (client : LegoClient) (c : AcmeClient)
    (h : (registerUser env manager acmeClients calls caURL leUser client).result = .ok c) :
    c.caURL = caURL := by
  unfold registerUser at h
  simp only at h
  split at h
  · cases h
  · split at h
    · cases h
    · cases h
      rfl

/-- A client returned by `newACMEClient` carries the CA URL that the function
settled on. -/
theorem newACMEClient_caURL (g : Globals) (env : ClientEnv) (manager : ACMEManager)
    (acmeClients : String → Option LegoClient) (useTestCA interactive : Bool) (c : AcmeClient)
    (h : (newACMEClient g env manager acmeClients useTestCA interactive).result = .ok c) :
    c.caURL = resolveCAURL g manager useTestCA := by
  unfold newACMEClient at h
  simp only at h
  repeat' first
    | exact registerUser_caURL _ _ _ _ _ _ _ c h
    | (cases h; done)
    | (cases h; rfl)
    | split at h

/-- The HTTP-01 provider installed by `nextChallenge` is a `distributedSolver`
for the manager and the CA URL of the client. -/
theorem nextChallenge_http_solver (g : Globals) (client client' : AcmeClient)
    (available rest : List ChallengeType) (i : Nat)
    (h : client.nextChallenge g available i = some ((HTTP01, rest), client')) :
    ∃ d, client'.acmeClient.Challenge.http01 = some (.distributed d) ∧
      d.caURL = client.caURL ∧ d.acmeManager = client.mgr := by
  unfold AcmeClient.nextChallenge at h
  split at h
  · simp only [Option.some.injEq, Prod.mk.injEq] at h
    exact absurd h.1.1 (by decide)
  · split at h
    · cases h
    · rename_i c hc
      simp only [Option.some.injEq, Prod.mk.injEq] at h
      obtain ⟨⟨h1, _⟩, h2⟩ := h
      subst h1
      subst h2
      simp only [if_true]
      exact ⟨_, rfl, rfl, rfl⟩

set_option maxRecDepth 100000 in
/-- C10, evaluated on the code. The manager has the primary CA
`https://ca.example/directory` and the test CA
`https://staging.example/directory`. The client made with `useTestCA = true`
carries the test CA, so the solver that `nextChallenge` installs stores the
record for `example.com` under the test CA's key, while the HTTP handler of the
same manager loads the key of the primary CA: after a successful
`Present("example.com", "tok", "tok.auth")` the validation request is not
answered. For the client made with `useTestCA = false` the keys coincide and
the request is answered with `tok.auth`. -/
theorem handler_misses_test_CA_record :
    testCAClient.map (fun c => c.caURL) = some "https://staging.example/directory" ∧
    (installedHTTPSolver testCAClient).map (fun d => d.challengeTokensKey plainLib "example.com")
      = some "staging.example-directory/challenge_tokens/example.com.json" ∧
    DistributedSolver.challengeTokensKey plainLib
        { acmeManager := plainManager, providerServer := .unset, caURL := plainManager.CA }
        (plainLib.hostOnly validationRequest.host)
      = "ca.example-directory/challenge_tokens/example.com.json" ∧
    (storageAfterPresent testCAClient).map (fun st =>
        (st.data "staging.example-directory/challenge_tokens/example.com.json",
         st.data "ca.example-directory/challenge_tokens/example.com.json"))
      = some (some "\x7b\"Domain\":\"example.com\",\"Token\":\"tok\",\"KeyAuth\":\"tok.auth\"\x7d",
          none) ∧
    handlerAnswer testCAClient = some (false, Response.fresh, validationRequest) ∧
    handlerAnswer primaryCAClient
      = some (true, { header := [("Content-Type", "text/plain")], status := some 200,
                      body := "tok.auth" }, { validationRequest with close := true }) := by
  refine ⟨by decide, by decide, by decide, by decide, by decide, by decide⟩

/-! ## Properties of the distributed solver -/

theorem expect_append (lit : String) (rest : List Char) :
    expect lit (lit.toList ++ rest) = some rest := by
  unfold expect
  have h1 : lit.toList.isPrefixOf (lit.toList ++ rest) = true := by
    rw [List.isPrefixOf_iff_prefix]
    exact List.prefix_append _ _
  have h2 : lit.length = lit.toList.length := rfl
  simp only [h1, if_true, h2, List.drop_left]

theorem readQuoted_body (s : List Char) (rest : List Char) :
    readQuoted ((s.flatMap fun c => if c = '"' ∨ c = '\\' then ['\\', c] else [c])
      ++ '"' :: rest) = some (s, rest) := by
  induction s with
  | nil => simp [readQuoted]
  | cons c s ih =>
    by_cases hc : c = '"' ∨ c = '\\'
    · simp only [List.flatMap_cons, hc, if_true, List.cons_append, List.nil_append]
      rw [readQuoted]
      · rw [ih]; rfl
    · simp only [List.flatMap_cons, hc, if_false, List.cons_append, List.nil_append]
      simp only [not_or] at hc
      rw [readQuoted]
      · rw [ih]; rfl
      · intro h
        exact hc.1 h
      · intros
        apply hc.2
        assumption


theorem readQuoted_quoted (s : String) (rest : List Char) :
    readQuoted ((quoted s).tail ++ rest) = some (s.toList, rest) := by
  have := readQuoted_body s.toList rest
  simpa [quoted] using this

theorem unmarshalInfo_of_shape (c : ChallengeInfo) (bytes : String)
    (h : bytes.toList = "\x7b\"Domain\":\"".toList ++ ((quoted c.Domain).tail ++
        (",\"Token\":\"".toList ++ ((quoted c.Token).tail ++
        (",\"KeyAuth\":\"".toList ++ ((quoted c.KeyAuth).tail ++ "\x7d".toList)))))) :
    unmarshalInfo bytes = .ok c := by
  have hend : expect "\x7d" "\x7d".toList = some [] := by decide
  unfold unmarshalInfo
  simp only [h, expect_append, readQuoted_quoted, Option.bind_eq_bind, Option.some_bind,
    hend, if_true]
  cases c
  rfl

/-- The record codec that stands in for `encoding/json` reads back what it
writes. -/
theorem unmarshal_marshal (c : ChallengeInfo) :
    ∃ bytes, marshalInfo c = .ok bytes ∧ unmarshalInfo bytes = .ok c := by
  refine ⟨_, rfl, ?_⟩
  have e1 : ∀ (s : String) (l : List Char), quoted s ++ l = '"' :: ((quoted s).tail ++ l) := by
    intro s l
    simp [quoted]
  have l1 : "\x7b\"Domain\":".toList ++ ['"'] = "\x7b\"Domain\":\"".toList := by decide
  have l2 : ",\"Token\":".toList ++ ['"'] = ",\"Token\":\"".toList := by decide
  have l3 : ",\"KeyAuth\":".toList ++ ['"'] = ",\"KeyAuth\":\"".toList := by decide
  have shape : "\x7b\"Domain\":".toList ++ quoted c.Domain ++ ",\"Token\":".toList
      ++ quoted c.Token ++ ",\"KeyAuth\":".toList ++ quoted c.KeyAuth ++ "\x7d".toList
      = "\x7b\"Domain\":\"".toList ++ ((quoted c.Domain).tail ++
        (",\"Token\":\"".toList ++ ((quoted c.Token).tail ++
        (",\"KeyAuth\":\"".toList ++ ((quoted c.KeyAuth).tail ++ "\x7d".toList))))) := by
    rw [← l1, ← l2, ← l3]
    simp only [List.append_assoc, e1, List.singleton_append, List.cons_append, List.nil_append]
  exact unmarshalInfo_of_shape c _ shape

theorem distributedPresent_storeFails (lib : Lib) (dhs : DistributedSolver) (st : Storage)
    (w : SolverWorld) (domain token keyAuth bytes : String) (o : PresentOracle) (err : GoError)
    (hm : lib.jsonMarshal ⟨domain, token, keyAuth⟩ = .ok bytes) (hs : o.storeFault = some err) :
    dhs.Present lib st w domain token keyAuth o = (st, w, some err) := by
  simp only [DistributedSolver.Present, hm, Storage.Store, hs]

theorem distributedPresent_stored (lib : Lib) (dhs : DistributedSolver) (st : Storage)
    (w : SolverWorld) (domain token keyAuth bytes : String) (o : PresentOracle)
    (hm : lib.jsonMarshal ⟨domain, token, keyAuth⟩ = .ok bytes) (hs : o.storeFault = none) :
    dhs.Present lib st w domain token keyAuth o =
      ({ data := Function.update st.data (dhs.challengeTokensKey lib domain) (some bytes) },
       (dhs.providerServer.Present w domain token keyAuth o).1,
       (dhs.providerServer.Present w domain token keyAuth o).2.map fun err =>
         GoError.plain ("presenting with embedded provider: " ++ err.text)) := by
  simp only [DistributedSolver.Present, hm, Storage.Store, hs]
  cases h : dhs.providerServer.Present w domain token keyAuth o with
  | mk w' e =>
    cases e <;> rfl

/-- C11. `distributedSolver.Present`, for a record that `json.Marshal` encodes
as `bytes` and `json.Unmarshal` decodes again. If the store fails, nothing else
happens: storage and solver state are unchanged and the store's error is
returned. If the store succeeds, `bytes` is what the storage holds under
`challengeTokensKey(domain)`, then the wrapped solver's `Present` runs on the
previous solver state with the same three arguments, and its error, if any, is
returned wrapped. The result is `nil` exactly when both the store and the
wrapped `Present` succeed, and what is stored under the key decodes to
`(domain, token, keyAuth)`. -/
theorem distributedSolver_Present_spec (lib : Lib) (dhs : DistributedSolver) (st : Storage)
    (w : SolverWorld) (domain token keyAuth bytes : String) (o : PresentOracle)
    (hm : lib.jsonMarshal ⟨domain, token, keyAuth⟩ = .ok bytes)
    (hcodec : lib.jsonUnmarshal bytes = .ok ⟨domain, token, keyAuth⟩) :
    (∀ err, o.storeFault = some err →
      dhs.Present lib st w domain token keyAuth o = (st, w, some err)) ∧
    (o.storeFault = none →
      (dhs.Present lib st w domain token keyAuth o).1.data
        = Function.update st.data (dhs.challengeTokensKey lib domain) (some bytes) ∧
      (dhs.Present lib st w domain token keyAuth o).2.1
        = (dhs.providerServer.Present w domain token keyAuth o).1 ∧
      (∀ err, (dhs.providerServer.Present w domain token keyAuth o).2 = some err →
        (dhs.Present lib st w domain token keyAuth o).2.2
          = some (.plain ("presenting with embedded provider: " ++ err.text))) ∧
      ∀ stored, (dhs.Present lib st w domain token keyAuth o).1.data
          (dhs.challengeTokensKey lib domain) = some stored →
        lib.jsonUnmarshal stored = .ok ⟨domain, token, keyAuth⟩) ∧
    ((dhs.Present lib st w domain token keyAuth o).2.2 = none ↔
      o.storeFault = none ∧ (dhs.providerServer.Present w domain token keyAuth o).2 = none) := by
  refine ⟨fun err hs => distributedPresent_storeFails lib dhs st w domain token keyAuth bytes o
    err hm hs, ?_, ?_⟩
  · intro hs
    rw [distributedPresent_stored lib dhs st w domain token keyAuth bytes o hm hs]
    refine ⟨rfl, rfl, ?_, ?_⟩
    · intro err he
      simp only [he, Option.map_some']
    · intro stored hst
      simp only [Function.update_same, Option.some.injEq] at hst
      rw [← hst]
      exact hcodec
  · cases hs : o.storeFault with
    | some err =>
      rw [distributedPresent_storeFails lib dhs st w domain token keyAuth bytes o err hm hs]
      simp
    | none =>
      rw [distributedPresent_stored lib dhs st w domain token keyAuth bytes o hm hs]
      cases (dhs.providerServer.Present w domain token keyAuth o).2 <;> simp

theorem distributedSolver_Present_spec_witness :
    plainLib.jsonMarshal ⟨"example.com", "tok", "tok.auth"⟩
      = .ok "\x7b\"Domain\":\"example.com\",\"Token\":\"tok\",\"KeyAuth\":\"tok.auth\"\x7d" ∧
    plainLib.jsonUnmarshal
        "\x7b\"Domain\":\"example.com\",\"Token\":\"tok\",\"KeyAuth\":\"tok.auth\"\x7d"
      = .ok ⟨"example.com", "tok", "tok.auth"⟩ ∧
    ((exampleSolver.Present plainLib emptyStorage SolverWorld.init "example.com" "tok" "tok.auth"
        calmOracle).2.2 = none ↔
      calmOracle.storeFault = none ∧
      (exampleSolver.providerServer.Present SolverWorld.init "example.com" "tok" "tok.auth"
        calmOracle).2 = none) :=
  have h1 : plainLib.jsonMarshal ⟨"example.com", "tok", "tok.auth"⟩
      = .ok "\x7b\"Domain\":\"example.com\",\"Token\":\"tok\",\"KeyAuth\":\"tok.auth\"\x7d" :=
    congrArg Except.ok (by decide)
  have h2 : plainLib.jsonUnmarshal
        "\x7b\"Domain\":\"example.com\",\"Token\":\"tok\",\"KeyAuth\":\"tok.auth\"\x7d"
      = .ok ⟨"example.com", "tok", "tok.auth"⟩ :=
    unmarshalInfo_of_shape ⟨"example.com", "tok", "tok.auth"⟩
      "\x7b\"Domain\":\"example.com\",\"Token\":\"tok\",\"KeyAuth\":\"tok.auth\"\x7d" (by decide)
  ⟨h1, h2, (distributedSolver_Present_spec plainLib exampleSolver emptyStorage SolverWorld.init
    "example.com" "tok" "tok.auth" _ calmOracle h1 h2).2.2⟩


theorem delete_ok_iff (st : Storage) (key : String) (fault : Option GoError) :
    ((st.Delete key fault).2 = none ↔ fault = none ∧ st.data key ≠ none) ∧
    (∀ err, (st.Delete key fault).2 = some err → (st.Delete key fault).1 = st) ∧
    ((st.Delete key fault).2 = none →
      (st.Delete key fault).1.data = Function.update st.data key none) := by
  unfold Storage.Delete
  cases fault with
  | some err => simp
  | none =>
    cases h : st.data key with
    | none => simp [errNotExist]
    | some v => simp

/-- The two ways of `distributedSolver.CleanUp`. The delete succeeds exactly
when the back-end works and the record exists; then the record is gone and the
wrapped solver's `CleanUp` runs once on the previous solver state with the same
arguments. If the delete fails, its error is returned and storage and solver
state stay as they were: the wrapped `CleanUp` does not run. -/
theorem distributedSolver_CleanUp_cases (lib : Lib) (dhs : DistributedSolver) (st : Storage)
    (w : SolverWorld) (domain token keyAuth : String) (deleteFault : Option GoError) :
    ((st.Delete (dhs.challengeTokensKey lib domain) deleteFault).2 = none ↔
      deleteFault = none ∧ st.data (dhs.challengeTokensKey lib domain) ≠ none) ∧
    (∀ err, (st.Delete (dhs.challengeTokensKey lib domain) deleteFault).2 = some err →
      dhs.CleanUp lib st w domain token keyAuth deleteFault = (st, w, .returned (some err))) ∧
    ((st.Delete (dhs.challengeTokensKey lib domain) deleteFault).2 = none →
      (dhs.CleanUp lib st w domain token keyAuth deleteFault).1.data
        = Function.update st.data (dhs.challengeTokensKey lib domain) none ∧
      (dhs.CleanUp lib st w domain token keyAuth deleteFault).2.1
        = (dhs.providerServer.CleanUp w domain token keyAuth).1 ∧
      ((dhs.CleanUp lib st w domain token keyAuth deleteFault).2.2 = .never ↔
        (dhs.providerServer.CleanUp w domain token keyAuth).2 = .never) ∧
      ((dhs.CleanUp lib st w domain token keyAuth deleteFault).2.2 = .returned none ↔
        (dhs.providerServer.CleanUp w domain token keyAuth).2 = .returned none)) := by
  obtain ⟨d1, d2, d3⟩ := delete_ok_iff st (dhs.challengeTokensKey lib domain) deleteFault
  refine ⟨d1, ?_, ?_⟩
  · intro err he
    have hst := d2 err he
    unfold DistributedSolver.CleanUp
    cases hd : st.Delete (dhs.challengeTokensKey lib domain) deleteFault with
    | mk st' e =>
      rw [hd] at he hst
      simp only at he hst
      subst he
      subst hst
      rfl
  · intro hok
    have hdata := d3 hok
    unfold DistributedSolver.CleanUp
    cases hd : st.Delete (dhs.challengeTokensKey lib domain) deleteFault with
    | mk st' e =>
      rw [hd] at hok hdata
      simp only at hok hdata
      subst hok
      simp only
      cases hc : dhs.providerServer.CleanUp w domain token keyAuth with
      | mk w' e' =>
        cases e' with
        | never => exact ⟨hdata, rfl, by simp, by simp⟩
        | returned err =>
          cases err with
          | none => exact ⟨hdata, rfl, by simp, by simp⟩
          | some err => exact ⟨hdata, rfl, by simp, by simp⟩

/-- C12, evaluated on the code. `exampleSolver` has presented a challenge for
`example.com`: the storage holds the record, the solver table has a record for
`:80` with count 1 and a listener. `CleanUp` with a storage back-end that fails
to delete returns the back-end's error and does not call the wrapped `CleanUp`:
the count stays at 1, the listener stays open, the table keeps its entry. The
same happens to the second of two `CleanUp` calls after two `Present` calls for
one name, which finds the record deleted already. A `CleanUp` whose delete
succeeds does call the wrapped `CleanUp`, which closes the listener and removes
the entry. -/
theorem distributedSolver_CleanUp_skips_inner :
    afterOnePresent.1.data (exampleSolver.challengeTokensKey plainLib "example.com") ≠ none ∧
    afterOnePresent.2.solvers ":80"
      = some { closed := 0, count := 1, listener := some 0, done := false } ∧
    (exampleSolver.CleanUp plainLib afterOnePresent.1 afterOnePresent.2 "example.com" "tok1"
        "tok1.auth" (some (.plain "disk full"))).2.2 = .returned (some (.plain "disk full")) ∧
    (exampleSolver.CleanUp plainLib afterOnePresent.1 afterOnePresent.2 "example.com" "tok1"
        "tok1.auth" (some (.plain "disk full"))).2.1.solvers ":80"
      = some { closed := 0, count := 1, listener := some 0, done := false } ∧
    (exampleSolver.CleanUp plainLib afterOnePresent.1 afterOnePresent.2 "example.com" "tok1"
        "tok1.auth" (some (.plain "disk full"))).2.1.closedListeners = [] ∧
    afterTwoPresents.2.solvers ":80"
      = some { closed := 0, count := 2, listener := some 0, done := false } ∧
    twoCleanUps.1.2.2 = .returned none ∧
    twoCleanUps.2.2.2 = .returned (some errNotExist) ∧
    twoCleanUps.2.2.1.solvers ":80"
      = some { closed := 0, count := 1, listener := some 0, done := false } ∧
    twoCleanUps.2.2.1.closedListeners = [] ∧
    (exampleSolver.CleanUp plainLib afterOnePresent.1 afterOnePresent.2 "example.com" "tok1"
        "tok1.auth" none).2.2 = .returned none ∧
    (exampleSolver.CleanUp plainLib afterOnePresent.1 afterOnePresent.2 "example.com" "tok1"
        "tok1.auth" none).2.1.solvers ":80" = none ∧
    (exampleSolver.CleanUp plainLib afterOnePresent.1 afterOnePresent.2 "example.com" "tok1"
        "tok1.auth" none).2.1.closedListeners = [0] := by
  refine ⟨by decide, by decide, by decide, by decide, by decide, by decide, by decide,
    by decide, by decide, by decide, by decide, by decide, by decide⟩

/-! ## Properties of `robustTryListen` -/

theorem exists_lt_one (P : Nat → Prop) : (∃ i, i < 1 ∧ P i) ↔ P 0 := by
  constructor
  · rintro ⟨i, hi, hp⟩
    have : i = 0 := by omega
    rw [this] at hp
    exact hp
  · intro h
    exact ⟨0, by omega, h⟩

theorem exists_lt_two (P : Nat → Prop) : (∃ i, i < 2 ∧ P i) ↔ P 0 ∨ P 1 := by
  constructor
  · rintro ⟨i, hi, hp⟩
    have : i = 0 ∨ i = 1 := by omega
    rcases this with h | h <;> rw [h] at hp
    · exact Or.inl hp
    · exact Or.inr hp
  · rintro (h | h)
    · exact ⟨0, by omega, h⟩
    · exact ⟨1, by omega, h⟩

/-- The five ways through `robustTryListen`. -/
theorem robustTryListen_cases (addr : String) (net : Nat → ListenAttempt) :
    ((net 0).listenErr = none ∧ robustTryListen addr net = (.bound, 1, 0)) ∨
    ((net 0).listenErr ≠ none ∧ (net 0).tolerated = true ∧
      robustTryListen addr net = (.nothing, 1, 1)) ∨
    ((net 0).listenErr ≠ none ∧ (net 0).tolerated = false ∧ (net 1).listenErr = none ∧
      robustTryListen addr net = (.bound, 2, 1)) ∨
    ((net 0).listenErr ≠ none ∧ (net 0).tolerated = false ∧ (net 1).listenErr ≠ none ∧
      (net 1).tolerated = true ∧ robustTryListen addr net = (.nothing, 2, 2)) ∨
    ((net 0).listenErr ≠ none ∧ (net 0).tolerated = false ∧ (net 1).tolerated = false ∧
      ∃ msg, (net 1).listenErr = some msg ∧ robustTryListen addr net =
        (.failed ("could not start listener for challenge server at " ++ addr ++ ": " ++ msg),
          2, 2)) := by
  unfold robustTryListen
  cases h0 : (net 0).listenErr with
  | none =>
    left
    simp [robustTryListenLoop, h0]
  | some m0 =>
    right
    by_cases t0 : (net 0).tolerated = true
    · left
      refine ⟨by simp, t0, ?_⟩
      simp only [ListenAttempt.tolerated, h0, Bool.or_eq_true, decide_eq_true_eq] at t0
      simp only [robustTryListenLoop, h0]
      rcases t0 with (t | t) | t
      · simp [t]
      · by_cases hc : (net 0).connectErr = none
        · simp [hc]
        · simp [hc, t]
      · by_cases hc : (net 0).connectErr = none
        · simp [hc]
        · simp [hc, t]
    · right
      have t0' : (net 0).tolerated = false := by simpa using t0
      have hn0 : (net 0).connectErr ≠ none ∧
          (stringsContains m0 "address already in use" ||
            stringsContains m0 "one usage of each socket address") = false := by
        simp only [ListenAttempt.tolerated, h0, Bool.or_eq_false_iff, decide_eq_false_iff_not]
          at t0'
        exact ⟨t0'.1.1, by simp [t0'.1.2, t0'.2]⟩
      cases h1 : (net 1).listenErr with
      | none =>
        left
        refine ⟨by simp, t0', rfl, ?_⟩
        simp [robustTryListenLoop, h0, h1, hn0.1, hn0.2]
      | some m1 =>
        right
        by_cases t1 : (net 1).tolerated = true
        · left
          refine ⟨by simp, t0', by simp, t1, ?_⟩
          simp only [ListenAttempt.tolerated, h1, Bool.or_eq_true, decide_eq_true_eq] at t1
          simp only [robustTryListenLoop, h0, h1, hn0.1, hn0.2, if_false, Bool.false_eq_true]
          rcases t1 with (t | t) | t
          · simp [t]
          · by_cases hc : (net 1).connectErr = none
            · simp [hc]
            · simp [hc, t]
          · by_cases hc : (net 1).connectErr = none
            · simp [hc]
            · simp [hc, t]
        · right
          have t1' : (net 1).tolerated = false := by simpa using t1
          have hn1 : (net 1).connectErr ≠ none ∧
              (stringsContains m1 "address already in use" ||
                stringsContains m1 "one usage of each socket address") = false := by
            simp only [ListenAttempt.tolerated, h1, Bool.or_eq_false_iff,
              decide_eq_false_iff_not] at t1'
            exact ⟨t1'.1.1, by simp [t1'.1.2, t1'.2]⟩
          refine ⟨by simp, t0', t1', m1, rfl, ?_⟩
          simp [robustTryListenLoop, h0, h1, hn0.1, hn0.2, hn1.1, hn1.2, errText]

/-- C13. `robustTryListen`, with `net.Listen` and the dial as oracles. It makes
one or two listen attempts. It returns a listener and a `nil` error exactly
when one of the attempts it makes succeeds; a `nil` listener and a `nil` error
exactly when one of the attempts it makes fails and is followed by a
successful dial or has an error text containing `address already in use` or
`one usage of each socket address`; in every other case it has made exactly two
attempts and returns a `nil` listener with the error `could not start listener
for challenge server at <addr>: <second listen error>`. A listener never comes
with an error. -/
theorem robustTryListen_spec (addr : String) (net : Nat → ListenAttempt) :
    1 ≤ (robustTryListen addr net).2.1 ∧ (robustTryListen addr net).2.1 ≤ 2 ∧
    ((robustTryListen addr net).1 = .bound ↔
      ∃ i, i < (robustTryListen addr net).2.1 ∧ (net i).listenErr = none) ∧
    ((robustTryListen addr net).1 = .nothing ↔
      ∃ i, i < (robustTryListen addr net).2.1 ∧ ∃ msg, (net i).listenErr = some msg ∧
        ((net i).connectErr = none ∨ stringsContains msg "address already in use" = true ∨
          stringsContains msg "one usage of each socket address" = true)) ∧
    ((robustTryListen addr net).1 ≠ .bound → (robustTryListen addr net).1 ≠ .nothing →
      (robustTryListen addr net).2.1 = 2 ∧
      ∃ msg, (net 1).listenErr = some msg ∧ (robustTryListen addr net).1 =
        .failed ("could not start listener for challenge server at " ++ addr ++ ": " ++ msg)) ∧
    ¬ ((robustTryListen addr net).1.hasListener = true ∧
      (robustTryListen addr net).1.err ≠ none) := by
  have tol : ∀ a : ListenAttempt, (∃ msg, a.listenErr = some msg ∧
      (a.connectErr = none ∨ stringsContains msg "address already in use" = true ∨
        stringsContains msg "one usage of each socket address" = true)) ↔ a.tolerated = true := by
    intro a
    unfold ListenAttempt.tolerated
    cases h : a.listenErr with
    | none => simp
    | some m => simp [or_assoc]
  have ntol : ∀ a : ListenAttempt, a.listenErr = none → a.tolerated = false := by
    intro a h
    simp [ListenAttempt.tolerated, h]
  rcases robustTryListen_cases addr net with
    ⟨h0, hr⟩ | ⟨h0, t0, hr⟩ | ⟨h0, t0, h1, hr⟩ | ⟨h0, t0, h1, t1, hr⟩ | ⟨h0, t0, t1, m1, h1, hr⟩
  · rw [hr]
    refine ⟨by simp, by simp, ?_, ?_, ?_, by simp [ListenResult.hasListener, ListenResult.err]⟩
    · simp only [exists_lt_one, h0]
    · simp only [exists_lt_one, tol, ntol _ h0]
      simp
    · intro h; exact absurd rfl h
  · rw [hr]
    refine ⟨by simp, by simp, ?_, ?_, ?_, by simp [ListenResult.hasListener, ListenResult.err]⟩
    · simp only [exists_lt_one]
      simp [h0]
    · simp only [exists_lt_one, tol, t0]
    · intro _ h; exact absurd rfl h
  · rw [hr]
    refine ⟨by simp, by simp, ?_, ?_, ?_, by simp [ListenResult.hasListener, ListenResult.err]⟩
    · simp only [exists_lt_two, h1, or_true]
    · simp only [exists_lt_two, tol, t0, ntol _ h1]
      simp
    · intro h; exact absurd rfl h
  · rw [hr]
    refine ⟨by simp, by simp, ?_, ?_, ?_, by simp [ListenResult.hasListener, ListenResult.err]⟩
    · simp only [exists_lt_two]
      simp [h0, h1]
    · simp only [exists_lt_two, tol, t1, or_true]
    · intro _ h; exact absurd rfl h
  · rw [hr]
    have hne1 : (net 1).listenErr ≠ none := by rw [h1]; simp
    refine ⟨by simp, by simp, ?_, ?_, ?_, by simp [ListenResult.hasListener, ListenResult.err]⟩
    · simp only [exists_lt_two]
      simp [h0, hne1]
    · simp only [exists_lt_two, tol, t0, t1]
      simp
    · intro _ _
      exact ⟨rfl, m1, h1, rfl⟩

/-! ## Properties of `newACMEClient` -/

theorem resolveCAURL_eq (g : Globals) (manager : ACMEManager) (useTestCA : Bool) :
    resolveCAURL g manager useTestCA = withScheme (selectedCA g manager useTestCA) := rfl

/-- The text of the error for a CA URL that is neither HTTPS nor local. -/
theorem newACMEClient_insecure (g : Globals) (env : ClientEnv) (manager : ACMEManager)
    (acmeClients : String → Option LegoClient) (useTestCA interactive : Bool) (u : URL)
    (hp : env.urlParse (resolveCAURL g manager useTestCA) = .ok u)
    (hc : u.Scheme ≠ "https" ∧ env.isLoopback u.Host = false ∧ env.isInternal u.Host = false) :
    newACMEClient g env manager acmeClients useTestCA interactive =
      ⟨.error (.plain (resolveCAURL g manager useTestCA ++ ": insecure CA URL (HTTPS required)")),
        manager, acmeClients, []⟩ := by
  unfold newACMEClient
  simp only [hp, hc, and_self, if_true, ne_eq, not_false_eq_true]

theorem registerUser_calls (env : ClientEnv) (manager : ACMEManager)
    (acmeClients : String → Option LegoClient) (calls : List ClientCall) (caURL : String)
    (leUser : User) (client : LegoClient) :
    (registerUser env manager acmeClients calls caURL leUser client).calls
      = calls ++ (registerUser env manager acmeClients [] caURL leUser client).calls := by
  unfold registerUser
  simp only
  cases env.register client manager.Agreed
      (manager.ExternalAccount.map fun ea => (ea.KeyID, env.base64 ea.HMAC)) with
  | error err => rfl
  | ok reg =>
    simp only
    cases env.saveUser manager caURL { leUser with Registration := some reg } with
    | some err => simp
    | none => simp

/-- `newACMEClient` when the table has a client for the key. -/
theorem newACMEClient_hit (g : Globals) (env : ClientEnv) (manager : ACMEManager)
    (acmeClients : String → Option LegoClient) (useTestCA interactive : Bool) (u : URL)
    (leUser : User) (client : LegoClient)
    (hp : env.urlParse (resolveCAURL g manager useTestCA) = .ok u)
    (hc : ¬ (u.Scheme ≠ "https" ∧ env.isLoopback u.Host = false ∧
      env.isInternal u.Host = false))
    (hu : env.getUser manager (resolveCAURL g manager useTestCA) manager.Email = .ok leUser)
    (ht : acmeClients (resolveCAURL g manager useTestCA ++ leUser.Email) = some client) :
    newACMEClient g env manager acmeClients useTestCA interactive =
      finishClient env manager acmeClients
        [.getUser (resolveCAURL g manager useTestCA) manager.Email]
        (resolveCAURL g manager useTestCA) leUser client interactive := by
  unfold newACMEClient finishClient
  simp only [hp, hc, if_false, hu, ht]

/-- `newACMEClient` when the table has no client for the key and the library
makes one. -/
theorem newACMEClient_miss (g : Globals) (env : ClientEnv) (manager : ACMEManager)
    (acmeClients : String → Option LegoClient) (useTestCA interactive : Bool) (u : URL)
    (leUser : User) (client : LegoClient)
    (hp : env.urlParse (resolveCAURL g manager useTestCA) = .ok u)
    (hc : ¬ (u.Scheme ≠ "https" ∧ env.isLoopback u.Host = false ∧
      env.isInternal u.Host = false))
    (hu : env.getUser manager (resolveCAURL g manager useTestCA) manager.Email = .ok leUser)
    (ht : acmeClients (resolveCAURL g manager useTestCA ++ leUser.Email) = none)
    (hn : env.newClient (legoConfigFor g manager (resolveCAURL g manager useTestCA) leUser)
      = .ok client) :
    newACMEClient g env manager acmeClients useTestCA interactive =
      finishClient env manager
        (Function.update acmeClients (resolveCAURL g manager useTestCA ++ leUser.Email)
          (some client))
        [.getUser (resolveCAURL g manager useTestCA) manager.Email,
         .newClient (legoConfigFor g manager (resolveCAURL g manager useTestCA) leUser)]
        (resolveCAURL g manager useTestCA) leUser client interactive := by
  unfold legoConfigFor at hn
  unfold newACMEClient finishClient legoConfigFor
  simp only [hp, hc, if_false, hu, ht, hn, List.singleton_append]

/-- `newACMEClient` when the library fails to make a client. -/
theorem newACMEClient_miss_error (g : Globals) (env : ClientEnv) (manager : ACMEManager)
    (acmeClients : String → Option LegoClient) (useTestCA interactive : Bool) (u : URL)
    (leUser : User) (err : GoError)
    (hp : env.urlParse (resolveCAURL g manager useTestCA) = .ok u)
    (hc : ¬ (u.Scheme ≠ "https" ∧ env.isLoopback u.Host = false ∧
      env.isInternal u.Host = false))
    (hu : env.getUser manager (resolveCAURL g manager useTestCA) manager.Email = .ok leUser)
    (ht : acmeClients (resolveCAURL g manager useTestCA ++ leUser.Email) = none)
    (hn : env.newClient (legoConfigFor g manager (resolveCAURL g manager useTestCA) leUser)
      = .error err) :
    newACMEClient g env manager acmeClients useTestCA interactive =
      ⟨.error err, manager, acmeClients,
        [.getUser (resolveCAURL g manager useTestCA) manager.Email,
         .newClient (legoConfigFor g manager (resolveCAURL g manager useTestCA) leUser)]⟩ := by
  unfold legoConfigFor at hn
  unfold newACMEClient legoConfigFor
  simp only [hp, hc, if_false, hu, ht, hn, List.singleton_append]

/-- `newACMEClient` when the user cannot be looked up. -/
theorem newACMEClient_getUser_error (g : Globals) (env : ClientEnv) (manager : ACMEManager)
    (acmeClients : String → Option LegoClient) (useTestCA interactive : Bool) (u : URL)
    (err : GoError)
    (hp : env.urlParse (resolveCAURL g manager useTestCA) = .ok u)
    (hc : ¬ (u.Scheme ≠ "https" ∧ env.isLoopback u.Host = false ∧
      env.isInternal u.Host = false))
    (hu : env.getUser manager (resolveCAURL g manager useTestCA) manager.Email = .error err) :
    newACMEClient g env manager acmeClients useTestCA interactive =
      ⟨.error err, manager, acmeClients,
        [.getUser (resolveCAURL g manager useTestCA) manager.Email]⟩ := by
  unfold newACMEClient
  simp only [hp, hc, if_false, hu]

theorem finishClient_calls (env : ClientEnv) (manager : ACMEManager)
    (acmeClients : String → Option LegoClient) (calls : List ClientCall) (caURL : String)
    (leUser : User) (client : LegoClient) (interactive : Bool) :
    (finishClient env manager acmeClients calls caURL leUser client interactive).calls
      = calls ++ (finishClient env manager acmeClients [] caURL leUser client interactive).calls := by
  unfold finishClient
  by_cases hreg : leUser.Registration = none
  · simp only [hreg, if_true]
    cases interactive with
    | false =>
      simp only [Bool.false_eq_true, if_false]
      exact registerUser_calls env manager acmeClients calls caURL leUser client
    | true =>
      simp only [if_true]
      by_cases hask : (!manager.Agreed && decide (client.tosURL ≠ "")) = true
      · simp only [hask, if_true]
        split
        · simp
        · rw [registerUser_calls env _ acmeClients (calls ++ _),
            registerUser_calls env _ acmeClients ([] ++ _)]
          simp
      · simp only [hask, if_false, Bool.false_eq_true]
        exact registerUser_calls env manager acmeClients calls caURL leUser client
  · simp only [hreg, if_false]
    simp

/-- Past the scheme check the first outside call is the lookup of the user. -/
theorem newACMEClient_secure_calls (g : Globals) (env : ClientEnv) (manager : ACMEManager)
    (acmeClients : String → Option LegoClient) (useTestCA interactive : Bool) (u : URL)
    (hp : env.urlParse (resolveCAURL g manager useTestCA) = .ok u)
    (hc : ¬ (u.Scheme ≠ "https" ∧ env.isLoopback u.Host = false ∧
      env.isInternal u.Host = false)) :
    ∃ rest, (newACMEClient g env manager acmeClients useTestCA interactive).calls
      = .getUser (resolveCAURL g manager useTestCA) manager.Email :: rest := by
  cases hu : env.getUser manager (resolveCAURL g manager useTestCA) manager.Email with
  | error err =>
    rw [newACMEClient_getUser_error g env manager acmeClients useTestCA interactive u err hp hc hu]
    exact ⟨[], rfl⟩
  | ok leUser =>
    cases ht : acmeClients (resolveCAURL g manager useTestCA ++ leUser.Email) with
    | some client =>
      rw [newACMEClient_hit g env manager acmeClients useTestCA interactive u leUser client
        hp hc hu ht]
      rw [finishClient_calls]
      exact ⟨_, rfl⟩
    | none =>
      cases hn : env.newClient
          (legoConfigFor g manager (resolveCAURL g manager useTestCA) leUser) with
      | error err =>
        rw [newACMEClient_miss_error g env manager acmeClients useTestCA interactive u leUser err
          hp hc hu ht hn]
        exact ⟨_, rfl⟩
      | ok client =>
        rw [newACMEClient_miss g env manager acmeClients useTestCA interactive u leUser client
          hp hc hu ht hn]
        rw [finishClient_calls]
        exact ⟨_, rfl⟩

/-- C14. `newACMEClient` enforces HTTPS on the CA URL. A selected CA URL without
`://` is parsed with `https://` in front, any other as it is. When the URL
parses, the call fails with the error `<url>: insecure CA URL (HTTPS required)`
before any outside call exactly when the scheme is not `https` and the host is
neither loopback nor internal; and then no user has been looked up, no client
constructed, and table and manager are unchanged. -/
theorem newACMEClient_enforces_https (g : Globals) (env : ClientEnv) (manager : ACMEManager)
    (acmeClients : String → Option LegoClient) (useTestCA interactive : Bool) :
    (stringsContains (selectedCA g manager useTestCA) "://" = false →
      resolveCAURL g manager useTestCA = "https://" ++ selectedCA g manager useTestCA) ∧
    (stringsContains (selectedCA g manager useTestCA) "://" = true →
      resolveCAURL g manager useTestCA = selectedCA g manager useTestCA) ∧
    (∀ u, env.urlParse (resolveCAURL g manager useTestCA) = .ok u →
      (((newACMEClient g env manager acmeClients useTestCA interactive).result
          = .error (.plain (resolveCAURL g manager useTestCA
              ++ ": insecure CA URL (HTTPS required)")) ∧
        (newACMEClient g env manager acmeClients useTestCA interactive).calls = []) ↔
        (u.Scheme ≠ "https" ∧ env.isLoopback u.Host = false ∧ env.isInternal u.Host = false)) ∧
      ((u.Scheme ≠ "https" ∧ env.isLoopback u.Host = false ∧ env.isInternal u.Host = false) →
        (newACMEClient g env manager acmeClients useTestCA interactive).calls = [] ∧
        (newACMEClient g env manager acmeClients useTestCA interactive).acmeClients
          = acmeClients ∧
        (newACMEClient g env manager acmeClients useTestCA interactive).manager = manager)) := by
  refine ⟨?_, ?_, ?_⟩
  · intro h
    rw [resolveCAURL_eq, withScheme, h]
    rfl
  · intro h
    rw [resolveCAURL_eq, withScheme, h]
    rfl
  · intro u hp
    constructor
    · constructor
      · intro h
        by_contra hc
        obtain ⟨rest, hr⟩ := newACMEClient_secure_calls g env manager acmeClients useTestCA
          interactive u hp hc
        rw [hr] at h
        exact absurd h.2 (by simp)
      · intro hc
        rw [newACMEClient_insecure g env manager acmeClients useTestCA interactive u hp hc]
        exact ⟨rfl, rfl⟩
    · intro hc
      rw [newACMEClient_insecure g env manager acmeClients useTestCA interactive u hp hc]
      exact ⟨rfl, rfl, rfl⟩

theorem selectedCA_cases (g : Globals) (manager : ACMEManager) (useTestCA : Bool) :
    (useTestCA = true → manager.TestCA ≠ "" →
      selectedCA g manager useTestCA = manager.TestCA) ∧
    (useTestCA = true → manager.TestCA = "" → manager.CA = g.DefaultACME.CA →
      g.DefaultACME.TestCA ≠ "" → selectedCA g manager useTestCA = g.DefaultACME.TestCA) ∧
    (useTestCA = false ∨ (manager.TestCA = "" ∧
        (manager.CA ≠ g.DefaultACME.CA ∨ g.DefaultACME.TestCA = "")) →
      selectedCA g manager useTestCA = primaryCA g manager) := by
  unfold selectedCA primaryCA
  refine ⟨?_, ?_, ?_⟩
  · intro hu ht
    simp [hu, ht]
  · intro hu ht hca hd
    simp [hu, ht, hca, hd]
  · rintro (hu | ⟨ht, hca | hd⟩)
    · simp [hu]
    · simp [ht, hca]
    · by_cases hca : manager.CA = g.DefaultACME.CA
      · cases useTestCA <;> simp [ht, hca, hd]
      · simp [ht, hca]

/-- C15 (amended). CA selection in `newACMEClient`. With `useTestCA` true and a
non-empty `manager.TestCA`, the test CA of the manager is selected. With
`useTestCA` true, an empty `manager.TestCA`, `manager.CA` equal to
`DefaultACME.CA` and a non-empty `DefaultACME.TestCA`, the default test CA is
selected. In every other case the primary CA is selected: `manager.CA`, or
`DefaultACME.CA` when `manager.CA` is empty. A client that is returned carries
the selected URL, with `https://` in front when it has no `://`. -/
theorem ca_selection (g : Globals) (env : ClientEnv) (manager : ACMEManager)
    (acmeClients : String → Option LegoClient) (useTestCA interactive : Bool) :
    (useTestCA = true → manager.TestCA ≠ "" →
      selectedCA g manager useTestCA = manager.TestCA) ∧
    (useTestCA = true → manager.TestCA = "" → manager.CA = g.DefaultACME.CA →
      g.DefaultACME.TestCA ≠ "" → selectedCA g manager useTestCA = g.DefaultACME.TestCA) ∧
    (useTestCA = false ∨ (manager.TestCA = "" ∧
        (manager.CA ≠ g.DefaultACME.CA ∨ g.DefaultACME.TestCA = "")) →
      selectedCA g manager useTestCA = primaryCA g manager) ∧
    (∀ c, (newACMEClient g env manager acmeClients useTestCA interactive).result = .ok c →
      c.caURL = withScheme (selectedCA g manager useTestCA)) := by
  obtain ⟨h1, h2, h3⟩ := selectedCA_cases g manager useTestCA
  refine ⟨h1, h2, h3, ?_⟩
  intro c hc
  rw [newACMEClient_caURL g env manager acmeClients useTestCA interactive c hc, resolveCAURL_eq]

/-- C15 as stated fails. The manager uses the default CA and has no test CA of
its own; with `useTestCA` true its client is made for the default test CA, not
for the primary CA. -/
theorem ca_selection_counterexample :
    defaultCAManager.TestCA = "" ∧
    primaryCA plainGlobals defaultCAManager = "https://acme.example/directory" ∧
    (newACMEClient plainGlobals plainEnv defaultCAManager (fun _ => none) true
        false).result.toOption.map (fun c => c.caURL)
      = some "https://acme-staging.example/directory" := by
  refine ⟨by decide, by decide, by decide⟩

theorem registerUser_error (env : ClientEnv) (manager : ACMEManager)
    (acmeClients : String → Option LegoClient) (calls : List ClientCall) (caURL : String)
    (leUser : User) (client : LegoClient) (err : GoError)
    (h : env.register client manager.Agreed
      (manager.ExternalAccount.map fun ea => (ea.KeyID, env.base64 ea.HMAC)) = .error err) :
    registerUser env manager acmeClients calls caURL leUser client =
      ⟨.error err, manager, acmeClients, calls ++ [.register client.ptr manager.Agreed
        (manager.ExternalAccount.map fun ea => (ea.KeyID, env.base64 ea.HMAC))]⟩ := by
  unfold registerUser
  simp only [h]

theorem registerUser_ok (env : ClientEnv) (manager : ACMEManager)
    (acmeClients : String → Option LegoClient) (calls : List ClientCall) (caURL : String)
    (leUser : User) (client : LegoClient) (reg : Nat)
    (h : env.register client manager.Agreed
      (manager.ExternalAccount.map fun ea => (ea.KeyID, env.base64 ea.HMAC)) = .ok reg) :
    (registerUser env manager acmeClients calls caURL leUser client).calls =
      calls ++ [.register client.ptr manager.Agreed
          (manager.ExternalAccount.map fun ea => (ea.KeyID, env.base64 ea.HMAC)),
        .saveUser caURL { leUser with Registration := some reg }] ∧
    (env.saveUser manager caURL { leUser with Registration := some reg } = none →
      (registerUser env manager acmeClients calls caURL leUser client).result =
        .ok { caURL := caURL, mgr := manager, acmeClient := client, challenges := [] }) ∧
    (∀ err, env.saveUser manager caURL { leUser with Registration := some reg } = some err →
      (registerUser env manager acmeClients calls caURL leUser client).result =
        .error (.plain ("could not save user: " ++ err.text))) := by
  unfold registerUser
  simp only [h]
  cases hs : env.saveUser manager caURL { leUser with Registration := some reg } with
  | none => simp
  | some e => simp

/-- C16 (amended). With `interactive = false` and a user that is not registered
yet, `newACMEClient` does not look at the terms of service: whatever `Agreed`
and the terms URL are, it sends exactly one registration request, with
`TermsOfServiceAgreed` equal to `manager.Agreed`, and leaves the decision to the
CA. If the CA rejects the request, that error is returned and no user is
persisted; if the CA accepts it, the registered user is persisted and, the
save succeeding, a client is returned. -/
theorem noninteractive_registration (g : Globals) (env : ClientEnv) (manager : ACMEManager)
    (acmeClients : String → Option LegoClient) (useTestCA : Bool) (u : URL) (leUser : User)
    (client : LegoClient)
    (hp : env.urlParse (resolveCAURL g manager useTestCA) = .ok u)
    (hc : ¬ (u.Scheme ≠ "https" ∧ env.isLoopback u.Host = false ∧
      env.isInternal u.Host = false))
    (hu : env.getUser manager (resolveCAURL g manager useTestCA) manager.Email = .ok leUser)
    (hreg : leUser.Registration = none)
    (hacq : acmeClients (resolveCAURL g manager useTestCA ++ leUser.Email) = some client ∨
      (acmeClients (resolveCAURL g manager useTestCA ++ leUser.Email) = none ∧
        env.newClient (legoConfigFor g manager (resolveCAURL g manager useTestCA) leUser)
          = .ok client)) :
    (newACMEClient g env manager acmeClients useTestCA false).calls.countP ClientCall.isRegister
      = 1 ∧
    ClientCall.register client.ptr manager.Agreed
        (manager.ExternalAccount.map fun ea => (ea.KeyID, env.base64 ea.HMAC))
      ∈ (newACMEClient g env manager acmeClients useTestCA false).calls ∧
    (∀ err, env.register client manager.Agreed
        (manager.ExternalAccount.map fun ea => (ea.KeyID, env.base64 ea.HMAC)) = .error err →
      (newACMEClient g env manager acmeClients useTestCA false).result = .error err ∧
      (newACMEClient g env manager acmeClients useTestCA false).calls.countP
        ClientCall.isSaveUser = 0) ∧
    (∀ reg, env.register client manager.Agreed
        (manager.ExternalAccount.map fun ea => (ea.KeyID, env.base64 ea.HMAC)) = .ok reg →
      ClientCall.saveUser (resolveCAURL g manager useTestCA)
          { leUser with Registration := some reg }
        ∈ (newACMEClient g env manager acmeClients useTestCA false).calls ∧
      (env.saveUser manager (resolveCAURL g manager useTestCA)
          { leUser with Registration := some reg } = none →
        (newACMEClient g env manager acmeClients useTestCA false).result =
          .ok { caURL := resolveCAURL g manager useTestCA, mgr := manager,
                acmeClient := client, challenges := [] })) := by
  have key : ∃ table calls0, calls0.countP ClientCall.isRegister = 0 ∧
      calls0.countP ClientCall.isSaveUser = 0 ∧
      newACMEClient g env manager acmeClients useTestCA false =
        registerUser env manager table calls0 (resolveCAURL g manager useTestCA) leUser client := by
    rcases hacq with ht | ⟨ht, hn⟩
    · refine ⟨acmeClients, [.getUser (resolveCAURL g manager useTestCA) manager.Email],
        rfl, rfl, ?_⟩
      rw [newACMEClient_hit g env manager acmeClients useTestCA false u leUser client hp hc hu ht]
      simp only [finishClient, hreg, if_true, Bool.false_eq_true, if_false]
    · refine ⟨Function.update acmeClients (resolveCAURL g manager useTestCA ++ leUser.Email)
          (some client),
        [.getUser (resolveCAURL g manager useTestCA) manager.Email,
          .newClient (legoConfigFor g manager (resolveCAURL g manager useTestCA) leUser)],
        rfl, rfl, ?_⟩
      rw [newACMEClient_miss g env manager acmeClients useTestCA false u leUser client hp hc hu
        ht hn]
      simp only [finishClient, hreg, if_true, Bool.false_eq_true, if_false]
  obtain ⟨table, calls0, h0, h0', hnew⟩ := key
  rw [hnew]
  cases hr : env.register client manager.Agreed
      (manager.ExternalAccount.map fun ea => (ea.KeyID, env.base64 ea.HMAC)) with
  | error err =>
    rw [registerUser_error env manager table calls0 _ leUser client err hr]
    refine ⟨?_, ?_, ?_, ?_⟩
    · simp [List.countP_append, h0, ClientCall.isRegister]
    · simp
    · intro err' he
      cases he
      exact ⟨rfl, by simp [List.countP_append, h0', ClientCall.isSaveUser]⟩
    · intro reg he
      cases he
  | ok reg =>
    obtain ⟨e1, e2, _⟩ := registerUser_ok env manager table calls0
      (resolveCAURL g manager useTestCA) leUser client reg hr
    refine ⟨?_, ?_, ?_, ?_⟩
    · rw [e1]
      simp [List.countP_append, h0, ClientCall.isRegister, List.countP_cons]
    · rw [e1]
      simp
    · intro err he
      cases he
    · intro reg' he
      cases he
      refine ⟨?_, e2⟩
      rw [e1]
      simp

theorem noninteractive_registration_witness :
    (strictEnv.urlParse (resolveCAURL plainGlobals reluctantManager false)
      = .ok { Scheme := "https", Host := "ca.example" }) ∧
    ((newACMEClient plainGlobals strictEnv reluctantManager (fun _ => none)
      false false).calls.countP ClientCall.isRegister = 1) :=
  have hp : strictEnv.urlParse (resolveCAURL plainGlobals reluctantManager false)
      = .ok { Scheme := "https", Host := "ca.example" } :=
    congrArg Except.ok (by decide)
  ⟨hp, (noninteractive_registration plainGlobals strictEnv reluctantManager (fun _ => none) false
    { Scheme := "https", Host := "ca.example" }
    { Email := "admin@example.com", Registration := none, key := 11 }
    { ptr := 1, tosURL := "https://ca.example/terms", certTimeout := 0,
      Challenge := { http01 := some .builtin, tlsalpn01 := some .builtin, dns01 := none } }
    hp (by decide) rfl rfl (Or.inr ⟨rfl, rfl⟩)).1⟩

/-- C16 as stated fails. The user has not agreed and the directory names terms
of service, `interactive` is false: `newACMEClient` does send a registration
request, with `TermsOfServiceAgreed` false. A CA that rejects it makes the call
fail; a CA that accepts it gets the user persisted and a client returned. -/
theorem noninteractive_registration_counterexample :
    reluctantManager.Agreed = false ∧
    (newACMEClient plainGlobals strictEnv reluctantManager (fun _ => none) false false).calls
      = [.getUser "https://ca.example/directory" "admin@example.com",
         .newClient (legoConfigFor plainGlobals reluctantManager "https://ca.example/directory"
           { Email := "admin@example.com", Registration := none, key := 11 }),
         .register 1 false none] ∧
    (newACMEClient plainGlobals lenientEnv reluctantManager (fun _ => none) false false).calls
      = [.getUser "https://ca.example/directory" "admin@example.com",
         .newClient (legoConfigFor plainGlobals reluctantManager "https://ca.example/directory"
           { Email := "admin@example.com", Registration := none, key := 11 }),
         .register 1 false none,
         .saveUser "https://ca.example/directory"
           { Email := "admin@example.com", Registration := some 5, key := 11 }] ∧
    (newACMEClient plainGlobals lenientEnv reluctantManager (fun _ => none) false
        false).result.toOption.map (fun c => c.caURL) = some "https://ca.example/directory" := by
  refine ⟨rfl, by decide, by decide, by decide⟩

/-! ## Properties of `newACMEClientWithRetry` -/

theorem retryLoop_ok (g : Globals) (envs : Nat → ClientEnv) (manager : ACMEManager)
    (useTestCA : Bool) (n i : Nat) (acmeClients : String → Option LegoClient)
    (client : Option AcmeClient) (err : Option GoError) (calls : List ClientCall) (c : AcmeClient)
    (h : (newACMEClient g (envs i) manager acmeClients useTestCA false).result = .ok c) :
    newACMEClientRetryLoop g envs manager useTestCA (n + 1) i acmeClients client err calls =
      ⟨some c, none, (newACMEClient g (envs i) manager acmeClients useTestCA false).acmeClients,
        i + 1, calls ++ (newACMEClient g (envs i) manager acmeClients useTestCA false).calls⟩ := by
  rw [newACMEClientRetryLoop]
  simp only [h]

theorem retryLoop_rateLimited (g : Globals) (envs : Nat → ClientEnv) (manager : ACMEManager)
    (useTestCA : Bool) (n i : Nat) (acmeClients : String → Option LegoClient)
    (client : Option AcmeClient) (err : Option GoError) (calls : List ClientCall) (e : GoError)
    (h : (newACMEClient g (envs i) manager acmeClients useTestCA false).result = .error e)
    (hl : e.isRateLimited = true) :
    newACMEClientRetryLoop g envs manager useTestCA (n + 1) i acmeClients client err calls =
      ⟨none, some (tooManyRequests e.text),
        (newACMEClient g (envs i) manager acmeClients useTestCA false).acmeClients,
        i + 1, calls ++ (newACMEClient g (envs i) manager acmeClients useTestCA false).calls⟩ := by
  rw [newACMEClientRetryLoop]
  simp only [h]
  cases e with
  | problem status msg =>
    simp only [GoError.isRateLimited, decide_eq_true_eq] at hl
    simp only [hl, if_true, tooManyRequests]
  | canceled => simp [GoError.isRateLimited] at hl
  | plain m => simp [GoError.isRateLimited] at hl
  | noRetryNil => simp [GoError.isRateLimited] at hl
  | noRetry inner => simp [GoError.isRateLimited] at hl
  | wrap m inner => simp [GoError.isRateLimited] at hl

theorem retryLoop_again (g : Globals) (envs : Nat → ClientEnv) (manager : ACMEManager)
    (useTestCA : Bool) (n i : Nat) (acmeClients : String → Option LegoClient)
    (client : Option AcmeClient) (err : Option GoError) (calls : List ClientCall) (e : GoError)
    (h : (newACMEClient g (envs i) manager acmeClients useTestCA false).result = .error e)
    (hl : e.isRateLimited = false) :
    newACMEClientRetryLoop g envs manager useTestCA (n + 1) i acmeClients client err calls =
      newACMEClientRetryLoop g envs
        (newACMEClient g (envs i) manager acmeClients useTestCA false).manager useTestCA n (i + 1)
        (newACMEClient g (envs i) manager acmeClients useTestCA false).acmeClients none (some e)
        (calls ++ (newACMEClient g (envs i) manager acmeClients useTestCA false).calls) := by
  rw [newACMEClientRetryLoop]
  simp only [h]
  cases e with
  | problem status msg =>
    simp only [GoError.isRateLimited, decide_eq_false_iff_not] at hl
    simp only [hl, if_false]
  | canceled => rfl
  | plain m => rfl
  | noRetryNil => rfl
  | noRetry inner => rfl
  | wrap m inner => rfl

/-- C17. `newACMEClientWithRetry` makes one or two attempts. If the first
attempt succeeds, its client is returned with a `nil` error. If an attempt
fails with an `acme.ProblemDetails` of status 429, a `nil` client and the error
`too many requests making new ACME client: … - aborting` are returned at once,
without another attempt. If the first attempt fails otherwise, there is a
second attempt: a success returns its client with a `nil` error, any other
failure returns a `nil` client and the second attempt's error. -/
theorem newACMEClientWithRetry_spec (g : Globals) (envs : Nat → ClientEnv)
    (manager : ACMEManager) (acmeClients : String → Option LegoClient) (useTestCA : Bool) :
    1 ≤ (newACMEClientWithRetry g envs manager acmeClients useTestCA).attempts ∧
    (newACMEClientWithRetry g envs manager acmeClients useTestCA).attempts ≤ 2 ∧
    (∀ c, (firstAttempt g envs manager acmeClients useTestCA).result = .ok c →
      (newACMEClientWithRetry g envs manager acmeClients useTestCA).client = some c ∧
      (newACMEClientWithRetry g envs manager acmeClients useTestCA).err = none ∧
      (newACMEClientWithRetry g envs manager acmeClients useTestCA).attempts = 1) ∧
    (∀ e, (firstAttempt g envs manager acmeClients useTestCA).result = .error e →
      e.isRateLimited = true →
      (newACMEClientWithRetry g envs manager acmeClients useTestCA).client = none ∧
      (newACMEClientWithRetry g envs manager acmeClients useTestCA).err
        = some (tooManyRequests e.text) ∧
      (newACMEClientWithRetry g envs manager acmeClients useTestCA).attempts = 1) ∧
    (∀ e, (firstAttempt g envs manager acmeClients useTestCA).result = .error e →
      e.isRateLimited = false →
      (newACMEClientWithRetry g envs manager acmeClients useTestCA).attempts = 2 ∧
      (∀ c, (secondAttempt g envs manager acmeClients useTestCA).result = .ok c →
        (newACMEClientWithRetry g envs manager acmeClients useTestCA).client = some c ∧
        (newACMEClientWithRetry g envs manager acmeClients useTestCA).err = none) ∧
      (∀ e2, (secondAttempt g envs manager acmeClients useTestCA).result = .error e2 →
        e2.isRateLimited = true →
        (newACMEClientWithRetry g envs manager acmeClients useTestCA).client = none ∧
        (newACMEClientWithRetry g envs manager acmeClients useTestCA).err
          = some (tooManyRequests e2.text)) ∧
      (∀ e2, (secondAttempt g envs manager acmeClients useTestCA).result = .error e2 →
        e2.isRateLimited = false →
        (newACMEClientWithRetry g envs manager acmeClients useTestCA).client = none ∧
        (newACMEClientWithRetry g envs manager acmeClients useTestCA).err = some e2)) := by
  unfold newACMEClientWithRetry
  cases h1 : (newACMEClient g (envs 0) manager acmeClients useTestCA false).result with
  | ok c =>
    rw [retryLoop_ok g envs manager useTestCA 1 0 acmeClients none none [] c h1]
    refine ⟨by simp, by simp, ?_, ?_, ?_⟩
    · intro c' hc
      rw [firstAttempt, h1] at hc
      cases hc
      exact ⟨rfl, rfl, rfl⟩
    · intro e he
      rw [firstAttempt, h1] at he
      cases he
    · intro e he
      rw [firstAttempt, h1] at he
      cases he
  | error e =>
    cases hl : e.isRateLimited with
    | true =>
      rw [retryLoop_rateLimited g envs manager useTestCA 1 0 acmeClients none none [] e h1 hl]
      refine ⟨by simp, by simp, ?_, ?_, ?_⟩
      · intro c hc
        rw [firstAttempt, h1] at hc
        cases hc
      · intro e' he _
        rw [firstAttempt, h1] at he
        cases he
        exact ⟨rfl, rfl, rfl⟩
      · intro e' he hl'
        rw [firstAttempt, h1] at he
        cases he
        rw [hl] at hl'
        cases hl'
    | false =>
      rw [retryLoop_again g envs manager useTestCA 1 0 acmeClients none none [] e h1 hl]
      have hsecond : secondAttempt g envs manager acmeClients useTestCA =
          newACMEClient g (envs (0 + 1))
            (newACMEClient g (envs 0) manager acmeClients useTestCA false).manager
            (newACMEClient g (envs 0) manager acmeClients useTestCA false).acmeClients
            useTestCA false := rfl
      cases h2 : (secondAttempt g envs manager acmeClients useTestCA).result with
      | ok c2 =>
        rw [retryLoop_ok g envs _ useTestCA 0 (0 + 1) _ none (some e) _ c2
          (by rw [← hsecond]; exact h2)]
        refine ⟨by simp, by simp, ?_, ?_, ?_⟩
        · intro c hc
          rw [firstAttempt, h1] at hc
          cases hc
        · intro e' he hl'
          rw [firstAttempt, h1] at he
          cases he
          rw [hl] at hl'
          cases hl'
        · intro e' _ _
          refine ⟨rfl, ?_, ?_, ?_⟩
          · intro c hc
            cases hc
            exact ⟨rfl, rfl⟩
          · intro e2 he2
            cases he2
          · intro e2 he2
            cases he2
      | error e2 =>
        cases hl2 : e2.isRateLimited with
        | true =>
          rw [retryLoop_rateLimited g envs _ useTestCA 0 (0 + 1) _ none (some e) _ e2
            (by rw [← hsecond]; exact h2) hl2]
          refine ⟨by simp, by simp, ?_, ?_, ?_⟩
          · intro c hc
            rw [firstAttempt, h1] at hc
            cases hc
          · intro e' he hl'
            rw [firstAttempt, h1] at he
            cases he
            rw [hl] at hl'
            cases hl'
          · intro e' _ _
            refine ⟨rfl, ?_, ?_, ?_⟩
            · intro c hc
              cases hc
            · intro e3 he3 _
              cases he3
              exact ⟨rfl, rfl⟩
            · intro e3 he3 hl3
              cases he3
              rw [hl2] at hl3
              cases hl3
        | false =>
          rw [retryLoop_again g envs _ useTestCA 0 (0 + 1) _ none (some e) _ e2
            (by rw [← hsecond]; exact h2) hl2]
          refine ⟨by simp [newACMEClientRetryLoop], by simp [newACMEClientRetryLoop], ?_, ?_, ?_⟩
          · intro c hc
            rw [firstAttempt, h1] at hc
            cases hc
          · intro e' he hl'
            rw [firstAttempt, h1] at he
            cases he
            rw [hl] at hl'
            cases hl'
          · intro e' _ _
            refine ⟨rfl, ?_, ?_, ?_⟩
            · intro c hc
              cases hc
            · intro e3 he3 hl3
              cases he3
              rw [hl2] at hl3
              cases hl3
            · intro e3 he3 _
              cases he3
              exact ⟨rfl, rfl⟩

/-! ## The table of ACME clients -/

/-- A second call of `newACMEClient` that finds the table entry of its key
constructs no client and uses the one in the table; the table is unchanged when
the user is registered. -/
theorem newACMEClient_reuses (g : Globals) (env : ClientEnv) (manager : ACMEManager)
    (acmeClients : String → Option LegoClient) (useTestCA interactive : Bool) (u : URL)
    (leUser : User) (client : LegoClient) (reg : Nat)
    (hp : env.urlParse (resolveCAURL g manager useTestCA) = .ok u)
    (hc : ¬ (u.Scheme ≠ "https" ∧ env.isLoopback u.Host = false ∧
      env.isInternal u.Host = false))
    (hu : env.getUser manager (resolveCAURL g manager useTestCA) manager.Email = .ok leUser)
    (hreg : leUser.Registration = some reg)
    (hacq : acmeClients (resolveCAURL g manager useTestCA ++ leUser.Email) = some client) :
    newACMEClient g env manager acmeClients useTestCA interactive =
      ⟨.ok { caURL := resolveCAURL g manager useTestCA, mgr := manager, acmeClient := client,
             challenges := [] },
        manager, acmeClients,
        [.getUser (resolveCAURL g manager useTestCA) manager.Email]⟩ := by
  simp only [newACMEClient, hp, hc, if_false, hu, hacq, hreg]
  simp

/-- C18, evaluated on the code. Two managers with different CA URLs and
different account e-mails, whose concatenations `caURL + email` coincide: the
call for the second manager finds the table entry of the first, constructs no
client, and returns a client for its own CA URL that wraps the library client
made for the first manager's CA and account. On an empty table the same call
constructs a client for its own CA. -/
theorem client_table_key_collision :
    (managerA.CA, managerA.Email) ≠ (managerB.CA, managerB.Email) ∧
    managerA.CA ++ managerA.Email = managerB.CA ++ managerB.Email ∧
    callA.calls = [.getUser "https://ca.example/dir" "admin@x.org",
      .newClient (legoConfigFor plainGlobals managerA "https://ca.example/dir"
        { Email := "admin@x.org", Registration := some 3, key := 11 })] ∧
    callA.result.toOption.map (fun c => (c.caURL, c.acmeClient.tosURL))
      = some ("https://ca.example/dir", "https://ca.example/dir/terms") ∧
    callB.calls = [.getUser "https://ca.example/dira" "dmin@x.org"] ∧
    callB.result.toOption.map (fun c => (c.caURL, c.acmeClient.tosURL))
      = some ("https://ca.example/dira", "https://ca.example/dir/terms") ∧
    callB.result.toOption.map (fun c => c.acmeClient)
      = callA.result.toOption.map (fun c => c.acmeClient) ∧
    callBAlone.result.toOption.map (fun c => (c.caURL, c.acmeClient.tosURL))
      = some ("https://ca.example/dira", "https://ca.example/dira/terms") := by
  refine ⟨by decide, by decide, by decide, by decide, by decide, by decide, by decide, by decide⟩

/-! ## Properties of `HandleHTTPChallenge` -/

theorem distributedHTTPChallengeSolver_some (lib : Lib) (m : ACMEManager) (st : Storage)
    (loadFault : Option GoError) (w : Response) (r : Request) :
    distributedHTTPChallengeSolver lib (some m) st loadFault w r =
      match st.Load (handlerTokenKey lib m r) loadFault with
      | .error _ => (false, w, r)
      | .ok chalInfoBytes =>
        match lib.jsonUnmarshal chalInfoBytes with
        | .error _ => (false, w, r)
        | .ok chalInfo => answerHTTPChallenge lib w r chalInfo := rfl

theorem distributedHTTPChallengeSolver_noRecord (lib : Lib) (m : ACMEManager) (st : Storage)
    (loadFault : Option GoError) (w : Response) (r : Request)
    (h : st.data (handlerTokenKey lib m r) = none) :
    distributedHTTPChallengeSolver lib (some m) st loadFault w r = (false, w, r) := by
  rw [distributedHTTPChallengeSolver_some]
  cases loadFault <;> simp [Storage.Load, h]

theorem distributedHTTPChallengeSolver_fault (lib : Lib) (m : ACMEManager) (st : Storage)
    (err : GoError) (w : Response) (r : Request) :
    distributedHTTPChallengeSolver lib (some m) st (some err) w r = (false, w, r) := by
  rw [distributedHTTPChallengeSolver_some]
  simp [Storage.Load]

theorem distributedHTTPChallengeSolver_record (lib : Lib) (m : ACMEManager) (st : Storage)
    (w : Response) (r : Request) (bytes : String)
    (h : st.data (handlerTokenKey lib m r) = some bytes) :
    distributedHTTPChallengeSolver lib (some m) st none w r =
      match lib.jsonUnmarshal bytes with
      | .error _ => (false, w, r)
      | .ok chalInfo => answerHTTPChallenge lib w r chalInfo := by
  rw [distributedHTTPChallengeSolver_some]
  simp [Storage.Load, h]

theorem HandleHTTPChallenge_false_or_solver (lib : Lib) (m : ACMEManager) (st : Storage)
    (loadFault : Option GoError) (w : Response) (r : Request) :
    HandleHTTPChallenge lib (some m) st loadFault w r = (false, w, r) ∨
    HandleHTTPChallenge lib (some m) st loadFault w r =
      distributedHTTPChallengeSolver lib (some m) st loadFault w r := by
  simp only [HandleHTTPChallenge]
  split
  · exact Or.inl rfl
  · split
    · exact Or.inl rfl
    · exact Or.inr rfl

/-- C19. `HandleHTTPChallenge` returns false and leaves response and request
untouched when the manager is `nil`, when the HTTP challenge is disabled, when
the method is not `GET`, when the path does not start with
`/.well-known/acme-challenge`, when the storage has no record under the
challenge key of the request host (or cannot be read, or the record cannot be
decoded), and when the path is not the challenge path of the stored token or
the request host does not match the stored domain. With an empty storage it
returns false for every request, among them the six requests of
`TestHTTPChallengeHandlerNoOp`. -/
theorem HandleHTTPChallenge_noop (lib : Lib) (manager : Option ACMEManager) (st : Storage)
    (loadFault : Option GoError) (w : Response) (r : Request) :
    (manager = none → HandleHTTPChallenge lib manager st loadFault w r = (false, w, r)) ∧
    (∀ m, manager = some m → m.DisableHTTPChallenge = true →
      HandleHTTPChallenge lib manager st loadFault w r = (false, w, r)) ∧
    (r.method ≠ "GET" → HandleHTTPChallenge lib manager st loadFault w r = (false, w, r)) ∧
    (¬ challengeBasePath.toList <+: r.path.toList →
      HandleHTTPChallenge lib manager st loadFault w r = (false, w, r)) ∧
    (∀ m, manager = some m → st.data (handlerTokenKey lib m r) = none →
      HandleHTTPChallenge lib manager st loadFault w r = (false, w, r)) ∧
    (∀ err, loadFault = some err →
      HandleHTTPChallenge lib manager st loadFault w r = (false, w, r)) ∧
    (∀ m bytes err, manager = some m → st.data (handlerTokenKey lib m r) = some bytes →
      lib.jsonUnmarshal bytes = .error err →
      HandleHTTPChallenge lib manager st loadFault w r = (false, w, r)) ∧
    (∀ m bytes chalInfo, manager = some m → st.data (handlerTokenKey lib m r) = some bytes →
      lib.jsonUnmarshal bytes = .ok chalInfo →
      (r.path ≠ challengePath chalInfo.Token ∨
        lib.equalFold (lib.hostOnly r.host) chalInfo.Domain = false) →
      HandleHTTPChallenge lib manager st loadFault w r = (false, w, r)) ∧
    ((∀ key, st.data key = none) →
      HandleHTTPChallenge lib manager st loadFault w r = (false, w, r)) ∧
    (∀ rq ∈ noOpRequests,
      HandleHTTPChallenge plainLib (some noOpManager) emptyStorage none Response.fresh rq
        = (false, Response.fresh, rq)) := by
  have hnone : manager = none →
      HandleHTTPChallenge lib manager st loadFault w r = (false, w, r) := by
    intro h
    subst h
    rfl
  have hkey : ∀ m, manager = some m → st.data (handlerTokenKey lib m r) = none →
      HandleHTTPChallenge lib manager st loadFault w r = (false, w, r) := by
    intro m hm h
    subst hm
    rcases HandleHTTPChallenge_false_or_solver lib m st loadFault w r with h1 | h1
    · exact h1
    · rw [h1]
      exact distributedHTTPChallengeSolver_noRecord lib m st loadFault w r h
  refine ⟨hnone, ?_, ?_, ?_, hkey, ?_, ?_, ?_, ?_, by decide⟩
  · intro m hm hd
    subst hm
    simp [HandleHTTPChallenge, hd]
  · intro hmeth
    cases manager with
    | none => rfl
    | some m => simp [HandleHTTPChallenge, LooksLikeHTTPChallenge, hmeth]
  · intro hpre
    cases manager with
    | none => rfl
    | some m =>
      have hp : challengeBasePath.toList.isPrefixOf r.path.toList = false := by
        cases hb : challengeBasePath.toList.isPrefixOf r.path.toList with
        | false => rfl
        | true => exact absurd (List.isPrefixOf_iff_prefix.mp hb) hpre
      simp only [HandleHTTPChallenge, LooksLikeHTTPChallenge, hp, Bool.and_false,
        Bool.not_false, if_true, ite_self]
  · intro err herr
    subst herr
    cases manager with
    | none => rfl
    | some m =>
      rcases HandleHTTPChallenge_false_or_solver lib m st (some err) w r with h1 | h1
      · exact h1
      · rw [h1]
        exact distributedHTTPChallengeSolver_fault lib m st err w r
  · intro m bytes err hm hdata hdec
    subst hm
    rcases HandleHTTPChallenge_false_or_solver lib m st loadFault w r with h1 | h1
    · exact h1
    · rw [h1]
      cases loadFault with
      | some e => exact distributedHTTPChallengeSolver_fault lib m st e w r
      | none =>
        rw [distributedHTTPChallengeSolver_record lib m st w r bytes hdata, hdec]
  · intro m bytes chalInfo hm hdata hdec hmis
    subst hm
    rcases HandleHTTPChallenge_false_or_solver lib m st loadFault w r with h1 | h1
    · exact h1
    · rw [h1]
      cases loadFault with
      | some e => exact distributedHTTPChallengeSolver_fault lib m st e w r
      | none =>
        rw [distributedHTTPChallengeSolver_record lib m st w r bytes hdata, hdec]
        apply answer_neg
        rintro ⟨hp, he, _⟩
        rcases hmis with h | h
        · exact h hp
        · rw [he] at h
          cases h
  · intro hempty
    cases manager with
    | none => rfl
    | some m => exact hkey m rfl (hempty _)

/-! ## Properties of the storage keys -/

theorem dropDotDot_sublist (l : List Char) : (dropDotDot l).Sublist l := by
  induction l using dropDotDot.induct with
  | case1 rest ih =>
    rw [dropDotDot.eq_1]
    exact (ih.cons _).cons _
  | case2 c rest h ih =>
    rw [dropDotDot.eq_2 c rest h]
    exact ih.cons₂ _
  | case3 => simp [dropDotDot]

theorem dropDotDot_head (l : List Char) (c : Char) (rest : List Char)
    (h : dropDotDot l = '.' :: c :: rest) : c ≠ '.' := by
  induction l using dropDotDot.induct generalizing c rest with
  | case1 rest1 ih => 
    rw [dropDotDot.eq_1] at h
    exact ih c rest h
  | case2 d rest1 hd ih =>
    rw [dropDotDot.eq_2 d rest1 hd] at h
    injection h with h1 h2
    subst h1
    intro hc
    subst hc
    cases rest1 with
    | nil => simp [dropDotDot] at h2
    | cons e rest2 =>
      by_cases he : e = '.'
      · exact hd rest2 rfl (by rw [he])
      · rw [dropDotDot.eq_2 e rest2 (by intro r hc _; exact he hc)] at h2
        injection h2 with h3 _
        exact he h3
  | case3 => simp [dropDotDot] at h

theorem dropDotDot_noDotDot (l : List Char) : ¬ ['.', '.'] <:+: dropDotDot l := by
  induction l using dropDotDot.induct with
  | case1 rest ih =>
    rw [dropDotDot.eq_1]
    exact ih
  | case2 c rest h ih =>
    rw [dropDotDot.eq_2 c rest h]
    intro hin
    rcases List.infix_cons_iff.mp hin with hp | hi
    · obtain ⟨t, ht⟩ := hp
      cases hr : dropDotDot rest with
      | nil => rw [hr] at ht; simp at ht
      | cons e rest2 =>
        rw [hr] at ht
        simp only [List.cons_append, List.nil_append, List.cons.injEq] at ht
        obtain ⟨hc, he, _⟩ := ht
        have := dropDotDot_head (c :: rest) e rest2
          (by rw [dropDotDot.eq_2 c rest h, hr, ← hc])
        exact this he.symm
    · exact ih hi
  | case3 => simp [dropDotDot]

theorem safeName_mem (name : String) (c : Char) (h : c ∈ (safeName name).toList) :
    keptChar c = true := by
  have h1 : c ∈ dropDotDot
      ((starToWildcard (name.toList.map Char.toLower)).filter keptChar) := h
  exact (List.mem_filter.mp ((dropDotDot_sublist _).subset h1)).2

theorem safeName_noSlash (name : String) : '/' ∉ (safeName name).toList := by
  intro h
  have := safeName_mem name '/' h
  revert this
  decide

theorem safeName_noBackslash (name : String) : '\\' ∉ (safeName name).toList := by
  intro h
  have := safeName_mem name '\\' h
  revert this
  decide

theorem safeName_noControl (name : String) (c : Char) (h : c ∈ (safeName name).toList) :
    32 ≤ c.toNat ∧ c.toNat ≠ 127 := by
  have := safeName_mem name c h
  simp only [keptChar, Bool.and_eq_true, decide_eq_true_eq] at this
  exact ⟨this.1.2, by simpa using this.2⟩

theorem safeName_noDotDot (name : String) : ¬ ['.', '.'] <:+: (safeName name).toList :=
  dropDotDot_noDotDot _

theorem safeName_wildcard (name : String) (rest : List Char)
    (h : name.toList = '*' :: rest) :
    safeName name
      = "wildcard_" ++ String.mk (dropDotDot ((rest.map Char.toLower).filter keptChar)) := by
  have hl : Char.toLower '*' = '*' := by decide
  apply String.ext
  show dropDotDot ((starToWildcard (name.toList.map Char.toLower)).filter keptChar) = _
  rw [h]
  simp only [List.map_cons, hl, starToWildcard]
  simp [dropDotDot, keptChar, List.filter_cons, String.data_append]

/-! ## Properties of `path.Clean` and `path.Join` -/

theorem splitOnSlash_ne_nil (l : List Char) : splitOnSlash l ≠ [] := by
  cases l with
  | nil => simp [splitOnSlash]
  | cons c cs =>
    rw [splitOnSlash]
    split
    · simp
    · split <;> simp

theorem splitOnSlash_cons (c : Char) (cs seg : List Char) (rest : List (List Char))
    (h : splitOnSlash cs = seg :: rest) :
    splitOnSlash (c :: cs) = if c = '/' then [] :: seg :: rest else (c :: seg) :: rest := by
  rw [splitOnSlash, h]

theorem splitOnSlash_noSlash (l : List Char) (h : '/' ∉ l) : splitOnSlash l = [l] := by
  induction l with
  | nil => rfl
  | cons c cs ih =>
    have hc : c ≠ '/' := fun e => h (by rw [e]; exact List.mem_cons_self _ _)
    have hcs : '/' ∉ cs := fun e => h (List.mem_cons_of_mem _ e)
    rw [splitOnSlash_cons c cs cs [] (ih hcs), if_neg hc]

theorem splitOnSlash_append (p q : List Char) :
    splitOnSlash (p ++ '/' :: q) = splitOnSlash p ++ splitOnSlash q := by
  induction p with
  | nil =>
    cases hq : splitOnSlash q with
    | nil => exact absurd hq (splitOnSlash_ne_nil q)
    | cons seg rest =>
      rw [List.nil_append, splitOnSlash_cons '/' q seg rest hq, if_pos rfl]
      rfl
  | cons c cs ih =>
    cases hp : splitOnSlash cs with
    | nil => exact absurd hp (splitOnSlash_ne_nil cs)
    | cons seg rest =>
      rw [List.cons_append, splitOnSlash_cons c (cs ++ '/' :: q) seg (rest ++ splitOnSlash q)
        (by rw [ih, hp]; rfl), splitOnSlash_cons c cs seg rest hp]
      split <;> rfl

theorem splitOnSlash_mem (l s : List Char) (h : s ∈ splitOnSlash l) : '/' ∉ s := by
  induction l generalizing s with
  | nil =>
    simp only [splitOnSlash, List.mem_singleton] at h
    subst h
    simp
  | cons c cs ih =>
    cases hp : splitOnSlash cs with
    | nil => exact absurd hp (splitOnSlash_ne_nil cs)
    | cons seg rest =>
      rw [splitOnSlash_cons c cs seg rest hp] at h
      have hseg : '/' ∉ seg := ih seg (by rw [hp]; exact List.mem_cons_self _ _)
      have hrest : ∀ t ∈ rest, '/' ∉ t := fun t ht =>
        ih t (by rw [hp]; exact List.mem_cons_of_mem _ ht)
      by_cases hc : c = '/'
      · rw [if_pos hc] at h
        rcases List.mem_cons.mp h with h1 | h1
        · subst h1
          simp
        · rcases List.mem_cons.mp h1 with h2 | h2
          · subst h2
            exact hseg
          · exact hrest s h2
      · rw [if_neg hc] at h
        rcases List.mem_cons.mp h with h1 | h1
        · subst h1
          intro hm
          rcases List.mem_cons.mp hm with h2 | h2
          · exact hc h2.symm
          · exact hseg h2
        · exact hrest s h1

theorem intercalate_single (a : List Char) : List.intercalate ['/'] [a] = a := by
  simp [List.intercalate]

theorem intercalate_cons_cons (a b : List Char) (l : List (List Char)) :
    List.intercalate ['/'] (a :: b :: l) = a ++ '/' :: List.intercalate ['/'] (b :: l) := by
  simp [List.intercalate]

theorem intercalate_append_single (segs : List (List Char)) (s : List Char) (h : segs ≠ []) :
    List.intercalate ['/'] (segs ++ [s]) = List.intercalate ['/'] segs ++ '/' :: s := by
  induction segs with
  | nil => exact absurd rfl h
  | cons a rest ih =>
    cases rest with
    | nil =>
      rw [List.cons_append, List.nil_append, intercalate_cons_cons, intercalate_single,
        intercalate_single]
    | cons b rest2 =>
      rw [List.cons_append, List.cons_append, intercalate_cons_cons, intercalate_cons_cons,
        ← List.cons_append, ih (by simp), List.append_assoc]
      rfl

theorem splitOnSlash_intercalate (segs : List (List Char)) (h : segs ≠ [])
    (hs : ∀ s ∈ segs, '/' ∉ s) : splitOnSlash (List.intercalate ['/'] segs) = segs := by
  induction segs with
  | nil => exact absurd rfl h
  | cons a rest ih =>
    cases rest with
    | nil =>
      rw [intercalate_single]
      exact splitOnSlash_noSlash a (hs a (List.mem_cons_self _ _))
    | cons b rest2 =>
      rw [intercalate_cons_cons, splitOnSlash_append,
        splitOnSlash_noSlash a (hs a (List.mem_cons_self _ _)),
        ih (by simp) (fun s hm => hs s (List.mem_cons_of_mem _ hm))]
      rfl

theorem cleanStep_ordinary (rooted : Bool) (acc : List (List Char)) (seg : List Char)
    (h : ordinary seg) : cleanStep rooted acc seg = seg :: acc := by
  obtain ⟨h1, h2, h3, _⟩ := h
  simp [cleanStep, h1, h2, h3]

theorem cleanStep_nil (rooted : Bool) (acc : List (List Char)) :
    cleanStep rooted acc [] = acc := by
  simp [cleanStep]

theorem Stable.tail (rooted : Bool) (a : List Char) (rest : List (List Char))
    (h : Stable rooted (a :: rest)) : Stable rooted rest := h.2

theorem stable_allDots (rest : List (List Char)) (h : ∀ b ∈ rest, b = ['.', '.']) :
    Stable false rest := by
  induction rest with
  | nil => trivial
  | cons a rest ih =>
    exact ⟨Or.inr ⟨h a (List.mem_cons_self _ _), rfl,
        fun b hb => h b (List.mem_cons_of_mem _ hb)⟩,
      ih (fun b hb => h b (List.mem_cons_of_mem _ hb))⟩

theorem cleanStep_stable (rooted : Bool) (acc : List (List Char)) (seg : List Char)
    (h : Stable rooted acc) (hs : '/' ∉ seg) : Stable rooted (cleanStep rooted acc seg) := by
  by_cases h1 : seg = [] ∨ seg = ['.']
  · simp only [cleanStep, h1, if_true]
    exact h
  · by_cases h2 : seg = ['.', '.']
    · simp only [cleanStep, h1, if_false, h2, if_true]
      cases acc with
      | nil =>
        cases rooted with
        | true => exact h
        | false => exact ⟨Or.inr ⟨rfl, rfl, by simp⟩, trivial⟩
      | cons top rest =>
        by_cases ht : top = ['.', '.']
        · simp only [ht, if_true]
          rw [ht] at h
          rcases h.1 with ho | ⟨_, hr, hall⟩
          · exact absurd rfl ho.2.2.1
          · refine ⟨Or.inr ⟨rfl, hr, ?_⟩, h⟩
            intro b hb
            rcases List.mem_cons.mp hb with hb1 | hb1
            · exact hb1
            · exact hall b hb1
        · simp only [ht, if_false]
          exact h.2
    · simp only [cleanStep, h1, if_false, h2]
      refine ⟨Or.inl ⟨?_, ?_, h2, hs⟩, h⟩
      · exact fun e => h1 (Or.inl e)
      · exact fun e => h1 (Or.inr e)

theorem foldl_stable (rooted : Bool) (segs : List (List Char)) (acc : List (List Char))
    (h : Stable rooted acc) (hs : ∀ s ∈ segs, '/' ∉ s) :
    Stable rooted (segs.foldl (cleanStep rooted) acc) := by
  induction segs generalizing acc with
  | nil => exact h
  | cons s rest ih =>
    rw [List.foldl_cons]
    exact ih _ (cleanStep_stable rooted acc s h (hs s (List.mem_cons_self _ _)))
      (fun t ht => hs t (List.mem_cons_of_mem _ ht))

theorem stable_mem (rooted : Bool) (acc : List (List Char)) (h : Stable rooted acc)
    (a : List Char) (ha : a ∈ acc) : a ≠ [] ∧ '/' ∉ a := by
  induction acc with
  | nil => cases ha
  | cons b rest ih =>
    rcases List.mem_cons.mp ha with h1 | h1
    · subst h1
      rcases h.1 with ho | ⟨hd, _, _⟩
      · exact ⟨ho.1, ho.2.2.2⟩
      · rw [hd]
        exact ⟨by simp, by decide⟩
    · exact ih h.2 h1

theorem refold (rooted : Bool) (acc : List (List Char)) (h : Stable rooted acc) :
    acc.reverse.foldl (cleanStep rooted) [] = acc := by
  induction acc with
  | nil => rfl
  | cons a rest ih =>
    rw [List.reverse_cons, List.foldl_append, ih h.2, List.foldl_cons, List.foldl_nil]
    rcases h.1 with ho | ⟨hd, hr, hall⟩
    · exact cleanStep_ordinary rooted rest a ho
    · subst hd
      subst hr
      cases rest with
      | nil => simp [cleanStep]
      | cons top rest2 =>
        have : top = ['.', '.'] := hall top (List.mem_cons_self _ _)
        subst this
        simp [cleanStep]

theorem render_ne_nil (rooted : Bool) (acc : List (List Char)) (h : Stable rooted acc)
    (hne : acc ≠ []) : render rooted acc ≠ [] := by
  cases rooted with
  | true => simp [render]
  | false =>
    cases acc with
    | nil => exact absurd rfl hne
    | cons a rest =>
      have ha := (stable_mem false (a :: rest) h a (List.mem_cons_self _ _)).1
      simp only [render, List.reverse_cons]
      by_cases hr : rest.reverse = []
      · rw [hr, List.nil_append, intercalate_single]
        exact ha
      · rw [intercalate_append_single _ _ hr]
        simp

theorem intercalate_head (segs : List (List Char)) (t : List Char) (h : segs ≠ [])
    (hs : ∀ s ∈ segs, s ≠ [] ∧ '/' ∉ s) :
    (List.intercalate ['/'] segs ++ t).head? ≠ some '/' := by
  cases segs with
  | nil => exact absurd rfl h
  | cons a rest =>
    obtain ⟨ha, hsl⟩ := hs a (List.mem_cons_self _ _)
    cases a with
    | nil => exact absurd rfl ha
    | cons c cs =>
      have hc : c ≠ '/' := fun e => hsl (by rw [e]; exact List.mem_cons_self _ _)
      cases rest with
      | nil =>
        rw [intercalate_single]
        simp only [List.cons_append, List.head?_cons, ne_eq, Option.some.injEq]
        exact hc
      | cons b rest2 =>
        rw [intercalate_cons_cons]
        simp only [List.cons_append, List.head?_cons, ne_eq, Option.some.injEq]
        exact hc

theorem render_rooted (rooted : Bool) (acc : List (List Char)) (t : List Char)
    (h : Stable rooted acc) (hne : acc ≠ []) :
    decide ((render rooted acc ++ t).head? = some '/') = rooted := by
  cases rooted with
  | true => simp [render]
  | false =>
    simp only [render, decide_eq_false_iff_not]
    apply intercalate_head
    · simpa using hne
    · intro s hs
      exact stable_mem false acc h s (List.mem_reverse.mp hs)

theorem splitOnSlash_render (rooted : Bool) (acc : List (List Char)) (seg : List Char)
    (h : Stable rooted acc) (hne : acc ≠ []) (hseg : '/' ∉ seg) :
    (splitOnSlash (render rooted acc ++ '/' :: seg)).foldl (cleanStep rooted) []
      = cleanStep rooted acc seg := by
  have hrev : acc.reverse ≠ [] := by simpa using hne
  have hsl : ∀ s ∈ acc.reverse, '/' ∉ s := fun s hs =>
    (stable_mem rooted acc h s (List.mem_reverse.mp hs)).2
  have hbody : splitOnSlash (List.intercalate ['/'] acc.reverse ++ '/' :: seg)
      = acc.reverse ++ [seg] := by
    rw [splitOnSlash_append, splitOnSlash_intercalate _ hrev hsl, splitOnSlash_noSlash seg hseg]
  cases rooted with
  | true =>
    have : render true acc ++ '/' :: seg
        = [] ++ '/' :: (List.intercalate ['/'] acc.reverse ++ '/' :: seg) := rfl
    rw [this, splitOnSlash_append, hbody]
    have h0 : splitOnSlash [] = [[]] := rfl
    rw [h0, List.singleton_append, List.foldl_cons, cleanStep_nil, List.foldl_append,
      refold true acc h]
    rfl
  | false =>
    have : render false acc ++ '/' :: seg
        = List.intercalate ['/'] acc.reverse ++ '/' :: seg := rfl
    rw [this, hbody, List.foldl_append, refold false acc h]
    rfl

theorem render_cons (rooted : Bool) (acc : List (List Char)) (seg : List Char)
    (hne : acc ≠ []) : render rooted (seg :: acc) = render rooted acc ++ '/' :: seg := by
  have hrev : acc.reverse ≠ [] := by simpa using hne
  cases rooted with
  | true =>
    simp only [render, if_true, List.reverse_cons]
    rw [intercalate_append_single _ _ hrev]
    rfl
  | false =>
    simp only [render, List.reverse_cons]
    rw [intercalate_append_single _ _ hrev]
    rfl

theorem pathClean_eq_render (p : List Char) (hp : p ≠ [])
    (hacc : (splitOnSlash p).foldl (cleanStep (decide (p.head? = some '/'))) [] ≠ []) :
    pathClean p = render (decide (p.head? = some '/'))
      ((splitOnSlash p).foldl (cleanStep (decide (p.head? = some '/'))) []) := by
  have hrev : ((splitOnSlash p).foldl (cleanStep (decide (p.head? = some '/'))) []).reverse
      ≠ [] := by simpa using hacc
  simp only [pathClean, hp, if_false, render, hrev]
  by_cases hr : p.head? = some '/'
  · simp [hr]
  · simp [hr]

theorem pathClean_render_append (rooted : Bool) (acc : List (List Char)) (seg : List Char)
    (h : Stable rooted acc) (hne : acc ≠ []) (hseg : ordinary seg) :
    pathClean (render rooted acc ++ '/' :: seg) = render rooted acc ++ '/' :: seg := by
  have hp : render rooted acc ++ '/' :: seg ≠ [] := by simp
  have hr := render_rooted rooted acc ('/' :: seg) h hne
  have hfold := splitOnSlash_render rooted acc seg h hne hseg.2.2.2
  rw [cleanStep_ordinary rooted acc seg hseg] at hfold
  rw [pathClean_eq_render _ hp (by rw [hr, hfold]; simp), hr, hfold, render_cons rooted acc seg hne]

theorem pathClean_append_seg (x seg : List Char) (hseg : ordinary seg) :
    ∃ rooted acc, Stable rooted acc ∧ acc ≠ [] ∧
      pathClean (x ++ '/' :: seg) = render rooted acc := by
  have hp : x ++ '/' :: seg ≠ [] := by simp
  refine ⟨decide ((x ++ '/' :: seg).head? = some '/'),
    (splitOnSlash (x ++ '/' :: seg)).foldl
      (cleanStep (decide ((x ++ '/' :: seg).head? = some '/'))) [], ?_, ?_, ?_⟩
  · exact foldl_stable _ _ _ trivial (fun s hs => splitOnSlash_mem _ s hs)
  · rw [splitOnSlash_append, splitOnSlash_noSlash seg hseg.2.2.2, List.foldl_append,
      List.foldl_cons, List.foldl_nil, cleanStep_ordinary _ _ seg hseg]
    simp
  · apply pathClean_eq_render _ hp
    rw [splitOnSlash_append, splitOnSlash_noSlash seg hseg.2.2.2, List.foldl_append,
      List.foldl_cons, List.foldl_nil, cleanStep_ordinary _ _ seg hseg]
    simp

theorem pathClean_seg (seg : List Char) (hseg : ordinary seg) :
    ∃ rooted acc, Stable rooted acc ∧ acc ≠ [] ∧ pathClean seg = render rooted acc := by
  refine ⟨false, [seg], ⟨Or.inl hseg, trivial⟩, by simp, ?_⟩
  have hp : seg ≠ [] := hseg.1
  have hh : decide (seg.head? = some '/') = false := by
    cases seg with
    | nil => exact absurd rfl hp
    | cons c cs =>
      have hc : c ≠ '/' := fun e => hseg.2.2.2 (by rw [e]; exact List.mem_cons_self _ _)
      simp [hc]
  have hfold : (splitOnSlash seg).foldl (cleanStep false) [] = [seg] := by
    rw [splitOnSlash_noSlash seg hseg.2.2.2, List.foldl_cons, List.foldl_nil,
      cleanStep_ordinary _ _ seg hseg]
  have := pathClean_eq_render seg hp (by rw [hh, hfold]; simp)
  rw [hh, hfold] at this
  exact this

theorem string_ne_empty (s : String) (h : s.toList ≠ []) : s ≠ "" := by
  intro e
  subst e
  exact h rfl

theorem pathJoin_pair (x seg : String) (hseg : ordinary seg.toList) :
    ∃ rooted acc, Stable rooted acc ∧ acc ≠ [] ∧
      (pathJoin [x, seg]).toList = render rooted acc := by
  have hs : seg ≠ "" := string_ne_empty seg hseg.1
  by_cases hx : x = ""
  · subst hx
    have : pathJoin ["", seg] = String.mk (pathClean seg.toList) := by
      simp [pathJoin, hs, intercalate_single]
    rw [this]
    exact pathClean_seg seg.toList hseg
  · have : pathJoin [x, seg] = String.mk (pathClean (x.toList ++ '/' :: seg.toList)) := by
      simp [pathJoin, hs, hx, List.intercalate]
    rw [this]
    exact pathClean_append_seg x.toList seg.toList hseg

theorem pathJoin_render_seg (p seg : String) (rooted : Bool) (acc : List (List Char))
    (h : Stable rooted acc) (hne : acc ≠ []) (hp : p.toList = render rooted acc)
    (hseg : ordinary seg.toList) : pathJoin [p, seg] = p ++ "/" ++ seg := by
  have hs : seg ≠ "" := string_ne_empty seg hseg.1
  have hpne : p ≠ "" := string_ne_empty p (by rw [hp]; exact render_ne_nil rooted acc h hne)
  have : pathJoin [p, seg] = String.mk (pathClean (p.toList ++ '/' :: seg.toList)) := by
    simp [pathJoin, hs, hpne, List.intercalate]
  rw [this, hp, pathClean_render_append rooted acc seg.toList h hne hseg, ← hp]
  apply String.ext
  simp [String.data_append]

theorem ordinary_safe_ext (name ext : String) (hlen : 3 ≤ ext.toList.length)
    (hsl : '/' ∉ ext.toList) : ordinary (safeName name ++ ext).toList := by
  have hl : (safeName name ++ ext).toList.length
      = (safeName name).toList.length + ext.toList.length := by
    show ((safeName name).toList ++ ext.toList).length = _
    exact List.length_append _ _
  refine ⟨?_, ?_, ?_, ?_⟩
  · intro e
    rw [e] at hl
    simp only [List.length_nil] at hl
    omega
  · intro e
    rw [e] at hl
    simp only [List.length_singleton] at hl
    omega
  · intro e
    rw [e] at hl
    simp only [List.length_cons, List.length_nil] at hl
    omega
  · intro hm
    have hm2 : '/' ∈ (safeName name).toList ++ ext.toList := hm
    rcases List.mem_append.mp hm2 with h1 | h1
    · exact safeName_noSlash name h1
    · exact hsl h1

theorem challengeTokensKey_eq (storageKeyCAPrefix : ACMEManager → String → String)
    (dhs : DistributedSolver) (domain : String) :
    DistributedSolver.challengeTokensKey (libWithPrefix storageKeyCAPrefix) dhs domain
      = DistributedSolver.challengeTokensPrefix (libWithPrefix storageKeyCAPrefix) dhs
        ++ "/" ++ (safeName domain ++ ".json") := by
  have hct : ordinary "challenge_tokens".toList := by
    refine ⟨by decide, by decide, by decide, by decide⟩
  obtain ⟨rooted, acc, hst, hne, hp⟩ :=
    pathJoin_pair (storageKeyCAPrefix dhs.acmeManager dhs.caURL) "challenge_tokens" hct
  exact pathJoin_render_seg _ (safeName domain ++ ".json") rooted acc hst hne hp
    (ordinary_safe_ext domain ".json" (by decide) (by decide))

theorem site_segments (name ext : String) (hlen : 3 ≤ ext.toList.length)
    (hsl : '/' ∉ ext.toList) (hbs : '\\' ∉ ext.toList) :
    splitOnSlash (safeName name ++ "/" ++ safeName name ++ ext).toList
      = [(safeName name).toList, (safeName name ++ ext).toList] ∧
    (safeName name ++ ext).toList ≠ ['.', '.'] ∧
    '\\' ∉ (safeName name ++ ext).toList := by
  have hord := ordinary_safe_ext name ext hlen hsl
  refine ⟨?_, hord.2.2.1, ?_⟩
  · have : (safeName name ++ "/" ++ safeName name ++ ext).toList
        = (safeName name).toList ++ '/' :: (safeName name ++ ext).toList := by
      simp [String.data_append]
    rw [this, splitOnSlash_append, splitOnSlash_noSlash _ (safeName_noSlash name),
      splitOnSlash_noSlash _ hord.2.2.2]
    rfl
  · intro hm
    have hm2 : '\\' ∈ (safeName name).toList ++ ext.toList := hm
    rcases List.mem_append.mp hm2 with h1 | h1
    · exact safeName_noBackslash name h1
    · exact hbs h1

/-- C20 (amended). Storage keys are traversal-safe. For every issuer key and
every name, `SiteCert`, `SitePrivateKey` and `SiteMeta` are
`certificates/<issuer_key>/<safe>/<safe>.crt`, `.key` and `.json` with `<safe>`
the sanitised name. The sanitised name has no path separator, no backslash, no
control character and no `..`; a leading `*` is written `wildcard_`. What
follows `certificates/<issuer_key>/` in a key consists of exactly the two
elements `<safe>` and `<safe>.<ext>`, neither of which is `..` or has a
backslash. The five names of `TestPrefixAndKeyBuilders` give the keys that the
test expects. And `challengeTokensKey(name)` is the challenge-tokens prefix of
the CA followed by the single element `<safe>.json`. -/
theorem storage_keys_confined (issuer name : String)
    (storageKeyCAPrefix : ACMEManager → String → String) (dhs : DistributedSolver) :
    StorageKeys.SiteCert issuer name
      = "certificates/" ++ issuer ++ "/" ++ safeName name ++ "/" ++ safeName name ++ ".crt" ∧
    StorageKeys.SitePrivateKey issuer name
      = "certificates/" ++ issuer ++ "/" ++ safeName name ++ "/" ++ safeName name ++ ".key" ∧
    StorageKeys.SiteMeta issuer name
      = "certificates/" ++ issuer ++ "/" ++ safeName name ++ "/" ++ safeName name ++ ".json" ∧
    '/' ∉ (safeName name).toList ∧ '\\' ∉ (safeName name).toList ∧
    (∀ c ∈ (safeName name).toList, 32 ≤ c.toNat ∧ c.toNat ≠ 127) ∧
    ¬ ['.', '.'] <:+: (safeName name).toList ∧
    (∀ rest, name.toList = '*' :: rest → safeName name
      = "wildcard_" ++ String.mk (dropDotDot ((rest.map Char.toLower).filter keptChar))) ∧
    (∀ ext ∈ [".crt", ".key", ".json"],
      splitOnSlash (safeName name ++ "/" ++ safeName name ++ ext).toList
        = [(safeName name).toList, (safeName name ++ ext).toList] ∧
      (safeName name ++ ext).toList ≠ ['.', '.'] ∧
      '\\' ∉ (safeName name ++ ext).toList) ∧
    (∀ t ∈ keyTestCases,
      StorageKeys.SiteCert (issuerKey keyTestManager.CA) t.1 = t.2.1 ∧
      StorageKeys.SitePrivateKey (issuerKey keyTestManager.CA) t.1 = t.2.2.1 ∧
      StorageKeys.SiteMeta (issuerKey keyTestManager.CA) t.1 = t.2.2.2) ∧
    DistributedSolver.challengeTokensKey (libWithPrefix storageKeyCAPrefix) dhs name
      = DistributedSolver.challengeTokensPrefix (libWithPrefix storageKeyCAPrefix) dhs
        ++ "/" ++ (safeName name ++ ".json") := by
  refine ⟨?_, ?_, ?_, safeName_noSlash name, safeName_noBackslash name,
    safeName_noControl name, safeName_noDotDot name, safeName_wildcard name, ?_, by decide,
    challengeTokensKey_eq storageKeyCAPrefix dhs name⟩
  · apply String.ext
    simp [StorageKeys.SiteCert, StorageKeys.CertsSitePrefix, String.data_append]
  · apply String.ext
    simp [StorageKeys.SitePrivateKey, StorageKeys.CertsSitePrefix, String.data_append]
  · apply String.ext
    simp [StorageKeys.SiteMeta, StorageKeys.CertsSitePrefix, String.data_append]
  · intro ext hext
    simp only [List.mem_cons, List.mem_singleton, List.not_mem_nil, or_false] at hext
    rcases hext with h | h | h <;> subst h <;>
      exact site_segments name _ (by decide) (by decide) (by decide)

/-- C20 as stated fails. With a leading `*.` replaced by `wildcard_`, the name
`*.example.com` becomes `wildcard_example.com`, whereas
`TestPrefixAndKeyBuilders` expects the keys of `wildcard_.example.com`: only
the `*` is replaced. -/
theorem storage_keys_counterexample :
    safeNameStarDot "*.example.com" = "wildcard_example.com" ∧
    safeName "*.example.com" = "wildcard_.example.com" ∧
    keyTestCases.lookup "*.example.com"
      = some ("certificates/example.com-acme-ca-directory/wildcard_.example.com/wildcard_.example.com.crt",
        "certificates/example.com-acme-ca-directory/wildcard_.example.com/wildcard_.example.com.key",
        "certificates/example.com-acme-ca-directory/wildcard_.example.com/wildcard_.example.com.json") ∧
    "certificates/" ++ issuerKey keyTestManager.CA ++ "/" ++ safeNameStarDot "*.example.com"
        ++ "/" ++ safeNameStarDot "*.example.com" ++ ".crt"
      = "certificates/example.com-acme-ca-directory/wildcard_example.com/wildcard_example.com.crt" := by
  refine ⟨by decide, by decide, by decide, by decide⟩

/-! ## The job queue: order, worker cap, progress -/

theorem step_fifo (s s1 : Sys) (e : Event) (h : s.step e = some s1) :
    s1.started ++ s1.jm.queue = s.started ++ s.jm.queue ++ s.appendedBy e := by
  cases e with
  | submit name job =>
    simp only [Sys.step, Option.some.injEq] at h
    subst h
    by_cases hdup : name ≠ "" ∧ name ∈ s.jm.names
    · simp only [Submit_dup _ _ _ hdup, Sys.appendedBy, JobManager.appended]
      rw [if_pos hdup, List.append_nil]
    · simp only [Submit_queue _ _ _ hdup, Sys.appendedBy, JobManager.appended]
      rw [if_neg hdup, List.append_assoc]
  | workerLoop =>
    simp only [Sys.step] at h
    split at h
    · simp at h
    · cases hq : s.jm.queue with
      | nil =>
        simp only [JobManager.workerHead, hq, Option.some.injEq] at h
        subst h
        simp [hq, Sys.appendedBy]
      | cons next rest =>
        simp only [JobManager.workerHead, hq, Option.some.injEq] at h
        subst h
        simp [Sys.appendedBy]
  | finish i =>
    simp only [Sys.step] at h
    cases hr : s.running[i]? with
    | none => simp [hr] at h
    | some next =>
      simp only [hr, Option.some.injEq] at h
      subst h
      simp [workerRelease_queue, Sys.appendedBy]

theorem accepted_cons (s s1 : Sys) (e : Event) (es : List Event) (h : s.step e = some s1) :
    s.accepted (e :: es) = s.appendedBy e ++ s1.accepted es := by
  simp only [Sys.accepted, h]

theorem run_fifo (es : List Event) (s s' : Sys) (h : s.run es = some s') :
    s'.started ++ s'.jm.queue = s.started ++ s.jm.queue ++ s.accepted es := by
  induction es generalizing s with
  | nil =>
    simp only [Sys.run, Option.some.injEq] at h
    subst h
    simp [Sys.accepted]
  | cons e es ih =>
    simp only [Sys.run] at h
    cases hs : s.step e with
    | none => simp [hs] at h
    | some s1 =>
      simp only [hs, Option.some_bind] at h
      rw [ih s1 h, step_fifo s s1 e hs, accepted_cons s s1 e es hs]
      simp only [List.append_assoc]

theorem step_cap (s s' : Sys) (e : Event)
    (hinv : s.jm.activeWorkers ≤ s.jm.maxConcurrentJobs) (h : s.step e = some s') :
    s'.jm.activeWorkers ≤ s'.jm.maxConcurrentJobs := by
  cases e with
  | submit name job =>
    simp only [Sys.step, Option.some.injEq] at h
    subst h
    by_cases hdup : name ≠ "" ∧ name ∈ s.jm.names
    · simp only [Submit_dup _ _ _ hdup]
      exact hinv
    · by_cases hlt : s.jm.activeWorkers < s.jm.maxConcurrentJobs
      · simp only [JobManager.Submit, hdup, hlt, if_false, if_true]
        omega
      · simp only [JobManager.Submit, hdup, hlt, if_false]
        exact hinv
  | workerLoop =>
    simp only [Sys.step] at h
    split at h
    · simp at h
    · cases hq : s.jm.queue with
      | nil =>
        simp only [JobManager.workerHead, hq, Option.some.injEq] at h
        subst h
        simp only
        omega
      | cons next rest =>
        simp only [JobManager.workerHead, hq, Option.some.injEq] at h
        subst h
        exact hinv
  | finish i =>
    simp only [Sys.step] at h
    cases hr : s.running[i]? with
    | none => simp [hr] at h
    | some next =>
      simp only [hr, Option.some.injEq] at h
      subst h
      simp only [JobManager.workerRelease]
      split
      · exact hinv
      · exact hinv

theorem run_cap (es : List Event) (s s' : Sys)
    (hinv : s.jm.activeWorkers ≤ s.jm.maxConcurrentJobs) (h : s.run es = some s') :
    s'.jm.activeWorkers ≤ s'.jm.maxConcurrentJobs := by
  induction es generalizing s with
  | nil =>
    simp only [Sys.run, Option.some.injEq] at h
    subst h
    exact hinv
  | cons e es ih =>
    simp only [Sys.run] at h
    cases hs : s.step e with
    | none => simp [hs] at h
    | some s1 =>
      simp only [hs, Option.some_bind] at h
      exact ih s1 (step_cap s s1 e hinv hs) h

/-- With room for one worker only, a job is started when the one before it has
finished. -/
theorem step_serial (s s' : Sys) (e : Event) (hw : WorkersInv s)
    (hcap : s.jm.activeWorkers ≤ 1) (hinv : s.started = s.finished ++ s.running)
    (h : s.step e = some s') : s'.started = s'.finished ++ s'.running := by
  have hlive : s.idle + s.running.length ≤ 1 := by
    have := hw.1
    omega
  cases e with
  | submit name job =>
    simp only [Sys.step, Option.some.injEq] at h
    subst h
    exact hinv
  | workerLoop =>
    simp only [Sys.step] at h
    split at h
    · simp at h
    · rename_i hidle
      have hrun : s.running = [] := List.length_eq_zero.mp (by omega)
      cases hq : s.jm.queue with
      | nil =>
        simp only [JobManager.workerHead, hq, Option.some.injEq] at h
        subst h
        exact hinv
      | cons next rest =>
        simp only [JobManager.workerHead, hq, Option.some.injEq] at h
        subst h
        simp only [hinv, hrun, List.append_nil, List.nil_append]
  | finish i =>
    simp only [Sys.step] at h
    cases hr : s.running[i]? with
    | none => simp [hr] at h
    | some next =>
      simp only [hr, Option.some.injEq] at h
      subst h
      cases hrun : s.running with
      | nil => simp [hrun] at hr
      | cons r rs =>
        have hrs : rs = [] := List.length_eq_zero.mp (by rw [hrun] at hlive; simp at hlive; omega)
        subst hrs
        cases i with
        | zero =>
          simp only [hrun, List.getElem?_cons_zero, Option.some.injEq] at hr
          subst hr
          simp [hinv, hrun]
        | succ j => simp [hrun] at hr

theorem run_serial (es : List Event) (s s' : Sys) (hw : WorkersInv s)
    (hcap : s.jm.activeWorkers ≤ s.jm.maxConcurrentJobs) (hone : s.jm.maxConcurrentJobs ≤ 1)
    (hinv : s.started = s.finished ++ s.running) (h : s.run es = some s') :
    s'.started = s'.finished ++ s'.running := by
  induction es generalizing s with
  | nil =>
    simp only [Sys.run, Option.some.injEq] at h
    subst h
    exact hinv
  | cons e es ih =>
    simp only [Sys.run] at h
    cases hs : s.step e with
    | none => simp [hs] at h
    | some s1 =>
      simp only [hs, Option.some_bind] at h
      exact ih s1 (workersInv_step s s1 e hw hs) (step_cap s s1 e hcap hs)
        (by rw [step_maxConcurrentJobs s s1 e hs]; exact hone)
        (step_serial s s1 e hw (by omega) hinv hs) h

/-- C21. The job queue is first in, first out. In every state reachable from
the empty manager, the entries dequeued so far followed by the entries still
queued are exactly the entries of the accepted `Submit` calls, in the order of
the calls: a `Submit` leaves the queue alone or appends at its tail, and a
worker takes the head. With `maxConcurrentJobs = 1` at most one job is running
at any time and every started job but the running one has finished, so the
jobs run one at a time in the order of their submission. -/
theorem fifo_queue (m : Int) (es : List Event) (s : Sys)
    (h : (Sys.init m).run es = some s) :
    s.started ++ s.jm.queue = (Sys.init m).accepted es ∧
    (∀ name job, (s.jm.Submit name job).1.queue = s.jm.queue ++ s.jm.appended name job) ∧
    (∀ next rest, s.jm.queue = next :: rest →
      s.jm.workerHead = ({ s.jm with queue := rest }, some next)) ∧
    (m = 1 → s.running.length ≤ 1 ∧ s.started = s.finished ++ s.running) := by
  refine ⟨?_, ?_, ?_, ?_⟩
  · have := run_fifo es _ s h
    simpa [Sys.init] using this
  · intro name job
    by_cases hdup : name ≠ "" ∧ name ∈ s.jm.names
    · simp only [Submit_dup _ _ _ hdup, JobManager.appended]
      rw [if_pos hdup, List.append_nil]
    · simp only [Submit_queue _ _ _ hdup, JobManager.appended]
      rw [if_neg hdup]
  · intro next rest hq
    simp only [JobManager.workerHead, hq]
  · intro hm
    subst hm
    have hw := workersInv_run es _ s (workersInv_init 1) h
    have hcap := run_cap es _ s (by simp [Sys.init]) h
    have hmax : s.jm.maxConcurrentJobs = 1 := by
      rw [run_maxConcurrentJobs es _ s h]
      rfl
    constructor
    · have := hw.1
      omega
    · exact run_serial es _ s (workersInv_init 1) (by simp [Sys.init]) (by simp [Sys.init])
        (by simp [Sys.init]) h

theorem fifo_queue_witness :
    (Sys.init 1).run twoJobs = some afterTwoJobs ∧
    afterTwoJobs.started ++ afterTwoJobs.jm.queue = (Sys.init 1).accepted twoJobs ∧
    afterTwoJobs.started = [⟨"renew:a", 1⟩, ⟨"renew:b", 2⟩] ∧
    afterTwoJobs.running.length ≤ 1 ∧
    afterTwoJobs.started = afterTwoJobs.finished ++ afterTwoJobs.running :=
  ⟨rfl, (fifo_queue 1 twoJobs afterTwoJobs rfl).1, by decide,
    ((fifo_queue 1 twoJobs afterTwoJobs rfl).2.2.2 rfl).1,
    ((fifo_queue 1 twoJobs afterTwoJobs rfl).2.2.2 rfl).2⟩

/-- C22. The worker cap. In every state reachable from the empty manager with a
cap `m ≥ 0` (1000 for the package-level manager), `0 ≤ activeWorkers ≤
maxConcurrentJobs = m`, and `activeWorkers` is the number of live worker
goroutines. `Submit` starts a worker exactly when it enqueues the job and
`activeWorkers < maxConcurrentJobs`, and then adds one to `activeWorkers`. A
worker subtracts one from `activeWorkers` exactly when it finds the queue
empty, and then returns; taking a job and releasing its name leave
`activeWorkers` as it is. -/
theorem worker_cap (m : Int) (es : List Event) (s : Sys) (hm : 0 ≤ m)
    (h : (Sys.init m).run es = some s) :
    0 ≤ s.jm.activeWorkers ∧ s.jm.activeWorkers ≤ s.jm.maxConcurrentJobs ∧
    s.jm.maxConcurrentJobs = m ∧
    s.jm.activeWorkers = s.idle + s.running.length ∧
    (∀ name job, ((s.jm.Submit name job).2 = true ↔
        ¬ (name ≠ "" ∧ name ∈ s.jm.names) ∧ s.jm.activeWorkers < s.jm.maxConcurrentJobs) ∧
      (s.jm.Submit name job).1.activeWorkers
        = if (s.jm.Submit name job).2 then s.jm.activeWorkers + 1 else s.jm.activeWorkers) ∧
    (s.jm.queue = [] →
      s.jm.workerHead.2 = none ∧ s.jm.workerHead.1.activeWorkers = s.jm.activeWorkers - 1) ∧
    (s.jm.queue ≠ [] →
      s.jm.workerHead.2 = s.jm.queue.head? ∧
      s.jm.workerHead.1.activeWorkers = s.jm.activeWorkers) ∧
    (∀ next, (s.jm.workerRelease next).activeWorkers = s.jm.activeWorkers) := by
  have hw := workersInv_run es _ s (workersInv_init m) h
  have hcap := run_cap es _ s (by simpa [Sys.init] using hm) h
  have hmax : s.jm.maxConcurrentJobs = m := by
    rw [run_maxConcurrentJobs es _ s h]
    rfl
  refine ⟨by have := hw.1; omega, hcap, hmax, hw.1, ?_, ?_, ?_, ?_⟩
  · intro name job
    by_cases hdup : name ≠ "" ∧ name ∈ s.jm.names
    · simp [Submit_dup _ _ _ hdup, hdup]
    · by_cases hlt : s.jm.activeWorkers < s.jm.maxConcurrentJobs
      · simp [JobManager.Submit, hdup, hlt]
      · simp [JobManager.Submit, hdup, hlt]
  · intro hq
    simp [JobManager.workerHead, hq]
  · intro hq
    cases hq2 : s.jm.queue with
    | nil => exact absurd hq2 hq
    | cons next rest => simp [JobManager.workerHead, hq2]
  · intro next
    simp only [JobManager.workerRelease]
    split <;> rfl

theorem worker_cap_witness :
    (0 : Int) ≤ 1000 ∧ jobmanager.run threeSubmits = some afterThreeSubmits ∧
    0 ≤ afterThreeSubmits.jm.activeWorkers ∧
    afterThreeSubmits.jm.activeWorkers ≤ afterThreeSubmits.jm.maxConcurrentJobs ∧
    afterThreeSubmits.jm.maxConcurrentJobs = 1000 :=
  ⟨by decide, rfl,
    (worker_cap 1000 threeSubmits afterThreeSubmits (by decide) rfl).1,
    (worker_cap 1000 threeSubmits afterThreeSubmits (by decide) rfl).2.1,
    (worker_cap 1000 threeSubmits afterThreeSubmits (by decide) rfl).2.2.1⟩

/-- With a positive cap the workers can always empty the queue: from any state
there is a schedule of worker events after which every queued entry has been
started, in the order of the queue. -/
theorem drainAll :
    ∀ (k : Nat) (s : Sys), s.jm.queue.length = k → WorkersInv s →
      1 ≤ s.jm.maxConcurrentJobs →
      ∃ es s', (∀ e ∈ es, e.isWorker = true) ∧ s.run es = some s' ∧
        s'.jm.queue = [] ∧ s'.started = s.started ++ s.jm.queue := by
  intro k
  induction k with
  | zero =>
    intro s hk _ _
    have hq : s.jm.queue = [] := List.length_eq_zero.mp hk
    exact ⟨[], s, by simp, rfl, hq, by simp [hq]⟩
  | succ k ih =>
    intro s hk hinv hm
    cases hq : s.jm.queue with
    | nil => simp [hq] at hk
    | cons next rest =>
      have hrest : rest.length = k := by simpa [hq] using hk
      have hidle : ∃ es0 s0, (∀ e ∈ es0, e.isWorker = true) ∧ s.run es0 = some s0 ∧
          s0.jm.queue = s.jm.queue ∧ s0.started = s.started ∧ s0.idle ≠ 0 := by
        by_cases h0 : s.idle = 0
        · have haw := hinv.2 hm (by simp [hq])
          have hlen : 0 < s.running.length := by
            have := hinv.1
            rw [h0] at this
            omega
          cases hr : s.running with
          | nil => simp [hr] at hlen
          | cons r rs =>
            refine ⟨[.finish 0],
              { s with
                jm := s.jm.workerRelease r
                idle := s.idle + 1
                running := s.running.eraseIdx 0
                finished := s.finished ++ [r] },
              by simp [Event.isWorker], ?_, ?_, ?_, ?_⟩
            · simp only [Sys.run, Sys.step, hr, List.getElem?_cons_zero, Option.some_bind]
            · simp only [workerRelease_queue]
            · rfl
            · simp
        · exact ⟨[], s, by simp, rfl, rfl, rfl, h0⟩
      obtain ⟨es0, s0, hw0, hrun0, hq0, hst0, hid0⟩ := hidle
      have hinv0 := workersInv_run es0 s s0 hinv hrun0
      have hm0 : 1 ≤ s0.jm.maxConcurrentJobs := by
        rw [run_maxConcurrentJobs es0 s s0 hrun0]; exact hm
      have hstep : s0.step .workerLoop = some { s0 with
          jm := { s0.jm with queue := rest }, idle := s0.idle - 1,
          running := s0.running ++ [next], started := s0.started ++ [next] } := by
        simp only [Sys.step, hid0, if_false, JobManager.workerHead, hq0, hq]
      have hinv1 := workersInv_step _ _ _ hinv0 hstep
      obtain ⟨es2, s2, hw2, hrun2, hq2, hst2⟩ := ih _ hrest hinv1 hm0
      refine ⟨es0 ++ (.workerLoop :: es2), s2, ?_, ?_, hq2, ?_⟩
      · intro e he
        rcases List.mem_append.mp he with h | h
        · exact hw0 e h
        · rcases List.mem_cons.mp h with h | h
          · rw [h]; rfl
          · exact hw2 e h
      · apply run_append es0 _ s s0 s2 hrun0
        simp only [Sys.run, hstep, Option.some_bind]
        exact hrun2
      · rw [hst2]
        simp [hst0]

/-- C28. No accepted job is stranded. In every state reachable from the empty
manager with `maxConcurrentJobs ≥ 1`, a non-empty queue comes with
`activeWorkers ≥ 1`, and `activeWorkers` counts live workers: one of them is at
the head of its loop or running a job. So the workers alone can go on to a
state in which the queue is empty and every entry that was queued has been
started, in queue order. -/
theorem no_stranded_job (m : Int) (es : List Event) (s : Sys) (hm : 1 ≤ m)
    (h : (Sys.init m).run es = some s) :
    (s.jm.queue ≠ [] → 1 ≤ s.jm.activeWorkers ∧ 1 ≤ s.idle + s.running.length) ∧
    (∃ ws s', (∀ e ∈ ws, e.isWorker = true) ∧ s.run ws = some s' ∧
      s'.jm.queue = [] ∧ s'.started = s.started ++ s.jm.queue) := by
  have hw := workersInv_run es _ s (workersInv_init m) h
  have hmax : 1 ≤ s.jm.maxConcurrentJobs := by
    rw [run_maxConcurrentJobs es _ s h]
    exact hm
  constructor
  · intro hq
    have h1 := hw.2 hmax hq
    have h2 := hw.1
    exact ⟨h1, by omega⟩
  · exact drainAll _ s rfl hw hmax

theorem no_stranded_job_witness :
    (1 : Int) ≤ 1000 ∧ jobmanager.run threeSubmits = some afterThreeSubmits ∧
    afterThreeSubmits.jm.queue ≠ [] ∧
    (afterThreeSubmits.jm.queue ≠ [] →
      1 ≤ afterThreeSubmits.jm.activeWorkers ∧
      1 ≤ afterThreeSubmits.idle + afterThreeSubmits.running.length) :=
  ⟨by decide, rfl, by decide,
    (no_stranded_job 1000 threeSubmits afterThreeSubmits (by decide) rfl).1⟩

/-! ## The attempt counter of `doWithRetry` -/

theorem counted_snoc (calls : List CallRecord) (h : Counted calls) :
    Counted (calls ++ [⟨(calls.length : Int), (calls.length : Int), (calls.length : Int) + 1⟩]) := by
  intro k hk
  simp only [List.length_append, List.length_singleton] at hk
  rcases Nat.lt_or_ge k calls.length with hlt | hge
  · rw [List.getElem?_append_left hlt]
    exact h k hlt
  · have hk2 : k = calls.length := by omega
    subst hk2
    simp

theorem counterLoop_counted (env : CounterEnv) (hro : ∀ i v, (env.f i v).2 = v) :
    ∀ (fuel i : Nat) (intervalIndex : Int) (err : Option GoError) (calls : List CallRecord),
      Counted calls →
      Counted (counterLoop env fuel i (calls.length : Int) intervalIndex err calls).calls ∧
      (counterLoop env fuel i (calls.length : Int) intervalIndex err calls).attempts
        = ((counterLoop env fuel i (calls.length : Int) intervalIndex err calls).calls.length
            : Int) := by
  intro fuel
  induction fuel with
  | zero =>
    intro i intervalIndex err calls hc
    exact ⟨hc, rfl⟩
  | succ fuel ih =>
    intro i intervalIndex err calls hc
    have hsn := counted_snoc calls hc
    have hlen : ((calls ++ [(⟨(calls.length : Int), (calls.length : Int),
        (calls.length : Int) + 1⟩ : CallRecord)]).length : Int) = (calls.length : Int) + 1 := by
      simp
    rw [counterLoop]
    simp only [hro]
    split
    · split
      · exact ⟨hc, rfl⟩
      · split
        · exact ⟨hc, rfl⟩
        · split
          · exact ⟨hsn, hlen.symm⟩
          · split
            · exact ⟨hsn, hlen.symm⟩
            · split
              · exact ⟨hsn, hlen.symm⟩
              · split
                · split
                  · exact ⟨hsn, hlen.symm⟩
                  · have hnext := ih (i + 1)
                      (if intervalIndex < (retryIntervals.length : Int) - 1 then intervalIndex + 1
                        else intervalIndex) (some ‹GoError›) _ hsn
                    rw [hlen] at hnext
                    exact hnext
                · exact ⟨hsn, hlen.symm⟩
    · exact ⟨hc, rfl⟩

/-- The two embeddings of `doWithRetry` agree for an operation that only reads
the counter: same outcome, same number of calls of `f`. -/
theorem counterLoop_agrees (env : RetryEnv) :
    ∀ (fuel i : Nat) (intervalIndex : Int) (err : Option GoError) (calls : List CallRecord)
      (waits : List Int),
      (counterLoop env.reading fuel i (i : Int) intervalIndex err calls).outcome
        = (retryLoop env fuel i intervalIndex err waits).outcome ∧
      (counterLoop env.reading fuel i (i : Int) intervalIndex err calls).attempts
        = ((retryLoop env fuel i intervalIndex err waits).attempts : Int) := by
  intro fuel
  induction fuel with
  | zero =>
    intro i intervalIndex err calls waits
    exact ⟨rfl, rfl⟩
  | succ fuel ih =>
    intro i intervalIndex err calls waits
    rw [counterLoop, retryLoop]
    simp only [RetryEnv.reading]
    by_cases h1 : env.sinceHead i < maxRetryDuration
    · simp only [h1, if_true]
      cases h2 : (if 0 ≤ intervalIndex then retryIntervalAt intervalIndex else some 0) with
      | none => exact ⟨rfl, rfl⟩
      | some wait =>
        simp only []
        cases h3 : env.ctxDone i with
        | true => exact ⟨rfl, rfl⟩
        | false =>
          simp only [Bool.false_eq_true, if_false]
          cases h4 : env.f i with
          | none => exact ⟨rfl, by simp⟩
          | some e =>
            simp only []
            cases h5 : e.isCanceled with
            | true => exact ⟨rfl, by simp⟩
            | false =>
              simp only [Bool.false_eq_true, if_false]
              cases h6 : e.asNoRetry with
              | true => exact ⟨rfl, by simp⟩
              | false =>
                simp only [Bool.false_eq_true, if_false]
                by_cases h7 : env.sinceTail i < maxRetryDuration
                · simp only [h7, if_true]
                  cases h8 : retryIntervalAt (if intervalIndex < (retryIntervals.length : Int) - 1
                      then intervalIndex + 1 else intervalIndex) with
                  | none => exact ⟨rfl, by simp⟩
                  | some w =>
                    simp only []
                    have := ih (i + 1) (if intervalIndex < (retryIntervals.length : Int) - 1
                      then intervalIndex + 1 else intervalIndex) (some e)
                      (calls ++ [⟨(i : Int), (i : Int), (i : Int) + 1⟩]) (waits ++ [wait])
                    simpa using this
                · simp [h7]
    · simp [h1]

/-- C23. The attempt counter seen through the context. `doWithRetry` stores
`&attempts` under `AttemptsCtxKey` and adds one after every call of `f`. For an
`f` that does not write through that pointer: during call number `k` of `f`
(counted from 1) the counter holds `k - 1`, on entry and on return, so `0` means
first attempt; after the increment that follows the call it holds `k`, the
number of completed calls; and the final value of `attempts` is the number of
calls made. -/
theorem attempts_counter (env : CounterEnv) (fuel : Nat)
    (hro : ∀ i v, (env.f i v).2 = v) :
    (∀ k, 1 ≤ k → k ≤ (doWithRetryCounted env fuel).calls.length →
      (doWithRetryCounted env fuel).calls[k - 1]?
        = some ⟨(k : Int) - 1, (k : Int) - 1, (k : Int)⟩) ∧
    (doWithRetryCounted env fuel).attempts
      = ((doWithRetryCounted env fuel).calls.length : Int) := by
  have h := counterLoop_counted env hro fuel 0 (-1) none [] (by intro k hk; simp at hk)
  constructor
  · intro k hk1 hk2
    have := h.1 (k - 1) (by 
      show k - 1 < (doWithRetryCounted env fuel).calls.length
      omega)
    have hcast : ((k - 1 : Nat) : Int) = (k : Int) - 1 := by omega
    rw [hcast] at this
    simpa using this
  · exact h.2

theorem attempts_counter_witness :
    (∀ i v, (thirdTimeLucky.f i v).2 = v) ∧
    (doWithRetryCounted thirdTimeLucky 5).calls = [⟨0, 0, 1⟩, ⟨1, 1, 2⟩, ⟨2, 2, 3⟩] ∧
    (doWithRetryCounted thirdTimeLucky 5).outcome = .returned none ∧
    (doWithRetryCounted thirdTimeLucky 5).calls[3 - 1]? = some ⟨(3 : Int) - 1, (3 : Int) - 1, 3⟩ ∧
    (doWithRetryCounted thirdTimeLucky 5).attempts
      = ((doWithRetryCounted thirdTimeLucky 5).calls.length : Int) :=
  ⟨fun _ _ => rfl, by decide, by decide,
    ((attempts_counter thirdTimeLucky 5 (fun _ _ => rfl)).1 3 (by decide) (by decide)),
    (attempts_counter thirdTimeLucky 5 (fun _ _ => rfl)).2⟩

/-! ## `Present` and the solver table -/

theorem presentAt_listening (w : SolverWorld) (a : String) (tls : Bool)
    (net : Nat → ListenAttempt)
    (si : SolverInfo) (ln : Nat) (hs : w.solvers a = some si) (hl : si.listener = some ln) :
    w.presentAt a tls net =
      ({ w with solvers := Function.update w.solvers a (some { si with count := si.count + 1 }) },
        none) := by
  simp [SolverWorld.presentAt, SolverWorld.getSolverInfo, hs, hl]

theorem presentAt_solvers_eq (w w' : SolverWorld) (a : String) (tls : Bool)
    (net : Nat → ListenAttempt)
    (hs : w'.solvers = w.solvers) (hn : w'.nextListener = w.nextListener) :
    (w'.presentAt a tls net).1.solvers = (w.presentAt a tls net).1.solvers ∧
    (w'.presentAt a tls net).2 = (w.presentAt a tls net).2 := by
  simp only [SolverWorld.presentAt, SolverWorld.getSolverInfo, hs, hn]
  cases h : w.solvers a with
  | none =>
    simp only []
    cases hr : (robustTryListen a net).1 <;> simp [hr, hs, hn]
  | some si =>
    simp only []
    cases hl : si.listener with
    | some ln => simp [hs]
    | none =>
      simp only [ne_eq, not_true_eq_false, if_false]
      cases hr : (robustTryListen a net).1 <;> simp [hr, hs, hn]

theorem presentAt_unbound (w : SolverWorld) (a : String) (tls : Bool)
    (net : Nat → ListenAttempt)
    (hl : (w.getSolverInfo a).2.listener = none) :
    (w.presentAt a tls net).1.listenCalls = w.listenCalls + (robustTryListen a net).2.1 ∧
    (w.presentAt a tls net).1.dialCalls = w.dialCalls + (robustTryListen a net).2.2 ∧
    ((robustTryListen a net).1 = .bound →
      (w.presentAt a tls net).1.serversStarted = w.serversStarted + 1 ∧
      (w.presentAt a tls net).2 = none ∧
      (w.presentAt a tls net).1.solvers a = some { (w.getSolverInfo a).2 with
        count := (w.getSolverInfo a).2.count + 1, listener := some w.nextListener }) ∧
    ((robustTryListen a net).1 = .nothing →
      (w.presentAt a tls net).1.serversStarted = w.serversStarted ∧
      (w.presentAt a tls net).2 = none ∧
      (w.presentAt a tls net).1.solvers a = some { (w.getSolverInfo a).2 with
        count := (w.getSolverInfo a).2.count + 1 }) ∧
    (∀ msg, (robustTryListen a net).1 = .failed msg →
      (w.presentAt a tls net).1.serversStarted = w.serversStarted ∧
      (w.presentAt a tls net).2 = some (.plain msg) ∧
      (w.presentAt a tls net).1.solvers a = some { (w.getSolverInfo a).2 with
        count := (w.getSolverInfo a).2.count + 1 }) := by
  rw [getSolverInfo_snd] at hl
  simp only [getSolverInfo_snd]
  cases h : w.solvers a with
  | none =>
    simp only [SolverWorld.presentAt, SolverWorld.getSolverInfo, h]
    cases hr : (robustTryListen a net).1 <;> simp [hr]
  | some si =>
    rw [h] at hl
    have hl2 : si.listener = none := hl
    simp only [SolverWorld.presentAt, SolverWorld.getSolverInfo, h, hl2]
    cases hr : (robustTryListen a net).1 <;> simp [hr, hl2]

theorem robustTryListen_listens (a : String) (net : Nat → ListenAttempt) :
    1 ≤ (robustTryListen a net).2.1 := by
  simp only [robustTryListen, robustTryListenLoop]
  split
  · simp
  · split
    · simp
    · split
      · simp
      · split
        · simp
        · split
          · simp
          · split
            · simp
            · simp

theorem presentAt_keeps (w : SolverWorld) (a b : String) (tls : Bool)
    (net : Nat → ListenAttempt)
    (h : w.solvers a ≠ none) : (w.presentAt b tls net).1.solvers a ≠ none := by
  obtain ⟨si', e1, _⟩ := presentAt_effect w b tls net
  rw [e1]
  by_cases hab : a = b
  · subst hab
    simp
  · rw [Function.update_noteq hab]
    exact h

theorem tlsPresent_eq (t : TlsALPNSolver) (w : SolverWorld) (domain token keyAuth : String)
    (c : Nat) (hash : String) (net : Nat → ListenAttempt) :
    t.Present w domain token keyAuth (.ok c) hash net
      = (w.withChallengeCert t domain c hash).presentAt t.address true net := rfl

/-- C24 (amended). Only the caller that binds starts a server. When `Present`
of an HTTP or TLS-ALPN solver finds a record with a listener for its address,
it only adds one to the count: no call of `net.Listen`, no dial, no server
started, no socket opened, and it returns `nil`. When it finds no record or a
record without listener, whatever the count, it calls `robustTryListen`, which
makes at least one listen attempt, and starts a server exactly when a socket
was bound. -/
theorem only_the_binder_binds (w : SolverWorld) (net : Nat → ListenAttempt)
    (s : HttpSolver) (t : TlsALPNSolver) (domain token keyAuth hash : String) (c : Nat) :
    (∀ si ln, w.solvers s.address = some si → si.listener = some ln →
      s.Present w domain token keyAuth net =
        ({ w with
            solvers := Function.update w.solvers s.address
              (some { si with count := si.count + 1 }) }, none)) ∧
    (∀ si ln, w.solvers t.address = some si → si.listener = some ln →
      (t.Present w domain token keyAuth (.ok c) hash net).2 = none ∧
      (t.Present w domain token keyAuth (.ok c) hash net).1.solvers
        = Function.update w.solvers t.address (some { si with count := si.count + 1 }) ∧
      (t.Present w domain token keyAuth (.ok c) hash net).1.listenCalls = w.listenCalls ∧
      (t.Present w domain token keyAuth (.ok c) hash net).1.dialCalls = w.dialCalls ∧
      (t.Present w domain token keyAuth (.ok c) hash net).1.serversStarted = w.serversStarted ∧
      (t.Present w domain token keyAuth (.ok c) hash net).1.opened = w.opened) ∧
    ((w.getSolverInfo s.address).2.listener = none →
      (s.Present w domain token keyAuth net).1.listenCalls
        = w.listenCalls + (robustTryListen s.address net).2.1 ∧
      1 ≤ (robustTryListen s.address net).2.1 ∧
      (s.Present w domain token keyAuth net).1.serversStarted
        = w.serversStarted + if (robustTryListen s.address net).1 = .bound then 1 else 0) ∧
    ((w.getSolverInfo t.address).2.listener = none →
      (t.Present w domain token keyAuth (.ok c) hash net).1.listenCalls
        = w.listenCalls + (robustTryListen t.address net).2.1 ∧
      1 ≤ (robustTryListen t.address net).2.1 ∧
      (t.Present w domain token keyAuth (.ok c) hash net).1.serversStarted
        = w.serversStarted + if (robustTryListen t.address net).1 = .bound then 1 else 0) := by
  refine ⟨?_, ?_, ?_, ?_⟩
  · intro si ln hs hl
    exact presentAt_listening w s.address false net si ln hs hl
  · intro si ln hs hl
    rw [tlsPresent_eq, presentAt_listening (w.withChallengeCert t domain c hash) t.address true net
      si ln hs hl]
    exact ⟨rfl, rfl, rfl, rfl, rfl, rfl⟩
  · intro hl
    obtain ⟨h1, _, h3, h4, h5⟩ := presentAt_unbound w s.address false net hl
    refine ⟨h1, robustTryListen_listens _ _, ?_⟩
    simp only [HttpSolver.Present]
    cases hr : (robustTryListen s.address net).1 with
    | bound => simpa using (h3 hr).1
    | nothing => simpa using (h4 hr).1
    | failed msg => simpa using (h5 msg hr).1
  · intro hl
    rw [tlsPresent_eq]
    have hl2 : ((w.withChallengeCert t domain c hash).getSolverInfo t.address).2.listener
        = none := by
      rw [getSolverInfo_snd] at hl ⊢
      exact hl
    obtain ⟨h1, _, h3, h4, h5⟩ := presentAt_unbound (w.withChallengeCert t domain c hash)
      t.address true net hl2
    refine ⟨h1, robustTryListen_listens _ _, ?_⟩
    cases hr : (robustTryListen t.address net).1 with
    | bound => simpa using (h3 hr).1
    | nothing => simpa using (h4 hr).1
    | failed msg => simpa using (h5 msg hr).1

/-- C24 as stated fails. The first `Present` on `:80` finds the port held by
another process: `robustTryListen` returns no listener and no error, `Present`
returns `nil` and leaves a record with count 1 and no listener. The second
`Present`, called while the first has not been cleaned up, calls
`robustTryListen` again, binds the socket that has become free and starts a
server. -/
theorem only_the_binder_binds_counterexample :
    (httpSolver80.Present SolverWorld.init "a.example" "t1" "t1.thumb" takenPort).2 = none ∧
    afterBusyPresent.solvers ":80"
      = some { closed := 0, count := 1, listener := none, done := false } ∧
    afterBusyPresent.listenCalls = 1 ∧ afterBusyPresent.serversStarted = 0 ∧
    afterSecondPresent.solvers ":80"
      = some { closed := 0, count := 2, listener := some 0, done := false } ∧
    afterSecondPresent.listenCalls = 2 ∧ afterSecondPresent.serversStarted = 1 := by
  refine ⟨by decide, by decide, by decide, by decide, by decide, by decide, by decide⟩

theorem foldl_stepLocked_solvers (es : List SolverEvent) :
    ∀ w : SolverWorld, (es.foldl SolverWorld.stepLocked w).solvers = w.solvers := by
  induction es with
  | nil => intro w; rfl
  | cons e es ih =>
    intro w
    rw [List.foldl_cons, ih]
    cases e with
    | httpPresent s domain token keyAuth net => rfl
    | httpCleanUp s domain token keyAuth => rfl
    | tlsPresent t domain token keyAuth cert hash net =>
      cases cert with
      | error err => rfl
      | ok c => rfl
    | tlsCleanUp t domain token keyAuth => rfl

theorem solverInv_count (a : String) (d : Nat) (w : SolverWorld) (hinv : SolverInv a d w) :
    0 ≤ (w.getSolverInfo a).2.count := by
  obtain ⟨i1, i2, _⟩ := hinv
  rw [getSolverInfo_snd]
  rcases Nat.eq_zero_or_pos d with hd | hd
  · rw [i1 hd]
    decide
  · obtain ⟨si, hs, hc⟩ := i2 hd
    rw [hs]
    show 0 ≤ si.count
    omega

/-- A `CleanUp` that does not return leaves the count of every address at a
value that is not negative, if it was so before. -/
theorem cleanUpAt_never_count (w : SolverWorld) (a b : String) (f : Bool)
    (h : (w.cleanUpAt b f).2 = false) (h0 : 0 ≤ (w.getSolverInfo a).2.count) :
    0 ≤ (((w.cleanUpAt b f).1.solvers a).getD ⟨0, 0, none, false⟩).count := by
  by_cases hab : b = a
  · subst hab
    have hz := ((cleanUpAt_never w b f).1.mp h).1
    rw [(cleanUpAt_never w b f).2 h]
    show 0 ≤ (w.getSolverInfo b).2.count - 1
    omega
  · rw [cleanUpAt_other w a b f hab, ← getSolverInfo_snd]
    exact h0

theorem count_nonneg_run (a : String) (es : List SolverEvent) :
    ∀ (w : SolverWorld) (d : Nat), SolverInv a d w →
      matched a SolverEvent.reachesTable d es = true →
      0 ≤ ((w.run es).1.getSolverInfo a).2.count := by
  induction es with
  | nil =>
    intro w d hinv _
    exact solverInv_count a d w hinv
  | cons e es ih =>
    intro w d hinv hm
    cases hs : (w.step e).2 with
    | true =>
      obtain ⟨d1, h1, h2, _⟩ := inv_step a d w e es hinv hm hs
      have hrun : w.run (e :: es) = (w.step e).1.run es := by
        simp only [SolverWorld.run, hs, if_true]
      rw [hrun]
      exact ih (w.step e).1 d1 h1 h2
    | false =>
      have hrun : w.run (e :: es) = (es.foldl SolverWorld.stepLocked (w.step e).1, false) := by
        simp only [SolverWorld.run, hs, Bool.false_eq_true, if_false]
      rw [hrun, getSolverInfo_snd, foldl_stepLocked_solvers]
      have h0 := solverInv_count a d w hinv
      cases e with
      | httpPresent s domain token keyAuth net => simp [SolverWorld.step] at hs
      | tlsPresent t domain token keyAuth cert hash net => simp [SolverWorld.step] at hs
      | httpCleanUp s domain token keyAuth =>
        rw [step_httpCleanUp] at hs ⊢
        exact cleanUpAt_never_count w a s.address false hs h0
      | tlsCleanUp t domain token keyAuth =>
        rw [step_tlsCleanUp] at hs
        rw [cleanUpAt_closed_returns] at hs
        cases hs

/-- The `CleanUp` on the address `a` removes the record exactly when it brings
the count to 0 and returns; on a record without listener it returns. -/
theorem cleanUpAt_removes (w w0 : SolverWorld) (a : String) (f : Bool)
    (hw0 : w0.solvers = w.solvers) :
    ((w0.cleanUpAt a f).1.solvers a = none ↔
      (w.getSolverInfo a).2.count = 1 ∧ (w0.cleanUpAt a f).2 = true) ∧
    ((w.getSolverInfo a).2.listener = none → (w0.cleanUpAt a f).2 = true) := by
  have hsi : (w0.getSolverInfo a).2 = (w.getSolverInfo a).2 := by
    rw [getSolverInfo_snd, getSolverInfo_snd, hw0]
  obtain ⟨_, e2, e3⟩ := cleanUpAt_effect w0 a f
  obtain ⟨n1, n2⟩ := cleanUpAt_never w0 a f
  rw [hsi] at e2 e3 n1 n2
  constructor
  · by_cases hz : (w.getSolverInfo a).2.count - 1 = 0
    · cases hr : (w0.cleanUpAt a f).2 with
      | true =>
        rw [(e2 hz).1 hr]
        simp only [Function.update_same, and_true, true_iff]
        omega
      | false =>
        rw [n2 hr]
        simp
    · rw [(e3 hz).1]
      simp only [Function.update_same]
      constructor
      · intro h
        cases h
      · intro h
        omega
  · intro hl
    cases hr : (w0.cleanUpAt a f).2 with
    | true => rfl
    | false =>
      obtain ⟨_, ln, hln, _⟩ := n1.mp hr
      rw [hl] at hln
      cases hln

/-- C27 (amended). `Present` counts on every path that reaches the solver
table. The record of the address is there afterwards with its count one higher
than before (a record that was missing counts as 0), whether `Present` found a
listener, bound one, found the port in use, or failed. When it fails, the error
is that of `robustTryListen`, the record has no listener, and its count is at
least 1 exactly when the count was not negative before the call. The count is
not negative in any state reached from the empty table by calls in which every
`CleanUp` follows a `Present` of its own that reached the table. A
`tlsALPNSolver.Present` whose challenge certificate cannot be made returns
before the table and changes nothing. A record that is there stays there
through every call that is not a `CleanUp` on its address. A `CleanUp` on its
address removes it exactly when it brings the count to 0 and returns, and it
returns whenever the record has no listener. For example, a first `Present` on
`:80` that may not bind the port and finds nobody listening returns the error
and leaves a record with count 1 and no listener, and the `CleanUp` that
follows removes the record. -/
theorem present_counts_on_every_path (w : SolverWorld) (a : String) (tls : Bool)
    (net : Nat → ListenAttempt) :
    (∃ si', (w.presentAt a tls net).1.solvers a = some si' ∧
      si'.count = (w.getSolverInfo a).2.count + 1 ∧
      (∀ err, (w.presentAt a tls net).2 = some err →
        (∃ msg, (robustTryListen a net).1 = .failed msg ∧ err = .plain msg) ∧
        (w.getSolverInfo a).2.listener = none ∧ si'.listener = none ∧
        (1 ≤ si'.count ↔ 0 ≤ (w.getSolverInfo a).2.count))) ∧
    (∀ (s : HttpSolver) domain token keyAuth,
      s.Present w domain token keyAuth net = w.presentAt s.address false net) ∧
    (∀ (t : TlsALPNSolver) domain token keyAuth c hash,
      (t.Present w domain token keyAuth (.ok c) hash net).1.solvers
        = (w.presentAt t.address true net).1.solvers ∧
      (t.Present w domain token keyAuth (.ok c) hash net).2
        = (w.presentAt t.address true net).2) ∧
    (∀ (t : TlsALPNSolver) domain token keyAuth err hash,
      t.Present w domain token keyAuth (.error err) hash net = (w, some err)) ∧
    (∀ e : SolverEvent, w.solvers a ≠ none → (e.address ≠ a ∨ e.isCleanUp = false) →
      (w.step e).1.solvers a ≠ none) ∧
    (∀ e : SolverEvent, e.address = a → e.isCleanUp = true →
      ((w.step e).1.solvers a = none ↔
        (w.getSolverInfo a).2.count = 1 ∧ (w.step e).2 = true) ∧
      ((w.getSolverInfo a).2.listener = none → (w.step e).2 = true)) ∧
    (∀ es : List SolverEvent, matched a SolverEvent.reachesTable 0 es = true →
      0 ≤ ((SolverWorld.init.run es).1.getSolverInfo a).2.count) ∧
    ((httpSolver80.Present SolverWorld.init "a.example" "t1" "t1.thumb" deniedPort).2
        = some (.plain ("could not start listener for challenge server at :80: "
            ++ "listen tcp :80: bind: permission denied")) ∧
      afterFailedPresent.solvers ":80"
        = some { closed := 0, count := 1, listener := none, done := false } ∧
      (httpSolver80.CleanUp afterFailedPresent "a.example" "t1" "t1.thumb").2.2
        = .returned none ∧
      (httpSolver80.CleanUp afterFailedPresent "a.example" "t1" "t1.thumb").2.1.solvers ":80"
        = none) := by
  refine ⟨?_, fun _ _ _ _ => rfl, ?_, fun _ _ _ _ _ _ => rfl, ?_, ?_, ?_,
    by decide, by decide, by decide, by decide⟩
  · cases hl : (w.getSolverInfo a).2.listener with
    | some ln =>
      have hs : w.solvers a = some (w.getSolverInfo a).2 := by
        rw [getSolverInfo_snd] at hl ⊢
        cases h : w.solvers a with
        | none => rw [h] at hl; simp at hl
        | some si => rfl
      rw [presentAt_listening w a tls net _ ln hs hl]
      refine ⟨{ (w.getSolverInfo a).2 with count := (w.getSolverInfo a).2.count + 1 },
        by simp, rfl, ?_⟩
      intro err herr
      simp at herr
    | none =>
      obtain ⟨_, _, h3, h4, h5⟩ := presentAt_unbound w a tls net hl
      cases hr : (robustTryListen a net).1 with
      | bound =>
        refine ⟨_, (h3 hr).2.2, rfl, ?_⟩
        intro err herr
        rw [(h3 hr).2.1] at herr
        cases herr
      | nothing =>
        refine ⟨_, (h4 hr).2.2, rfl, ?_⟩
        intro err herr
        rw [(h4 hr).2.1] at herr
        cases herr
      | failed msg =>
        refine ⟨_, (h5 msg hr).2.2, rfl, ?_⟩
        intro err herr
        rw [(h5 msg hr).2.1] at herr
        cases herr
        refine ⟨⟨msg, rfl, rfl⟩, rfl, hl, ?_⟩
        show 1 ≤ (w.getSolverInfo a).2.count + 1 ↔ 0 ≤ (w.getSolverInfo a).2.count
        omega
  · intro t domain token keyAuth c hash
    rw [tlsPresent_eq]
    exact presentAt_solvers_eq w _ t.address true net rfl rfl
  · intro e hne hor
    cases e with
    | httpPresent s domain token keyAuth net' =>
      exact presentAt_keeps w a s.address false net' hne
    | tlsPresent t domain token keyAuth cert hash net' =>
      cases cert with
      | error err => exact hne
      | ok c =>
        simp only [SolverWorld.step]
        rw [tlsPresent_eq]
        exact presentAt_keeps (w.withChallengeCert t domain c hash) a t.address true net' hne
    | httpCleanUp s domain token keyAuth =>
      rcases hor with h | h
      · simp only [SolverEvent.address] at h
        rw [step_httpCleanUp, cleanUpAt_other w a s.address false h]
        exact hne
      · simp [SolverEvent.isCleanUp] at h
    | tlsCleanUp t domain token keyAuth =>
      rcases hor with h | h
      · simp only [SolverEvent.address] at h
        rw [step_tlsCleanUp, cleanUpAt_other _ a t.address true h]
        exact hne
      · simp [SolverEvent.isCleanUp] at h
  · intro e hea hcl
    cases e with
    | httpPresent s domain token keyAuth net' => simp [SolverEvent.isCleanUp] at hcl
    | tlsPresent t domain token keyAuth cert hash net' => simp [SolverEvent.isCleanUp] at hcl
    | httpCleanUp s domain token keyAuth =>
      simp only [SolverEvent.address] at hea
      subst hea
      rw [step_httpCleanUp]
      exact cleanUpAt_removes w w s.address false rfl
    | tlsCleanUp t domain token keyAuth =>
      simp only [SolverEvent.address] at hea
      subst hea
      rw [step_tlsCleanUp]
      exact cleanUpAt_removes w _ t.address true rfl
  · intro es hm
    exact count_nonneg_run a es SolverWorld.init 0 (solverInv_init a) hm

/-- C27 as stated fails. On the empty table a `tlsALPNSolver.Present` on `:80`
fails in `tlsalpn01.ChallengeCert` and returns before the table; its `CleanUp`
makes a record with count -1. The `httpSolver.Present` that follows reaches the
table, fails in `robustTryListen` and returns the error: the record it leaves
has no listener and count 0, not a count of at least 1; and the `CleanUp` that
follows that `Present` does not remove the record, it leaves it with count -1. -/
theorem present_counts_counterexample :
    matched ":80" SolverEvent.isPresent 0 failedCertThenFailedPresent = true ∧
    (SolverWorld.init.run failedCertThenCleanUp).2 = true ∧
    (SolverWorld.init.run failedCertThenCleanUp).1.solvers ":80"
      = some { closed := 0, count := -1, listener := none, done := false } ∧
    (httpSolver80.Present (SolverWorld.init.run failedCertThenCleanUp).1 "a.example" "t1"
        "t1.thumb" deniedPort).2
      = some (.plain ("could not start listener for challenge server at :80: "
          ++ "listen tcp :80: bind: permission denied")) ∧
    (SolverWorld.init.run failedCertThenFailedPresent).1.solvers ":80"
      = some { closed := 0, count := 0, listener := none, done := false } ∧
    (httpSolver80.CleanUp (SolverWorld.init.run failedCertThenFailedPresent).1 "a.example" "t1"
        "t1.thumb").2.2 = .returned none ∧
    (httpSolver80.CleanUp (SolverWorld.init.run failedCertThenFailedPresent).1 "a.example" "t1"
        "t1.thumb").2.1.solvers ":80"
      = some { closed := 0, count := -1, listener := none, done := false } := by
  refine ⟨by decide, by decide, by decide, by decide, by decide, by decide, by decide⟩
/-! ## Challenge rotation -/

theorem rotation_exhausts (g : Globals) (rand : Nat → Nat → Nat)
    (hr : ∀ k len, 0 < len → rand k len < len) :
    ∀ (n k : Nat) (client : AcmeClient) (available : List ChallengeType),
      available.length = n →
      ∃ cs client', rotation g rand n k client available = some (cs, [], client') ∧
        cs.Perm available ∧ client'.mgr = client.mgr ∧ client'.caURL = client.caURL := by
  intro n
  induction n with
  | zero =>
    intro k client available hlen
    have : available = [] := List.length_eq_zero.mp hlen
    subst this
    exact ⟨[], client, rfl, List.Perm.refl _, rfl, rfl⟩
  | succ n ih =>
    intro k client available hlen
    have hi : rand k available.length < available.length := hr k _ (by omega)
    obtain ⟨⟨client1, h1, hca, hmgr⟩, hl, hperm, _, _⟩ :=
      nextChallenge_pops_one g client available (rand k available.length) hi
    obtain ⟨cs, client2, h2, hp2, hm2, hc2⟩ := ih (k + 1) client1
      (available.eraseIdx (rand k available.length)) (by rw [hl]; omega)
    refine ⟨available[rand k available.length] :: cs, client2, ?_, ?_, ?_, ?_⟩
    · simp only [rotation, h1, h2]
    · exact (List.Perm.cons _ hp2).trans hperm
    · rw [hm2, hmgr]
    · rw [hc2, hca]

theorem rotation_append (g : Globals) (rand : Nat → Nat → Nat) :
    ∀ (n j k : Nat) (client client' : AcmeClient) (available cs : List ChallengeType),
      rotation g rand n k client available = some (cs, [], client') →
      rotation g rand (n + j) k client available
        = some (cs ++ List.replicate j "", [], client') := by
  intro n
  induction n with
  | zero =>
    intro j k client client' available cs h
    simp only [rotation, Option.some.injEq, Prod.mk.injEq] at h
    obtain ⟨h1, h2, h3⟩ := h
    subst h1 h2 h3
    simp only [Nat.zero_add, List.nil_append]
    induction j generalizing k with
    | zero => rfl
    | succ j ihj =>
      have : client.nextChallenge g [] (rand k ([] : List ChallengeType).length)
          = some (("", []), client) := by
        simp [AcmeClient.nextChallenge]
      simp only [rotation, this, ihj (k + 1), List.replicate_succ]
  | succ n ih =>
    intro j k client client' available cs h
    have hn : n + 1 + j = (n + j) + 1 := by omega
    rw [hn]
    simp only [rotation] at h ⊢
    cases h1 : client.nextChallenge g available (rand k available.length) with
    | none => simp [h1] at h
    | some r =>
      obtain ⟨⟨chosen, rest⟩, client1⟩ := r
      simp only [h1] at h ⊢
      cases h2 : rotation g rand n (k + 1) client1 rest with
      | none => simp [h2] at h
      | some r2 =>
        obtain ⟨cs2, final, client2⟩ := r2
        simp only [h2, Option.some.injEq, Prod.mk.injEq] at h
        obtain ⟨hc, hf, hcl⟩ := h
        subst hc hf hcl
        rw [ih j (k + 1) client1 client2 rest cs2 h2]
        rfl

/-- C25. Challenge rotation terminates and never takes a spent challenge. The
list `initialChallenges()` has `n ≤ 2` entries without duplicate, none of them
the empty string. Feeding each remainder back into `nextChallenge`, with a
random source that draws an index below the length it is given: the first `n`
calls return the initial challenges, each exactly once, in some order, and
leave the empty list; call `n + 1` and every later call return `""`. No index
expression panics. -/
theorem rotation_terminates (g : Globals) (rand : Nat → Nat → Nat) (client : AcmeClient)
    (j : Nat) (hr : ∀ k len, 0 < len → rand k len < len) :
    client.initialChallenges.length ≤ 2 ∧ client.initialChallenges.Nodup ∧
    "" ∉ client.initialChallenges ∧
    ∃ cs client',
      rotation g rand client.initialChallenges.length 0 client client.initialChallenges
        = some (cs, [], client') ∧
      cs.Perm client.initialChallenges ∧ cs.Nodup ∧
      cs.length = client.initialChallenges.length ∧
      rotation g rand (client.initialChallenges.length + (j + 1)) 0 client
          client.initialChallenges
        = some (cs ++ List.replicate (j + 1) "", [], client') := by
  have hspec := initialChallenges_spec client
  have hlen : client.initialChallenges.length ≤ 2 := by
    by_cases hd : client.mgr.DNSProvider = none
    · have := (hspec.2.1 hd).1.length_le
      simpa using this
    · rw [hspec.1 hd]
      simp
  have hemp : "" ∉ client.initialChallenges := by
    by_cases hd : client.mgr.DNSProvider = none
    · intro h
      have := (hspec.2.1 hd).1.subset h
      revert this
      decide
    · rw [hspec.1 hd]
      decide
  obtain ⟨cs, client', h1, hp, _, _⟩ :=
    rotation_exhausts g rand hr _ 0 client client.initialChallenges rfl
  exact ⟨hlen, hspec.2.2.1, hemp, cs, client', h1, hp, hp.nodup_iff.mpr hspec.2.2.1,
    hp.length_eq, rotation_append g rand _ (j + 1) 0 client client' _ cs h1⟩

theorem rotation_terminates_witness :
    (∀ k len, 0 < len → lastIndex k len < len) ∧
    plainClient.initialChallenges = [HTTP01, TLSALPN01] ∧
    (rotation plainGlobals lastIndex 3 0 plainClient plainClient.initialChallenges).map
        (fun r => r.1) = some [TLSALPN01, HTTP01, ""] ∧
    plainClient.initialChallenges.length ≤ 2 :=
  ⟨fun _ _ h => Nat.sub_lt h Nat.one_pos, by decide, by decide,
    (rotation_terminates plainGlobals lastIndex plainClient 0
      (fun _ _ h => Nat.sub_lt h Nat.one_pos)).1⟩

/-! ## The certificate timeout -/

theorem registerUser_timeouts (env : ClientEnv) (manager : ACMEManager)
    (acmeClients : String → Option LegoClient) (caURL : String) (leUser : User)
    (client : LegoClient) :
    (registerUser env manager acmeClients [] caURL leUser client).calls.filterMap
      ClientCall.certificateTimeout = [] := by
  unfold registerUser
  simp only
  cases env.register client manager.Agreed
      (manager.ExternalAccount.map fun ea => (ea.KeyID, env.base64 ea.HMAC)) with
  | error err => simp [ClientCall.certificateTimeout]
  | ok reg =>
    simp only
    cases env.saveUser manager caURL { leUser with Registration := some reg } with
    | some err => simp [ClientCall.certificateTimeout]
    | none => simp [ClientCall.certificateTimeout]

theorem finishClient_timeouts (env : ClientEnv) (manager : ACMEManager)
    (acmeClients : String → Option LegoClient) (caURL : String) (leUser : User)
    (client : LegoClient) (interactive : Bool) :
    (finishClient env manager acmeClients [] caURL leUser client interactive).calls.filterMap
      ClientCall.certificateTimeout = [] := by
  unfold finishClient
  by_cases hreg : leUser.Registration = none
  · simp only [hreg, if_true]
    cases interactive with
    | false =>
      simp only [Bool.false_eq_true, if_false]
      exact registerUser_timeouts env manager acmeClients caURL leUser client
    | true =>
      simp only [if_true]
      by_cases hask : (!manager.Agreed && decide (client.tosURL ≠ "")) = true
      · simp only [hask, if_true]
        split
        · simp [ClientCall.certificateTimeout]
        · rw [registerUser_calls env _ acmeClients ([] ++ _)]
          simp only [List.filterMap_append, registerUser_timeouts]
          simp [ClientCall.certificateTimeout]
      · simp only [hask, if_false, Bool.false_eq_true]
        exact registerUser_timeouts env manager acmeClients caURL leUser client
  · simp [hreg]

/-- Whatever the outside world answers, the configuration of every
`lego.NewClient` call of `newACMEClient` carries `manager.CertObtainTimeout`;
the defaulted local variable is not handed on. -/
theorem newACMEClient_timeout (g : Globals) (env : ClientEnv) (manager : ACMEManager)
    (acmeClients : String → Option LegoClient) (useTestCA interactive : Bool) :
    ∀ t ∈ (newACMEClient g env manager acmeClients useTestCA interactive).calls.filterMap
        ClientCall.certificateTimeout, t = manager.CertObtainTimeout := by
  cases hp : env.urlParse (resolveCAURL g manager useTestCA) with
  | error err =>
    intro t ht
    simp [newACMEClient, hp] at ht
  | ok u =>
    by_cases hc : u.Scheme ≠ "https" ∧ env.isLoopback u.Host = false ∧
        env.isInternal u.Host = false
    · rw [newACMEClient_insecure g env manager acmeClients useTestCA interactive u hp hc]
      intro t ht
      simp at ht
    · cases hu : env.getUser manager (resolveCAURL g manager useTestCA) manager.Email with
      | error err =>
        rw [newACMEClient_getUser_error g env manager acmeClients useTestCA interactive u err
          hp hc hu]
        intro t ht
        simp [ClientCall.certificateTimeout] at ht
      | ok leUser =>
        cases ht : acmeClients (resolveCAURL g manager useTestCA ++ leUser.Email) with
        | some client =>
          rw [newACMEClient_hit g env manager acmeClients useTestCA interactive u leUser client
            hp hc hu ht, finishClient_calls]
          intro t hmem
          simp only [List.filterMap_append, finishClient_timeouts, List.append_nil] at hmem
          simp [ClientCall.certificateTimeout] at hmem
        | none =>
          cases hn : env.newClient
              (legoConfigFor g manager (resolveCAURL g manager useTestCA) leUser) with
          | error err =>
            rw [newACMEClient_miss_error g env manager acmeClients useTestCA interactive u
              leUser err hp hc hu ht hn]
            intro t hmem
            simp [ClientCall.certificateTimeout, legoConfigFor] at hmem
            exact hmem
          | ok client =>
            rw [newACMEClient_miss g env manager acmeClients useTestCA interactive u leUser
              client hp hc hu ht hn, finishClient_calls]
            intro t hmem
            simp only [List.filterMap_append, finishClient_timeouts, List.append_nil] at hmem
            simp [ClientCall.certificateTimeout, legoConfigFor] at hmem
            exact hmem

/-- C26, evaluated on the code. The manager leaves `CertObtainTimeout` at zero
and `DefaultACME.CertObtainTimeout` is ninety seconds, so the local variable
`certObtainTimeout` is ninety seconds; the client that `newACMEClient`
constructs is configured with a certificate timeout of zero all the same. A
manager with a timeout of its own gets a client with that timeout. -/
theorem certificate_timeout_not_defaulted :
    plainManager.CertObtainTimeout = 0 ∧
    plainGlobals.DefaultACME.CertObtainTimeout = 90000000000 ∧
    defaultedTimeout plainGlobals plainManager = 90000000000 ∧
    (newACMEClient plainGlobals plainEnv plainManager (fun _ => none) false false).calls.filterMap
      ClientCall.certificateTimeout = [0] ∧
    (newACMEClient plainGlobals plainEnv plainManager (fun _ => none) false
      false).result.toOption.map (fun c => c.acmeClient.certTimeout) = some 0 ∧
    (newACMEClient plainGlobals plainEnv patientManager (fun _ => none) false
      false).calls.filterMap ClientCall.certificateTimeout = [30000000000] := by
  refine ⟨by decide, by decide, by decide, by decide, by decide, by decide⟩

end Otomatik
